import Mathlib

/-!
# multinomineq: polytope membership, starting values, Gibbs sampling and stepwise counting

A shallow embedding of `src/src/binomial.cpp` and a verification development over it.

Conventions of the embedding

* `double` values are exact rationals (`ℚ`): all statements are statements of exact
  arithmetic.  `int` values are unbounded integers.
* An Armadillo `vec` is a list of rationals; a `mat` is the list of its rows together with
  its number of columns (a matrix with no rows still has a width).
* The run-time checks of the matrix library (element access, `dot`, sub-views, element-wise
  operations) are modelled as errors of the `Except` monad.
* Everything that comes from the host (random draws, the abort flag, the numerical routines
  `pbeta` and `qbeta`, the content of freshly allocated memory) is a field of `Host`.
  A single clock counts the calls made to the host; a draw is a function of the clock value
  at which it is made.
* `for` loops over a fixed range are folds over that range; `while` loops are `while_loop`
  with an explicit bound on the number of iterations.
-/

namespace Multinomineq

/-! ## Data model -/

/-- An Armadillo column or row vector of doubles. -/
abbrev Vec := List ℚ

/-- An Armadillo dense matrix, stored as the list of its rows. -/
structure Mat where
  n_cols : Nat
  rows : List Vec
  deriving DecidableEq, Repr

/-- Number of rows of a matrix. -/
def Mat.n_rows (A : Mat) : Nat := A.rows.length

/-- Every stored row has the declared width. -/
def Mat.wf (A : Mat) : Prop := ∀ r ∈ A.rows, r.length = A.n_cols

instance (A : Mat) : Decidable A.wf := by
  unfold Mat.wf; infer_instance

/-- Ways in which a call can fail to return a value. -/
inductive Err where
  /-- An element, row or column index is outside the object. -/
  | index_out_of_bounds
  /-- Two operands of `dot`, of an element-wise operation, of a product or of a copy
  differ in size. -/
  | incompatible_dims
  /-- The call `stop("Could not find starting values within the polytope")`. -/
  | no_starting_values
  /-- A matrix of negative size was requested. -/
  | bad_alloc
  /-- Integer division by zero. -/
  | div_by_zero
  /-- A reduction such as `max()` or `min()` over an object without elements. -/
  | no_elements
  /-- Not an outcome of the program: the bound on the number of iterations given to
  `while_loop` was reached with the loop condition still true. -/
  | out_of_fuel
  deriving DecidableEq, Repr

deriving instance DecidableEq for Except

/-- The loop `while (cond) body`, run for at most `fuel` iterations. -/
def while_loop {σ : Type} (cond : σ → Bool) (body : σ → Except Err σ) :
    Nat → σ → Except Err σ
  | 0, s => if cond s then .error .out_of_fuel else .ok s
  | fuel + 1, s => if cond s then (body s) >>= (while_loop cond body fuel) else .ok s

/-- The loop `for (x : xs) out.push_back(f(x))`, stopping at the first failure. -/
def for_each {α β : Type} (f : α → Except Err β) : List α → Except Err (List β)
  | [] => .ok []
  | a :: as => do
    let b ← f a
    let bs ← for_each f as
    pure (b :: bs)

/-- Conversion of a `double` to `int`: truncation toward zero. -/
def to_int (q : ℚ) : Int := Int.tdiv q.num q.den

/-! ## Matrix library -/

/-- Checked element access `v(i)`. -/
def vat (v : Vec) (i : Nat) : Except Err ℚ :=
  match v[i]? with
  | some a => .ok a
  | none => .error .index_out_of_bounds

/-- Checked row access `A.row(i)`. -/
def Mat.row (A : Mat) (i : Nat) : Except Err Vec :=
  match A.rows[i]? with
  | some r => .ok r
  | none => .error .index_out_of_bounds

/-- The sum of the element-wise products of two vectors. -/
def dotq (x y : Vec) : ℚ := (List.zipWith (· * ·) x y).sum

/-- The library call `dot(x, y)`: both operands must have the same number of elements. -/
def dot (x y : Vec) : Except Err ℚ :=
  if x.length = y.length then .ok (dotq x y) else .error .incompatible_dims

/-- The library call `accu(v)`: the sum of all elements. -/
def accu (v : Vec) : ℚ := v.sum

/-! ## Polytope membership (`inside_Ab`, `count_samples`) -/

/-- State of the inner loop of `inside_Ab`. -/
structure InsideState where
  inside : Bool
  idx : Nat
  deriving DecidableEq, Repr

/-- The condition `inside && idx < b.n_elem` of the inner loop of `inside_Ab`. -/
def inside_Ab_cond (b : Vec) (s : InsideState) : Bool :=
  s.inside && decide (s.idx < b.length)

/-- The body `inside = dot(X.row(m), A.row(idx)) <= b(idx); idx += 1;` of the inner loop of
`inside_Ab`, for the row `x = X.row(m)`. -/
def inside_Ab_body (A : Mat) (b : Vec) (x : Vec) (s : InsideState) : Except Err InsideState := do
  let a ← A.row s.idx
  let d ← dot x a
  let bi ← vat b s.idx
  pure { inside := decide (d ≤ bi), idx := s.idx + 1 }

/-- The body of the outer loop of `inside_Ab` for one row `x = X.row(m)`:
`inside = true; idx = 0; while (inside && idx < b.n_elem) { ... }`; the value is the final
`inside`.  The inner loop increases `idx` at every turn, so `b.n_elem` turns suffice. -/
def inside_Ab_row (A : Mat) (b : Vec) (x : Vec) : Except Err Bool := do
  let s ← while_loop (inside_Ab_cond b) (inside_Ab_body A b x) b.length
    { inside := true, idx := 0 }
  pure s.inside

/-- The function `inside_Ab(X, A, b)`: one flag (1 or 0) per row of `X`. -/
def inside_Ab (X A : Mat) (b : Vec) : Except Err Vec :=
  for_each (fun x => do
    let inside ← inside_Ab_row A b x
    pure (if inside then (1 : ℚ) else 0)) X.rows

/-- The function `count_samples(mat X, A, b)`. -/
def count_samples (X A : Mat) (b : Vec) : Except Err Int := do
  let i ← inside_Ab X A b
  pure (to_int (accu i))

/-- The overload `count_samples(vec X, A, b)`: `X` is reshaped to a matrix of one row. -/
def count_samples_vec (X : Vec) (A : Mat) (b : Vec) : Except Err Int :=
  count_samples { n_cols := X.length, rows := [X] } A b

/-- The point `x` satisfies row `r` of `A x ≤ b`, for every `r` below the length of `b`. -/
def inside (A : Mat) (b : Vec) (x : Vec) : Prop :=
  ∀ r, r < b.length → dotq x (A.rows.getD r []) ≤ b.getD r 0

instance (A : Mat) (b x : Vec) : Decidable (inside A b x) := by
  unfold inside; infer_instance

/-! ## More of the matrix library -/

/-- Conversion of a `double` to the unsigned index type `uword` (64 bits): truncation; a
negative value wraps around. -/
def to_uword (q : ℚ) : Nat :=
  if 0 ≤ to_int q then (to_int q).toNat else (to_int q + 2 ^ 64).toNat

/-- Conversion of an `int` to the unsigned index type `uword` (64 bits): a negative value
wraps around. -/
def int_to_uword (i : Int) : Nat :=
  if 0 ≤ i then i.toNat else (i + 2 ^ 64).toNat

/-- Element-wise `x - y` with the size check of the library. -/
def vsub (x y : Vec) : Except Err Vec :=
  if x.length = y.length then .ok (List.zipWith (· - ·) x y) else .error .incompatible_dims

/-- Element-wise `x + y` with the size check of the library. -/
def vadd (x y : Vec) : Except Err Vec :=
  if x.length = y.length then .ok (List.zipWith (· + ·) x y) else .error .incompatible_dims

/-- Element-wise `x / y` with the size check of the library. -/
def vdiv (x y : Vec) : Except Err Vec :=
  if x.length = y.length then .ok (List.zipWith (· / ·) x y) else .error .incompatible_dims

/-- The product `A * x` of a matrix and a column vector. -/
def Mat.mulVec (A : Mat) (x : Vec) : Except Err Vec :=
  if A.n_cols = x.length then .ok (A.rows.map (fun a => dotq a x)) else .error .incompatible_dims

/-- Checked column access `A.col(j)`. -/
def Mat.col (A : Mat) (j : Nat) : Except Err Vec :=
  if j < A.n_cols then .ok (A.rows.map (fun a => a.getD j 0)) else .error .index_out_of_bounds

/-- The sub-view `A.rows(r1, r2)`: rows `r1` to `r2`, both included. -/
def Mat.rows_range (A : Mat) (r1 r2 : Nat) : Except Err Mat :=
  if r1 > r2 ∨ r2 ≥ A.n_rows then .error .index_out_of_bounds
  else .ok { n_cols := A.n_cols, rows := (A.rows.drop r1).take (r2 - r1 + 1) }

/-- The sub-view `v.subvec(i1, i2)`: elements `i1` to `i2`, both included. -/
def subvec (v : Vec) (i1 i2 : Nat) : Except Err Vec :=
  if i1 > i2 ∨ i2 ≥ v.length then .error .index_out_of_bounds
  else .ok ((v.drop i1).take (i2 - i1 + 1))

/-- Assignment `A.row(i) = v` into a row of a matrix, with bound and size checks. -/
def Mat.set_row (A : Mat) (i : Nat) (v : Vec) : Except Err Mat :=
  if i < A.n_rows then
    if v.length = A.n_cols then .ok { A with rows := A.rows.set i v }
    else .error .incompatible_dims
  else .error .index_out_of_bounds

/-- Checked element assignment `A(i, j) = v`. -/
def Mat.set_elem (A : Mat) (i j : Nat) (v : ℚ) : Except Err Mat :=
  if i < A.n_rows ∧ j < A.n_cols then
    .ok { A with rows := A.rows.set i ((A.rows.getD i []).set j v) }
  else .error .index_out_of_bounds

/-- Removal `shed` of the rows `r1` to `r2`, both included. -/
def Mat.shed_rows (A : Mat) (r1 r2 : Nat) : Except Err Mat :=
  if r1 > r2 ∨ r2 ≥ A.n_rows then .error .index_out_of_bounds
  else .ok { A with rows := A.rows.take r1 ++ A.rows.drop (r2 + 1) }

/-- The library call `find(v ...)`: the indices of the elements that satisfy `p`. -/
def find (p : ℚ → Bool) (v : Vec) : List Nat :=
  (List.range v.length).filter (fun r => p (v.getD r 0))

/-- The indexed view `v(indices)`. -/
def elem (v : Vec) (indices : List Nat) : Except Err Vec :=
  for_each (vat v) indices

/-- The reduction `v.max()`. -/
def vmax : Vec → Except Err ℚ
  | [] => .error .no_elements
  | a :: as => .ok (as.foldl max a)

/-- The reduction `v.min()`. -/
def vmin : Vec → Except Err ℚ
  | [] => .error .no_elements
  | a :: as => .ok (as.foldl min a)

/-- The library call `resize(v, n, 1)`: elements are kept, new elements are zero. -/
def resize (v : Vec) (n : Nat) : Vec :=
  (v ++ List.replicate (n - v.length) 0).take n

/-- The library call `unique(v)`: the distinct elements, in ascending order. -/
def unique (v : Vec) : Vec :=
  (v.dedup).insertionSort (· ≤ ·)

/-- The library call `sort(v)`: ascending order. -/
def sort (v : Vec) : Vec :=
  v.insertionSort (· ≤ ·)

/-! ## The host -/

/-- What the host environment supplies.  A draw is a function of the clock value at which
the call is made; every call to the host advances the clock by one. -/
structure Host where
  /-- Answer of `Progress::check_abort()`. -/
  check_abort : Nat → Bool
  /-- Element `d` of the vector filled by `randu`. -/
  randu : Nat → Nat → ℚ
  /-- The draw `R::runif(0, 1)`. -/
  runif : Nat → ℚ
  /-- The draw `sample(idx, D, false)`. -/
  sample : Nat → List Nat → Nat → List Nat
  /-- Element `r` of the vector `rbeta(n, shape1, shape2)`. -/
  rbeta : Nat → Nat → ℚ → ℚ → ℚ
  /-- The routine `R::pbeta(x, shape1, shape2, lower_tail, log_p)`. -/
  pbeta : ℚ → ℚ → ℚ → Bool → Bool → ℚ
  /-- The routine `R::qbeta(p, shape1, shape2, lower_tail, log_p)`. -/
  qbeta : ℚ → ℚ → ℚ → Bool → Bool → ℚ
  /-- Element `(row, col)` of a matrix that was allocated and not yet written. -/
  uninit : Nat → Nat → ℚ
  /-- Element `d` of the unit vector `normalise(randn(D, 1))`. -/
  direction : Nat → Nat → ℚ

/-! ## Truncated beta (`rbeta_trunc`) and beta matrices (`rbeta_mat`) -/

/-- The interpolated tail probability `pmin + u * (pmax - pmin)` of `rbeta_trunc`. -/
def rbeta_trunc_p (h : Host) (t : Nat) (shape1 shape2 min max : ℚ) : ℚ :=
  let pmin := h.pbeta min shape1 shape2 false false
  let pmax := h.pbeta max shape1 shape2 false false
  let u := h.runif t
  pmin + u * (pmax - pmin)

/-- The function `rbeta_trunc(shape1, shape2, min, max)`, called at clock value `t`. -/
def rbeta_trunc (h : Host) (t : Nat) (shape1 shape2 min max : ℚ) : ℚ × Nat :=
  (h.qbeta (rbeta_trunc_p h t shape1 shape2 min max) shape1 shape2 false false, t + 1)

/-- The function `rbeta_mat(n, shape1, shape2)` on vectors of shapes: column `d` is one call
`rbeta(n, shape1(d), shape2(d))`. -/
def rbeta_mat (h : Host) (t : Nat) (n : Int) (shape1 shape2 : Vec) : Except Err (Mat × Nat) :=
  if n < 0 then .error .bad_alloc
  else do
    let cols ← for_each (fun d => do
      let s1 ← vat shape1 d
      let s2 ← vat shape2 d
      pure ((List.range n.toNat).map (fun r => h.rbeta (t + d) r s1 s2)))
      (List.range shape1.length)
    pure ({ n_cols := shape1.length,
            rows := (List.range n.toNat).map (fun r => cols.map (fun c => c.getD r 0)) },
          t + shape1.length)

/-! ## Starting values (`start_random`) -/

/-- The call `start.randu(D)` at clock value `t`. -/
def randu (h : Host) (t : Nat) (D : Nat) : Vec :=
  (List.range D).map (fun d => h.randu t d)

/-- State of the search loop of `start_random`. -/
structure StartState where
  search : Bool
  cnt : Int
  start : Vec
  clock : Nat
  deriving DecidableEq, Repr

/-- The condition `search && cnt < fmax(M, 1000)`. -/
def start_random_cond (M : Int) (s : StartState) : Bool :=
  s.search && decide (s.cnt < max M 1000)

/-- The body `cnt++; start.randu(A.n_cols); search = 1 - count_samples(start, A, b);`. -/
def start_random_body (h : Host) (A : Mat) (b : Vec) (s : StartState) :
    Except Err StartState := do
  let cnt := s.cnt + 1
  let start := randu h s.clock A.n_cols
  let c ← count_samples_vec start A b
  pure { search := decide (1 - c ≠ 0), cnt := cnt, start := start, clock := s.clock + 1 }

/-- The function `start_random(A, b, M, start)`, called at clock value `t`; the value is the
starting point and the clock after the call.  The loop increases `cnt` at every turn, so
`fmax(M, 1000)` turns suffice. -/
def start_random (h : Host) (A : Mat) (b : Vec) (M : Int) (start : Vec) (t : Nat) :
    Except Err (Vec × Nat) := do
  let s0 ← vat start 0
  if s0 = -1 then
    let s ← while_loop (start_random_cond M) (start_random_body h A b) (max M 1000).toNat
      { search := true, cnt := 0, start := start, clock := t }
    if s.cnt = max M 1000 then .error .no_starting_values
    else pure (s.start, s.clock)
  else pure (start, t)

/-! ## Gibbs sampler (`sampling_binomial_cpp`) -/

/-- One call of `rbeta_trunc` made by the sampler: the interval it was given and the value
it returned. -/
structure Draw where
  bmin : ℚ
  bmax : ℚ
  value : ℚ
  deriving DecidableEq, Repr

/-- State of the main loop of `sampling_binomial_cpp`.  The chain matrix `X` (one column per
iteration) is stored transposed: row `i` of `Xt` is `X.col(i)`.  The field `draws` is not a
variable of the program: it records the calls of `rbeta_trunc` in the order they are made. -/
structure Gibbs where
  Xt : Mat
  run : Bool
  idx : List Nat
  clock : Nat
  draws : List Draw
  deriving DecidableEq, Repr

/-- The vector `rhs = (b - A * x + A.col(j) * x(j)) / A.col(j)` of the sampler, at the
point `x` and the coordinate `j`. -/
def gibbs_rhs (A : Mat) (b : Vec) (x : Vec) (j : Nat) : Except Err Vec := do
  let Ax ← A.mulVec x
  let Aj ← A.col j
  let xj ← vat x j
  let d1 ← vsub b Ax
  let d2 ← vadd d1 (Aj.map (fun a => a * xj))
  vdiv d2 Aj

/-- The lower bound: `bmin = 0; Aneg = find(A.col(j) < 0);
if (!Aneg.is_empty()) bmin = rhs(Aneg).max();`. -/
def gibbs_bmin (rhs Aj : Vec) : Except Err ℚ :=
  if (find (fun a => decide (a < 0)) Aj).isEmpty then pure 0
  else (elem rhs (find (fun a => decide (a < 0)) Aj)) >>= vmax

/-- The upper bound: `bmax = 1; Apos = find(A.col(j) > 0);
if (!Apos.is_empty()) bmax = rhs(Apos).min();`. -/
def gibbs_bmax (rhs Aj : Vec) : Except Err ℚ :=
  if (find (fun a => decide (a > 0)) Aj).isEmpty then pure 1
  else (elem rhs (find (fun a => decide (a > 0)) Aj)) >>= vmin

/-- The truncation bounds `(bmin, bmax)` of coordinate `j` at the point `x`. -/
def gibbs_bounds (A : Mat) (b : Vec) (x : Vec) (j : Nat) : Except Err (ℚ × ℚ) := do
  let rhs ← gibbs_rhs A b x j
  let Aj ← A.col j
  let bmin ← gibbs_bmin rhs Aj
  let bmax ← gibbs_bmax rhs Aj
  pure (bmin, bmax)

/-- The body of the loop over `m` in iteration `i`: the update of coordinate `j = idx(m)`. -/
def gibbs_site (h : Host) (k n : Vec) (A : Mat) (b prior : Vec) (i : Nat) (s : Gibbs)
    (m : Nat) : Except Err Gibbs := do
  let j ← match s.idx[m]? with
    | some j => Except.ok j
    | none => Except.error Err.index_out_of_bounds
  let x ← s.Xt.row i
  let (bmin, bmax) ← gibbs_bounds A b x j
  let kj ← vat k j
  let p0 ← vat prior 0
  let nj ← vat n j
  let p1 ← vat prior 1
  let (v, t) := rbeta_trunc h s.clock (kj + p0) (nj - kj + p1) bmin bmax
  let Xt ← s.Xt.set_elem i j v
  pure { s with Xt := Xt, clock := t,
                draws := s.draws ++ [{ bmin := bmin, bmax := bmax, value := v }] }

/-- The statement `if (run && i % steps == 0) run = !Progress::check_abort();` of
iteration `i`, with `steps = 100`. -/
def gibbs_check (h : Host) (s : Gibbs) (i : Nat) : Gibbs :=
  if s.run && i % 100 == 0
  then { s with run := !(h.check_abort s.clock), clock := s.clock + 1 } else s

/-- The body of the main loop of `sampling_binomial_cpp` for iteration `i`, where `D` is the
number of columns of `A`. -/
def gibbs_iter (h : Host) (k n : Vec) (A : Mat) (b prior : Vec) (D : Nat) (s : Gibbs)
    (i : Nat) : Except Err Gibbs := do
  let s := gibbs_check h s i
  if s.run then
    let prev ← s.Xt.row (i - 1)
    let Xt ← s.Xt.set_row i prev
    let idx := h.sample s.clock s.idx D
    let s := { s with Xt := Xt, idx := idx, clock := s.clock + 1 }
    (List.range D).foldlM (gibbs_site h k n A b prior i) s
  else pure s

/-- What `sampling_binomial_cpp` returns: the matrix of samples, the clock after the call,
and the record of the calls of `rbeta_trunc`. -/
structure SamplerOut where
  sample : Mat
  clock : Nat
  draws : List Draw
  deriving DecidableEq, Repr

/-- The declaration `mat X(D, N)`, stored transposed: `N` rows of width `D` whose content
is what the host left in memory. -/
def fresh_chain (h : Host) (D N : Nat) : Mat :=
  { n_cols := D, rows := (List.range N).map (fun c => (List.range D).map (fun r => h.uninit r c)) }

/-- The state of `sampling_binomial_cpp` when its main loop is entered: `X` is allocated and
`X.col(0)` holds the starting point. -/
def sampling_binomial_init (h : Host) (A : Mat) (b : Vec) (M : Int) (start : Vec)
    (burnin : Int) (t : Nat) : Except Err Gibbs := do
  let D := A.n_cols
  if M + burnin < 0 then Except.error Err.bad_alloc
  else
    let Xt := fresh_chain h D (M + burnin).toNat
    let (st, t) ← start_random h A b M start t
    let Xt ← Xt.set_row 0 st
    pure { Xt := Xt, run := true, idx := List.range D, clock := t, draws := [] }

/-- The state of `sampling_binomial_cpp` when the variable `i` of its main loop reaches
`last`: the iterations 1 to `last - 1` are done. -/
def sampling_binomial_chain (h : Host) (k n : Vec) (A : Mat) (b prior : Vec) (M : Int)
    (start : Vec) (burnin : Int) (t : Nat) (last : Nat) : Except Err Gibbs := do
  let s ← sampling_binomial_init h A b M start burnin t
  (List.range' 1 (last - 1)).foldlM (gibbs_iter h k n A b prior A.n_cols) s

/-- The function `sampling_binomial_cpp(k, n, A, b, prior, M, start, burnin)`, called at
clock value `t`: the main loop runs until `i` reaches `M + burnin`, then the first `burnin`
columns are shed and the transpose is returned. -/
def sampling_binomial_cpp (h : Host) (k n : Vec) (A : Mat) (b prior : Vec) (M : Int)
    (start : Vec) (burnin : Int) (t : Nat) : Except Err SamplerOut := do
  let s ← sampling_binomial_chain h k n A b prior M start burnin t (M + burnin).toNat
  let Xt ← s.Xt.shed_rows 0 (int_to_uword (burnin - 1))
  pure { sample := Xt, clock := s.clock, draws := s.draws }

/-- The points stored in the rows of `Xt` at the positions below `i` are all inside. -/
def rows_inside (A : Mat) (b : Vec) (Xt : Mat) (i : Nat) : Prop :=
  ∀ c, c < i → c < Xt.n_rows → inside A b (Xt.rows.getD c [])

/-- The invariant of the main loop of the sampler while no abort is signalled: `Xt` has `N`
rows of the width of `A`, the rows at the positions below `i` are inside, and `run` holds. -/
def chain_ok (A : Mat) (b : Vec) (N i : Nat) (s : Gibbs) : Prop :=
  s.Xt.n_cols = A.n_cols ∧ s.Xt.wf ∧ s.Xt.n_rows = N ∧ rows_inside A b s.Xt i ∧ s.run = true

/-- Every recorded call of `rbeta_trunc` returned a value in the interval it was given. -/
def draws_in_range (draws : List Draw) : Prop :=
  ∀ d ∈ draws, d.bmin ≤ d.value ∧ d.value ≤ d.bmax

instance (draws : List Draw) : Decidable (draws_in_range draws) := by
  unfold draws_in_range; infer_instance

/-- The point `x` lies in the unit box: every coordinate is in `[0, 1]`. -/
def in_unit_box (x : Vec) : Prop := ∀ c ∈ x, 0 ≤ c ∧ c ≤ 1

instance (x : Vec) : Decidable (in_unit_box x) := by
  unfold in_unit_box; infer_instance

/-- The recorded call of `rbeta_trunc` returned a value in the interval it was given and in
`[0, 1]`. -/
def draw_in_box (d : Draw) : Prop :=
  d.bmin ≤ d.value ∧ d.value ≤ d.bmax ∧ 0 ≤ d.value ∧ d.value ≤ 1

instance (d : Draw) : Decidable (draw_in_box d) := by
  unfold draw_in_box; infer_instance

/-- No recorded call of `rbeta_trunc` was given an inverted interval, as long as the calls
before it returned values in their intervals and in `[0, 1]`. -/
def intervals_ok (draws : List Draw) : Prop :=
  ∀ pre d post, draws = pre ++ d :: post → (∀ e ∈ pre, draw_in_box e) → d.bmin ≤ d.bmax

/-! ## Monte Carlo counter (`count_binomial_cpp`) -/

/-- State of the batch loop of `count_binomial_cpp`.  The fields `rounds` and `drawn` are not
variables of the program: they count the turns in which points were drawn and the points
drawn and tested so far. -/
structure CountState where
  run : Bool
  count : Int
  todo : Int
  clock : Nat
  rounds : Nat
  drawn : Int
  deriving DecidableEq, Repr

/-- The condition `todo > 0`. -/
def count_binomial_cond (s : CountState) : Bool := decide (s.todo > 0)

/-- The body of the batch loop of `count_binomial_cpp`. -/
def count_binomial_body (h : Host) (k n : Vec) (A : Mat) (b prior : Vec) (batch : Int)
    (s : CountState) : Except Err CountState :=
  if s.run then do
    let run := !(h.check_abort s.clock)
    let p0 ← vat prior 0
    let p1 ← vat prior 1
    let nk ← vsub n k
    let (X, t) ← rbeta_mat h (s.clock + 1) (min s.todo batch)
      (k.map (fun a => a + p0)) (nk.map (fun a => a + p1))
    let c ← count_samples X A b
    pure { run := run, count := s.count + c, todo := s.todo - batch, clock := t,
           rounds := s.rounds + 1, drawn := s.drawn + (X.n_rows : Int) }
  else pure s

/-- The batch loop of `count_binomial_cpp` from its initial state, run for at most `fuel`
turns; the value is the state in which the loop ends. -/
def count_binomial_run (h : Host) (fuel : Nat) (k n : Vec) (A : Mat) (b prior : Vec)
    (M batch : Int) (t : Nat) : Except Err CountState :=
  while_loop count_binomial_cond (count_binomial_body h k n A b prior batch) fuel
    { run := true, count := 0, todo := M, clock := t, rounds := 0, drawn := 0 }

/-- The invariant of the batch loop while no abort is signalled: `run` holds, `todo` is `M`
less `batch` per round, the last round started with points left to draw, the points drawn
and the points left add up to `M`, and the count is between 0 and the points drawn. -/
def count_ok (M batch : Int) (s : CountState) : Prop :=
  s.run = true ∧ s.todo = M - (s.rounds : Int) * batch ∧ (s.rounds = 0 ∨ 0 < s.todo + batch) ∧
  s.drawn + max s.todo 0 = M ∧ 0 ≤ s.count ∧ s.count ≤ s.drawn

/-- The named vector returned by `count_binomial_cpp`. -/
structure CountResult where
  integral : ℚ
  count : ℚ
  M : ℚ
  deriving DecidableEq, Repr

/-- The function `count_binomial_cpp(k, n, A, b, prior, M, batch)`, called at clock value
`t`; the batch loop is run for at most `fuel` turns. -/
def count_binomial_cpp (h : Host) (fuel : Nat) (k n : Vec) (A : Mat) (b prior : Vec)
    (M batch : Int) (t : Nat) : Except Err (CountResult × Nat) :=
  if batch = 0 then .error .div_by_zero
  else do
    let s ← count_binomial_run h fuel k n A b prior M batch t
    pure ({ integral := (s.count : ℚ) / (M : ℚ), count := (s.count : ℚ), M := (M : ℚ) },
          s.clock)

/-! ## Stepwise counting (`sort_steps`, `count_stepwise`) -/

/-- The function `sort_steps(steps, max)`. -/
def sort_steps (steps : Vec) (max : Int) : Vec :=
  let steps := resize steps (steps.length + 1)
  let steps := steps.set (steps.length - 1) (max : ℚ)
  sort (unique (steps.map (fun s => s - 1)))

/-- The list returned by `count_stepwise`. -/
structure StepwiseResult where
  integral : ℚ
  count : Vec
  M : Vec
  steps : Vec
  deriving DecidableEq, Repr

/-- The sub-systems of `(A, b)` handed over in one block of `count_stepwise`: the system the
sampler is restricted to (none in block 0, whose points are drawn by `count_binomial_cpp`
itself) and the system whose constraints are counted.  It is not a variable of the program:
it records the arguments of the calls. -/
structure BlockUse where
  sampler : Option (Mat × Vec)
  counted : Mat × Vec
  deriving DecidableEq, Repr

/-- State of the loop over the blocks of `count_stepwise`: the vector `cnt`, the clock of the
host, and the record `used` of the sub-systems handed over so far, one entry per block (the
record is not a variable of the program). -/
structure StepwiseState where
  cnt : Vec
  clock : Nat
  used : List BlockUse
  deriving DecidableEq, Repr

/-- The body of the loop over the blocks `s ≥ 1` of `count_stepwise`. -/
def count_stepwise_block (h : Host) (k n : Vec) (A : Mat) (b prior : Vec) (M steps : Vec)
    (start : Vec) (st : StepwiseState) (s : Nat) : Except Err StepwiseState := do
  let sp ← vat steps (s - 1)
  let ss ← vat steps s
  let Ms ← vat M s
  let A1 ← A.rows_range 0 (to_uword sp)
  let b1 ← subvec b 0 (to_uword sp)
  let out ← sampling_binomial_cpp h k n A1 b1 prior (to_int Ms) start 10 st.clock
  let A2 ← A.rows_range (to_uword (sp + 1)) (to_uword ss)
  let b2 ← subvec b (to_uword (sp + 1)) (to_uword ss)
  let c ← count_samples out.sample A2 b2
  let cs ← vat st.cnt s
  pure { cnt := st.cnt.set s (cs + (c : ℚ)), clock := out.clock,
         used := st.used ++ [{ sampler := some (A1, b1), counted := (A2, b2) }] }

/-- The statement `if (M.n_elem == 1) M = M(0) * ones(S);` of `count_stepwise`. -/
def broadcast_M (M : Vec) (S : Nat) : Except Err Vec :=
  if M.length = 1 then (vat M 0) >>= (fun m0 => pure (List.replicate S m0)) else pure M

/-- The body of `count_stepwise(k, n, A, b, prior, M, steps, batch, start)`, called at clock
value `t`; the batch loop of the counter is run for at most `fuel` turns.  The value is the
list that is returned and the state in which the loop over the blocks ended. -/
def count_stepwise_run (h : Host) (fuel : Nat) (k n : Vec) (A : Mat) (b prior : Vec)
    (M steps : Vec) (batch : Int) (start : Vec) (t : Nat) :
    Except Err (StepwiseResult × StepwiseState) := do
  let steps := sort_steps steps (A.n_rows : Int)
  let S := steps.length
  let M ← broadcast_M M S
  let cnt : Vec := List.replicate S 0
  let s0 ← vat steps 0
  let A0 ← A.rows_range 0 (to_uword s0)
  let b0 ← subvec b 0 (to_uword s0)
  let M0 ← vat M 0
  let (r0, t) ← count_binomial_cpp h fuel k n A0 b0 prior (to_int M0) batch t
  let cnt := cnt.set 0 r0.count
  let st ← (List.range' 1 (S - 1)).foldlM
    (count_stepwise_block h k n A b prior M steps start)
    { cnt := cnt, clock := t, used := [{ sampler := none, counted := (A0, b0) }] }
  let MS ← subvec M 0 (S - 1)
  let q ← vdiv st.cnt MS
  pure ({ integral := q.prod, count := st.cnt, M := M, steps := steps.map (fun s => s + 1) },
        st)

/-- The function `count_stepwise(k, n, A, b, prior, M, steps, batch, start)`, called at clock
value `t`: the list that is returned, and the clock after the call. -/
def count_stepwise (h : Host) (fuel : Nat) (k n : Vec) (A : Mat) (b prior : Vec)
    (M steps : Vec) (batch : Int) (start : Vec) (t : Nat) :
    Except Err (StepwiseResult × Nat) := do
  let r ← count_stepwise_run h fuel k n A b prior M steps batch start t
  pure (r.1, r.2.clock)

/-! ## Hit-and-run sampler (`sampling_hitandrun`) -/

/-- The call `normalise(randn(D, 1))` at clock value `t`. -/
def direction (h : Host) (t : Nat) (D : Nat) : Vec :=
  (List.range D).map (fun d => h.direction t d)

/-- The call `R::runif(a, b)` at clock value `t`: `a + (b - a) * u`, where `u` is the draw
of the host on the unit interval (the library gives no number when `b < a`). -/
def R_runif (h : Host) (t : Nat) (a b : ℚ) : ℚ × Nat :=
  (a + (b - a) * h.runif t, t + 1)

/-- The library call `any(v ...)`: some element satisfies `p`. -/
def any (p : ℚ → Bool) (v : Vec) : Bool := v.any p

/-- The lower bound of the step: `bmin = 0; if (any(z < 0)) bmin = rhs(find(z < 0)).max();`. -/
def hitandrun_bmin (rhs z : Vec) : Except Err ℚ :=
  if any (fun a => decide (a < 0)) z then (elem rhs (find (fun a => decide (a < 0)) z)) >>= vmax
  else pure 0

/-- The upper bound of the step: `bmax = 1; if (any(z > 0)) bmax = rhs(find(z > 0)).min();`. -/
def hitandrun_bmax (rhs z : Vec) : Except Err ℚ :=
  if any (fun a => decide (a > 0)) z then (elem rhs (find (fun a => decide (a > 0)) z)) >>= vmin
  else pure 1

/-- The bounds `(bmin, bmax)` of the step along the direction `u` from the point `x`:
`z = A * u; rhs = (b - A * x) / z;` and the two reductions. -/
def hitandrun_bounds (A : Mat) (b x u : Vec) : Except Err (ℚ × ℚ) := do
  let z ← A.mulVec u
  let Ax ← A.mulVec x
  let d ← vsub b Ax
  let rhs ← vdiv d z
  let bmin ← hitandrun_bmin rhs z
  let bmax ← hitandrun_bmax rhs z
  pure (bmin, bmax)

/-- State of the main loop of `sampling_hitandrun`; as for the Gibbs sampler, the chain matrix
is stored transposed. -/
structure HitRun where
  Xt : Mat
  run : Bool
  clock : Nat
  deriving DecidableEq, Repr

/-- The statement `if (run && i % steps == 0) run = !Progress::check_abort();` of
iteration `i` of `sampling_hitandrun`, with `steps = 100`. -/
def hitandrun_check (h : Host) (s : HitRun) (i : Nat) : HitRun :=
  if s.run && i % 100 == 0
  then { s with run := !(h.check_abort s.clock), clock := s.clock + 1 } else s

/-- The body of the main loop of `sampling_hitandrun` for iteration `i`, where `D` is the
number of columns of `A`. -/
def hitandrun_iter (h : Host) (A : Mat) (b : Vec) (D : Nat) (s : HitRun) (i : Nat) :
    Except Err HitRun := do
  let s := hitandrun_check h s i
  if s.run then
    let u := direction h s.clock D
    let x ← s.Xt.row (i - 1)
    let (bmin, bmax) ← hitandrun_bounds A b x u
    let (step, t) := R_runif h (s.clock + 1) bmin bmax
    let xnew ← vadd x (u.map (fun c => step * c))
    let Xt ← s.Xt.set_row i xnew
    pure { s with Xt := Xt, clock := t }
  else pure s

/-- The state of `sampling_hitandrun` when its main loop is entered. -/
def sampling_hitandrun_init (h : Host) (A : Mat) (b : Vec) (M : Int) (start : Vec)
    (burnin : Int) (t : Nat) : Except Err HitRun := do
  let D := A.n_cols
  if M + burnin < 0 then Except.error Err.bad_alloc
  else
    let Xt := fresh_chain h D (M + burnin).toNat
    let (st, t) ← start_random h A b M start t
    let Xt ← Xt.set_row 0 st
    pure { Xt := Xt, run := true, clock := t }

/-- The function `sampling_hitandrun(A, b, M, start, burnin)`, called at clock value `t`; the
value is the matrix of samples and the clock after the call. -/
def sampling_hitandrun (h : Host) (A : Mat) (b : Vec) (M : Int) (start : Vec)
    (burnin : Int) (t : Nat) : Except Err (Mat × Nat) := do
  let s0 ← sampling_hitandrun_init h A b M start burnin t
  let s ← (List.range' 1 ((M + burnin).toNat - 1)).foldlM (hitandrun_iter h A b A.n_cols) s0
  let Xt ← s.Xt.shed_rows 0 (int_to_uword (burnin - 1))
  pure (Xt, s.clock)

/-! ## Concrete hosts -/

/-- A host that never aborts, whose beta routines are those of the uniform distribution
(upper tail `1 - x`, with itself as inverse) and whose uniform draws are all `1 / 2`. -/
def host_uniform : Host where
  check_abort := fun _ => false
  randu := fun t d => 1 / (2 + (t : ℚ) + (d : ℚ))
  runif := fun _ => 1 / 2
  sample := fun _ idx _ => idx
  rbeta := fun _ _ _ _ => 1 / 2
  pbeta := fun x _ _ _ _ => 1 - x
  qbeta := fun p _ _ _ _ => 1 - p
  uninit := fun _ _ => 0
  direction := fun _ d => if d = 0 then 1 else 0

/-- A host whose first 999 calls of `randu` give the point `(1, ..., 1)` and whose later
calls give the origin. -/
def host_late : Host :=
  { host_uniform with randu := fun t _ => if t < 999 then 1 else 0 }

/-- A host whose abort flag is always set. -/
def host_abort : Host :=
  { host_uniform with check_abort := fun _ => true }

end Multinomineq

/-! ## Theorems -/

namespace Multinomineq

/-! ### Generic facts on the control structures -/

theorem ok_bind {α β : Type} (a : α) (f : α → Except Err β) :
    ((Except.ok a : Except Err α) >>= f) = f a := rfl

theorem error_bind {α β : Type} (e : Err) (f : α → Except Err β) :
    ((Except.error e : Except Err α) >>= f) = .error e := rfl

theorem pure_eq_ok {α : Type} (a : α) : (pure a : Except Err α) = .ok a := rfl

theorem while_loop_done {σ : Type} (cond : σ → Bool) (body : σ → Except Err σ)
    (fuel : Nat) (s : σ) (h : cond s = false) : while_loop cond body fuel s = .ok s := by
  cases fuel <;> simp [while_loop, h]

theorem while_loop_step {σ : Type} (cond : σ → Bool) (body : σ → Except Err σ)
    (fuel : Nat) (s : σ) (h : cond s = true) :
    while_loop cond body (fuel + 1) s = (body s) >>= (while_loop cond body fuel) := by
  simp [while_loop, h]

theorem for_each_eq_map {α β : Type} (f : α → Except Err β) (g : α → β) (l : List α)
    (h : ∀ a ∈ l, f a = .ok (g a)) : for_each f l = .ok (l.map g) := by
  induction l with
  | nil => rfl
  | cons a as ih =>
    have ha := h a (List.mem_cons_self a as)
    have has := ih (fun c hc => h c (List.mem_cons_of_mem a hc))
    simp only [for_each, ha, has, List.map_cons]
    rfl

/-! ### Polytope membership -/

theorem vat_eq_getD (v : Vec) (i : Nat) (h : i < v.length) : vat v i = .ok (v.getD i 0) := by
  rw [List.getD_eq_getElem v 0 h]
  simp [vat, List.getElem?_eq_getElem h]

theorem row_eq_getD (A : Mat) (i : Nat) (h : i < A.rows.length) :
    A.row i = .ok (A.rows.getD i []) := by
  rw [List.getD_eq_getElem A.rows [] h]
  simp [Mat.row, List.getElem?_eq_getElem h]

theorem inside_Ab_row_loop (A : Mat) (b x : Vec)
    (hA : ∀ r, r < b.length → (A.rows.getD r []).length = x.length ∧ r < A.rows.length) :
    ∀ fuel idx, idx + fuel = b.length →
      ∃ idx1, while_loop (inside_Ab_cond b) (inside_Ab_body A b x) fuel
          { inside := true, idx := idx }
        = .ok { inside := decide (∀ r, idx ≤ r → r < b.length →
                    dotq x (A.rows.getD r []) ≤ b.getD r 0), idx := idx1 } := by
  intro fuel
  induction fuel with
  | zero =>
    intro idx h
    refine ⟨idx, ?_⟩
    rw [while_loop_done _ _ _ _ (by simp [inside_Ab_cond]; omega)]
    have : ∀ r, idx ≤ r → r < b.length → dotq x (A.rows.getD r []) ≤ b.getD r 0 := by
      intro r h1 h2; omega
    rw [decide_eq_true this]
  | succ fuel ih =>
    intro idx h
    have hlt : idx < b.length := by omega
    obtain ⟨hlen, hrow⟩ := hA idx hlt
    rw [while_loop_step _ _ _ _ (by simp [inside_Ab_cond, hlt])]
    have e2 : dot x (A.rows.getD idx []) = .ok (dotq x (A.rows.getD idx [])) := by
      rw [dot, if_pos hlen.symm]
    have hbody : inside_Ab_body A b x { inside := true, idx := idx }
        = .ok { inside := decide (dotq x (A.rows.getD idx []) ≤ b.getD idx 0),
                idx := idx + 1 } := by
      simp only [inside_Ab_body, row_eq_getD A idx hrow, e2, vat_eq_getD b idx hlt, ok_bind,
        pure_eq_ok]
    rw [hbody, ok_bind]
    by_cases hd : dotq x (A.rows.getD idx []) ≤ b.getD idx 0
    · obtain ⟨idx1, h1⟩ := ih (idx + 1) (by omega)
      refine ⟨idx1, ?_⟩
      rw [decide_eq_true hd, h1]
      congr 2
      apply decide_eq_decide.mpr
      constructor
      · intro hall r hr1 hr2
        rcases Nat.eq_or_lt_of_le hr1 with heq | hlt2
        · subst heq; exact hd
        · exact hall r hlt2 hr2
      · intro hall r hr1 hr2
        exact hall r (by omega) hr2
    · refine ⟨idx + 1, ?_⟩
      rw [decide_eq_false hd, while_loop_done _ _ _ _ (by simp [inside_Ab_cond])]
      congr 2
      symm
      apply decide_eq_false
      intro hall
      exact hd (hall idx (le_refl _) hlt)

theorem inside_Ab_row_eq (A : Mat) (b x : Vec)
    (hA : ∀ r, r < b.length → (A.rows.getD r []).length = x.length ∧ r < A.rows.length) :
    inside_Ab_row A b x = .ok (decide (inside A b x)) := by
  obtain ⟨idx1, h⟩ := inside_Ab_row_loop A b x hA b.length 0 (by omega)
  unfold inside_Ab_row
  rw [h, ok_bind, pure_eq_ok]
  congr 1
  apply decide_eq_decide.mpr
  unfold inside
  constructor
  · intro hall r hr; exact hall r (Nat.zero_le r) hr
  · intro hall r _ hr; exact hall r hr

theorem wf_getD_length (A : Mat) (hA : A.wf) (r : Nat) (hr : r < A.rows.length) :
    (A.rows.getD r []).length = A.n_cols := by
  rw [List.getD_eq_getElem A.rows [] hr]
  exact hA _ (List.getElem_mem _)

theorem inside_Ab_eq (X A : Mat) (b : Vec) (hX : X.wf) (hA : A.wf)
    (hD : A.n_cols = X.n_cols) (hb : b.length ≤ A.n_rows) :
    inside_Ab X A b = .ok (X.rows.map (fun x => if inside A b x then (1 : ℚ) else 0)) := by
  unfold inside_Ab
  apply for_each_eq_map
  intro x hx
  have hrow : ∀ r, r < b.length →
      (A.rows.getD r []).length = x.length ∧ r < A.rows.length := by
    intro r hr
    have hr2 : r < A.rows.length := lt_of_lt_of_le hr hb
    exact ⟨by rw [wf_getD_length A hA r hr2, hX x hx, hD], hr2⟩
  rw [inside_Ab_row_eq A b x hrow, ok_bind, pure_eq_ok]
  simp

/-- C1: for a batch `X` of points of length `D`, an `R × D` matrix `A` and a vector `b` of
length `R`, `inside_Ab` returns one entry per row of `X`; every entry is 1 or 0, and entry
`m` is 1 exactly when `dot(X[m], A[r]) ≤ b[r]` for every row `r < R` (the early exit of the
inner loop does not show in the result); with `R = 0` every entry is 1. -/
theorem inside_Ab_spec (X A : Mat) (b : Vec) (D R : Nat)
    (hX : X.wf) (hXD : X.n_cols = D) (hA : A.wf) (hAD : A.n_cols = D)
    (hAR : A.n_rows = R) (hb : b.length = R) :
    ∃ i : Vec, inside_Ab X A b = .ok i ∧ i.length = X.n_rows ∧
      (∀ m, m < X.n_rows →
        (i.getD m 0 = 1 ∨ i.getD m 0 = 0) ∧
        (i.getD m 0 = 1 ↔
          ∀ r, r < R → dotq (X.rows.getD m []) (A.rows.getD r []) ≤ b.getD r 0)) ∧
      (R = 0 → ∀ m, m < X.n_rows → i.getD m 0 = 1) := by
  have hmain := inside_Ab_eq X A b hX hA (by rw [hAD, hXD]) (by rw [hb, hAR])
  have hentry : ∀ m, m < X.n_rows →
      (X.rows.map (fun x => if inside A b x then (1 : ℚ) else 0)).getD m 0
        = if inside A b (X.rows.getD m []) then 1 else 0 := by
    intro m hm
    have hm1 : m < X.rows.length := hm
    have hm2 : m < (X.rows.map (fun x => if inside A b x then (1 : ℚ) else 0)).length := by
      rw [List.length_map]; exact hm1
    rw [List.getD_eq_getElem _ _ hm2, List.getD_eq_getElem _ _ hm1, List.getElem_map]
  refine ⟨_, hmain, by rw [List.length_map]; rfl, ?_, ?_⟩
  · intro m hm
    rw [hentry m hm]
    by_cases hin : inside A b (X.rows.getD m [])
    · rw [if_pos hin]
      refine ⟨Or.inl rfl, fun _ => ?_, fun _ => rfl⟩
      intro r hr
      exact hin r (by rw [hb]; exact hr)
    · rw [if_neg hin]
      refine ⟨Or.inr rfl, fun h => absurd h (by norm_num), fun h => ?_⟩
      exact absurd (fun r hr => h r (by rw [← hb]; exact hr)) hin
  · intro hR m hm
    rw [hentry m hm, if_pos]
    intro r hr
    omega

/-- C1, at a batch of three points of the plane and two constraints. -/
theorem inside_Ab_spec_witness :
    ∃ i : Vec, inside_Ab ⟨2, [[0, 0], [1, 1], [1/2, 0]]⟩ ⟨2, [[1, 0], [0, 1]]⟩ [1/2, 1/2]
        = .ok i ∧
      i.length = (⟨2, [[0, 0], [1, 1], [1/2, 0]]⟩ : Mat).n_rows ∧
      (∀ m, m < (⟨2, [[0, 0], [1, 1], [1/2, 0]]⟩ : Mat).n_rows →
        (i.getD m 0 = 1 ∨ i.getD m 0 = 0) ∧
        (i.getD m 0 = 1 ↔
          ∀ r, r < 2 → dotq ((⟨2, [[0, 0], [1, 1], [1/2, 0]]⟩ : Mat).rows.getD m [])
            ((⟨2, [[1, 0], [0, 1]]⟩ : Mat).rows.getD r []) ≤ ([1/2, 1/2] : Vec).getD r 0)) ∧
      (2 = 0 → ∀ m, m < (⟨2, [[0, 0], [1, 1], [1/2, 0]]⟩ : Mat).n_rows → i.getD m 0 = 1) :=
  inside_Ab_spec ⟨2, [[0, 0], [1, 1], [1/2, 0]]⟩ ⟨2, [[1, 0], [0, 1]]⟩ [1/2, 1/2] 2 2
    (by decide) rfl (by decide) rfl rfl rfl

/-! ### Step boundaries -/

theorem resize_succ (v : Vec) : resize v (v.length + 1) = v ++ [0] := by
  unfold resize
  have : v.length + 1 - v.length = 1 := by omega
  rw [this]
  have h2 : (v ++ List.replicate 1 (0:ℚ)).length = v.length + 1 := by simp
  rw [← h2, List.take_length]
  rfl

theorem sort_steps_eq (steps : Vec) (mx : Int) :
    sort_steps steps mx
      = (((steps ++ [(mx : ℚ)]).map (fun s => s - 1)).dedup).insertionSort (· ≤ ·) := by
  unfold sort_steps
  simp only [resize_succ]
  have hset : (steps ++ [(0:ℚ)]).set ((steps ++ [(0:ℚ)]).length - 1) (mx : ℚ)
      = steps ++ [(mx : ℚ)] := by
    have : (steps ++ [(0:ℚ)]).length - 1 = steps.length := by simp
    rw [this, List.set_append_right _ _ (le_refl _)]
    simp
  rw [hset]
  unfold sort unique
  apply List.Sorted.insertionSort_eq
  exact List.sorted_insertionSort _ _

/-- C3: for every vector `steps` and every integer `max`, `sort_steps(steps, max)` is
strictly ascending and free of duplicates, and its elements are exactly the values `s - 1`
for `s` in `steps` together with `max - 1`; in particular
`sort_steps({2, 5}, 7) = {1, 4, 6}`. -/
theorem sort_steps_spec (steps : Vec) (mx : Int) :
    List.Sorted (· < ·) (sort_steps steps mx) ∧
    (sort_steps steps mx).Nodup ∧
    (∀ y : ℚ, y ∈ sort_steps steps mx ↔ (∃ s ∈ steps, y = s - 1) ∨ y = (mx : ℚ) - 1) ∧
    sort_steps [2, 5] 7 = [1, 4, 6] := by
  have hperm := List.perm_insertionSort (· ≤ · : ℚ → ℚ → Prop)
    (((steps ++ [(mx : ℚ)]).map (fun s => s - 1)).dedup)
  have hnodup : (sort_steps steps mx).Nodup := by
    rw [sort_steps_eq]
    exact hperm.nodup_iff.mpr (List.nodup_dedup _)
  have hsorted : List.Sorted (· ≤ ·) (sort_steps steps mx) := by
    rw [sort_steps_eq]
    exact List.sorted_insertionSort _ _
  refine ⟨hsorted.lt_of_le hnodup, hnodup, ?_, ?_⟩
  · intro y
    rw [sort_steps_eq, hperm.mem_iff, List.mem_dedup, List.mem_map]
    constructor
    · rintro ⟨s, hs, rfl⟩
      rcases List.mem_append.mp hs with h1 | h1
      · exact Or.inl ⟨s, h1, rfl⟩
      · rw [List.mem_singleton] at h1
        exact Or.inr (by rw [h1])
    · rintro (⟨s, hs, rfl⟩ | rfl)
      · exact ⟨s, List.mem_append_left _ hs, rfl⟩
      · exact ⟨(mx : ℚ), List.mem_append_right _ (List.mem_singleton_self _), rfl⟩
  · decide!


/-! ### Starting values -/

theorem to_int_one : to_int 1 = 1 := by decide!

theorem to_int_zero : to_int 0 = 0 := by decide!

theorem count_samples_vec_eq (A : Mat) (b x : Vec) (hA : A.wf) (hb : b.length ≤ A.n_rows)
    (hx : x.length = A.n_cols) :
    count_samples_vec x A b = .ok (if inside A b x then 1 else 0) := by
  unfold count_samples_vec count_samples
  have hX : (⟨x.length, [x]⟩ : Mat).wf := by
    intro r hr
    rw [List.mem_singleton] at hr
    rw [hr]
  rw [inside_Ab_eq ⟨x.length, [x]⟩ A b hX hA hx.symm hb, ok_bind, pure_eq_ok]
  by_cases hin : inside A b x
  · simp [hin, accu, to_int_one]
  · simp [hin, accu, to_int_zero]

theorem randu_length (h : Host) (t D : Nat) : (randu h t D).length = D := by
  simp [randu]

theorem start_random_body_eq (h : Host) (A : Mat) (b : Vec) (hA : A.wf)
    (hb : b.length ≤ A.n_rows) (s : StartState) :
    start_random_body h A b s
      = .ok { search := decide (¬ inside A b (randu h s.clock A.n_cols)), cnt := s.cnt + 1,
              start := randu h s.clock A.n_cols, clock := s.clock + 1 } := by
  simp only [start_random_body, count_samples_vec_eq A b _ hA hb (randu_length h _ _),
    ok_bind, pure_eq_ok]
  by_cases hin : inside A b (randu h s.clock A.n_cols) <;> simp [hin]

/-- The search loop when no draw before the last one of the budget is inside: the loop
ends with `cnt` equal to the budget, whatever the last draw is. -/
theorem start_random_loop_exhaust (h : Host) (A : Mat) (b : Vec) (hA : A.wf)
    (hb : b.length ≤ A.n_rows) (M : Int) (t : Nat) :
    ∀ fuel c st, c + fuel = (max M 1000).toNat →
      (∀ i, c ≤ i → i + 1 < (max M 1000).toNat → ¬ inside A b (randu h (t + i) A.n_cols)) →
      ∃ s1, while_loop (start_random_cond M) (start_random_body h A b) fuel
          { search := true, cnt := (c : Int), start := st, clock := t + c } = .ok s1 ∧
        s1.cnt = max M 1000 := by
  have hN : (((max M 1000).toNat : Nat) : Int) = max M 1000 :=
    Int.toNat_of_nonneg (le_trans (by norm_num) (le_max_right M 1000))
  intro fuel
  induction fuel with
  | zero =>
    intro c st hc _
    refine ⟨_, while_loop_done _ _ _ _ ?_, ?_⟩
    · simp only [start_random_cond, Bool.true_and, decide_eq_false_iff_not, not_lt]
      rw [← hN]; exact_mod_cast (by omega : (max M 1000).toNat ≤ c)
    · simp only
      rw [← hN]; exact_mod_cast (by omega : c = (max M 1000).toNat)
  | succ fuel ih =>
    intro c st hc hno
    have hlt : (c : Int) < max M 1000 := by
      rw [← hN]; exact_mod_cast (by omega : c < (max M 1000).toNat)
    rw [while_loop_step _ _ _ _ (by simp [start_random_cond, hlt]),
      start_random_body_eq h A b hA hb, ok_bind]
    by_cases hlast : c + 1 < (max M 1000).toNat
    · have hout := hno c (le_refl _) hlast
      simp only [hout, not_false_eq_true, decide_True]
      have := ih (c + 1) (randu h (t + c) A.n_cols) (by omega)
        (fun i hi1 hi2 => hno i (by omega) hi2)
      rw [Nat.cast_add, Nat.cast_one, ← Nat.add_assoc] at this
      exact this
    · have hc1 : ((c : Int) + 1) = max M 1000 := by
        rw [← hN]; exact_mod_cast (by omega : c + 1 = (max M 1000).toNat)
      refine ⟨_, while_loop_done _ _ _ _ ?_, ?_⟩
      · simp [start_random_cond, hc1]
      · exact hc1

/-- The search loop when draw number `i` (counted from 0) is the first one inside and is not
the last one of the budget: the loop ends at that draw. -/
theorem start_random_loop_found (h : Host) (A : Mat) (b : Vec) (hA : A.wf)
    (hb : b.length ≤ A.n_rows) (M : Int) (t i : Nat)
    (hi : i + 1 < (max M 1000).toNat) (hin : inside A b (randu h (t + i) A.n_cols)) :
    ∀ fuel c st, c + fuel = (max M 1000).toNat → c ≤ i →
      (∀ j, c ≤ j → j < i → ¬ inside A b (randu h (t + j) A.n_cols)) →
      while_loop (start_random_cond M) (start_random_body h A b) fuel
          { search := true, cnt := (c : Int), start := st, clock := t + c }
        = .ok { search := false, cnt := ((i + 1 : Nat) : Int),
                start := randu h (t + i) A.n_cols, clock := t + i + 1 } := by
  have hN : (((max M 1000).toNat : Nat) : Int) = max M 1000 :=
    Int.toNat_of_nonneg (le_trans (by norm_num) (le_max_right M 1000))
  intro fuel
  induction fuel with
  | zero =>
    intro c st hc hci _
    omega
  | succ fuel ih =>
    intro c st hc hci hno
    have hlt : (c : Int) < max M 1000 := by
      rw [← hN]; exact_mod_cast (by omega : c < (max M 1000).toNat)
    rw [while_loop_step _ _ _ _ (by simp [start_random_cond, hlt]),
      start_random_body_eq h A b hA hb, ok_bind]
    rcases Nat.eq_or_lt_of_le hci with heq | hlt2
    · subst heq
      simp only [hin, not_true_eq_false, decide_False]
      rw [while_loop_done _ _ _ _ (by simp [start_random_cond])]
      simp
    · have hout := hno c (le_refl _) hlt2
      simp only [hout, not_false_eq_true, decide_True]
      have := ih (c + 1) (randu h (t + c) A.n_cols) (by omega) (by omega)
        (fun j hj1 hj2 => hno j (by omega) hj2)
      rw [Nat.cast_add, Nat.cast_one, ← Nat.add_assoc] at this
      exact this

theorem start_random_sentinel (h : Host) (A : Mat) (b : Vec) (M : Int) (start : Vec)
    (t : Nat) (hs : start[0]? = some (-1 : ℚ)) :
    start_random h A b M start t
      = (while_loop (start_random_cond M) (start_random_body h A b) (max M 1000).toNat
          { search := true, cnt := 0, start := start, clock := t }) >>= (fun s =>
            if s.cnt = max M 1000 then .error .no_starting_values
            else pure (s.start, s.clock)) := by
  unfold start_random
  simp only [vat, hs, ok_bind, if_true]

/-- With the sentinel set, the search fails as soon as none of the first `N - 1` draws is
inside, where `N = max(M, 1000)`: the last draw of the budget cannot make it succeed. -/
theorem start_random_fails (h : Host) (A : Mat) (b : Vec) (hA : A.wf)
    (hb : b.length ≤ A.n_rows) (M : Int) (start : Vec) (t : Nat)
    (hs : start[0]? = some (-1 : ℚ))
    (hno : ∀ i, i + 1 < (max M 1000).toNat → ¬ inside A b (randu h (t + i) A.n_cols)) :
    start_random h A b M start t = .error .no_starting_values := by
  rw [start_random_sentinel h A b M start t hs]
  obtain ⟨s1, h1, h2⟩ := start_random_loop_exhaust h A b hA hb M t (max M 1000).toNat 0 start
    (by omega) (fun i _ hi => hno i hi)
  simp only [Nat.cast_zero, Nat.add_zero] at h1
  rw [h1, ok_bind, if_pos h2]

/-- With the sentinel set, when draw number `i` (counted from 0) is the first one inside and
`i + 1 < N`, the search returns that draw after `i + 1` draws. -/
theorem start_random_finds (h : Host) (A : Mat) (b : Vec) (hA : A.wf)
    (hb : b.length ≤ A.n_rows) (M : Int) (start : Vec) (t i : Nat)
    (hs : start[0]? = some (-1 : ℚ))
    (hi : i + 1 < (max M 1000).toNat) (hin : inside A b (randu h (t + i) A.n_cols))
    (hno : ∀ j, j < i → ¬ inside A b (randu h (t + j) A.n_cols)) :
    start_random h A b M start t = .ok (randu h (t + i) A.n_cols, t + i + 1) := by
  rw [start_random_sentinel h A b M start t hs]
  have h1 := start_random_loop_found h A b hA hb M t i hi hin (max M 1000).toNat 0 start
    (by omega) (Nat.zero_le _) (fun j _ hj => hno j hj)
  simp only [Nat.cast_zero, Nat.add_zero] at h1
  rw [h1, ok_bind, if_neg, pure_eq_ok]
  have hN : (((max M 1000).toNat : Nat) : Int) = max M 1000 :=
    Int.toNat_of_nonneg (le_trans (by norm_num) (le_max_right M 1000))
  simp only
  rw [← hN]
  exact_mod_cast (by omega : i + 1 ≠ (max M 1000).toNat)

/-- With a first element other than -1, the search branch is skipped. -/
theorem start_random_skip (h : Host) (A : Mat) (b : Vec) (M : Int) (start : Vec)
    (t : Nat) (hne : start ≠ []) (h0 : start.getD 0 0 ≠ -1) :
    start_random h A b M start t = .ok (start, t) := by
  cases start with
  | nil => exact absurd rfl hne
  | cons a as =>
    have ha : a ≠ -1 := by simpa using h0
    unfold start_random
    simp only [vat, List.getElem?_cons_zero, ok_bind, if_neg ha, pure_eq_ok]

/-- C4: for a non-empty `start` whose first element is not -1, `start_random` returns
`start` unchanged and leaves the clock of the host where it was (no draw is made), whatever
`A`, `b` and `M` are (feasibility of `start` is not looked at); so a second call on the
result of the first returns `start` again. -/
theorem start_random_explicit (h : Host) (A : Mat) (b : Vec) (M : Int) (start : Vec)
    (t : Nat) (hne : start ≠ []) (h0 : start.getD 0 0 ≠ -1) :
    start_random h A b M start t = .ok (start, t) ∧
    ((start_random h A b M start t) >>= (fun r => start_random h A b M r.1 r.2))
      = .ok (start, t) := by
  have hcall := start_random_skip h A b M start t hne h0
  refine ⟨hcall, ?_⟩
  rw [hcall, ok_bind]
  exact hcall

/-- C4, at a start that violates the only constraint `x ≤ 0`. -/
theorem start_random_explicit_witness :
    ¬ inside ⟨1, [[1]]⟩ [0] [5] ∧
    start_random host_uniform ⟨1, [[1]]⟩ [0] 3 [5] 0 = .ok ([5], 0) ∧
    ((start_random host_uniform ⟨1, [[1]]⟩ [0] 3 [5] 0) >>=
      (fun r => start_random host_uniform ⟨1, [[1]]⟩ [0] 3 r.1 r.2)) = .ok ([5], 0) :=
  ⟨by decide!, start_random_explicit host_uniform ⟨1, [[1]]⟩ [0] 3 [5] 0 (by simp) (by norm_num)⟩

/-- C5: with `M = 1` the budget is 1000 draws; on the constraint `x ≤ 1/2`, when the first
999 draws are the point 1 and draw number 1000 is the point 0, the last draw of the budget
is inside and no earlier one is, and `start_random` raises its error all the same. -/
theorem start_random_last_draw_rejected :
    inside ⟨1, [[1]]⟩ [1/2] (randu host_late 999 1) ∧
    (∀ i, i < 999 → ¬ inside ⟨1, [[1]]⟩ [1/2] (randu host_late i 1)) ∧
    start_random host_late ⟨1, [[1]]⟩ [1/2] 1 [-1] 0 = .error .no_starting_values := by
  have hout : ∀ i, i < 999 → ¬ inside ⟨1, [[1]]⟩ [1/2] (randu host_late i 1) := by
    intro i hi hin
    have h0 := hin 0 (by simp)
    simp [randu, host_late, dotq, hi] at h0
    norm_num at h0
  refine ⟨by decide!, hout, ?_⟩
  apply start_random_fails host_late ⟨1, [[1]]⟩ [1/2] (by decide) (by decide) 1 [-1] 0 rfl
  intro i hi
  have hN : (max (1 : Int) 1000).toNat = 1000 := by decide
  rw [hN] at hi
  rw [Nat.zero_add]
  exact hout i (by omega)
/-! ### Truncated beta -/

/-- C9: for shapes `shape1 > 0`, `shape2 > 0`, a bound `m` in `[0, 1]` and a uniform draw
`u` in `[0, 1]`, with `qbeta` the exact inverse of `pbeta` (upper tails) on `[0, 1]`,
`rbeta_trunc(shape1, shape2, m, m)` returns `m`: the interpolated tail probability
`pmin + u * (pmax - pmin)` is `pmin`, whatever `u` is. -/
theorem rbeta_trunc_degenerate (h : Host) (t : Nat) (shape1 shape2 m : ℚ)
    (_hs1 : 0 < shape1) (_hs2 : 0 < shape2) (hm0 : 0 ≤ m) (hm1 : m ≤ 1)
    (_hu0 : 0 ≤ h.runif t) (_hu1 : h.runif t ≤ 1)
    (hinv : ∀ x, 0 ≤ x → x ≤ 1 →
      h.qbeta (h.pbeta x shape1 shape2 false false) shape1 shape2 false false = x) :
    rbeta_trunc_p h t shape1 shape2 m m = h.pbeta m shape1 shape2 false false ∧
    (rbeta_trunc h t shape1 shape2 m m).1 = m := by
  have hp : rbeta_trunc_p h t shape1 shape2 m m = h.pbeta m shape1 shape2 false false := by
    simp only [rbeta_trunc_p]
    ring
  refine ⟨hp, ?_⟩
  simp only [rbeta_trunc, hp]
  exact hinv m hm0 hm1

/-- C9, for the uniform distribution at `m = 1/3`. -/
theorem rbeta_trunc_degenerate_witness :
    rbeta_trunc_p host_uniform 0 1 1 (1/3) (1/3) = host_uniform.pbeta (1/3) 1 1 false false ∧
    (rbeta_trunc host_uniform 0 1 1 (1/3) (1/3)).1 = 1/3 :=
  rbeta_trunc_degenerate host_uniform 0 1 1 (1/3) (by norm_num) (by norm_num) (by norm_num)
    (by norm_num) (by norm_num [host_uniform]) (by norm_num [host_uniform])
    (by intro x _ _; simp [host_uniform])

/-- C10: for shapes `shape1 > 0`, `shape2 > 0`, bounds `0 ≤ min ≤ max ≤ 1` and a uniform
draw `u` in `[0, 1]`, with the upper tail `pbeta` a decreasing map of `[0, 1]` into `[0, 1]`
and `qbeta` its exact inverse (a map of `[0, 1]` into `[0, 1]`, inverse on both sides), the
value of `rbeta_trunc(shape1, shape2, min, max)` lies in `[min, max]`; `u = 0` gives `min`
and `u = 1` gives `max`. -/
theorem rbeta_trunc_range (h : Host) (t : Nat) (shape1 shape2 min max : ℚ)
    (_hs1 : 0 < shape1) (_hs2 : 0 < shape2)
    (hmin : 0 ≤ min) (hmm : min ≤ max) (hmax : max ≤ 1)
    (hu0 : 0 ≤ h.runif t) (hu1 : h.runif t ≤ 1)
    (hanti : ∀ x y, 0 ≤ x → x ≤ y → y ≤ 1 →
      h.pbeta y shape1 shape2 false false ≤ h.pbeta x shape1 shape2 false false)
    (hprob : ∀ x, 0 ≤ x → x ≤ 1 →
      0 ≤ h.pbeta x shape1 shape2 false false ∧ h.pbeta x shape1 shape2 false false ≤ 1)
    (hleft : ∀ x, 0 ≤ x → x ≤ 1 →
      h.qbeta (h.pbeta x shape1 shape2 false false) shape1 shape2 false false = x)
    (hright : ∀ p, 0 ≤ p → p ≤ 1 →
      (0 ≤ h.qbeta p shape1 shape2 false false ∧ h.qbeta p shape1 shape2 false false ≤ 1) ∧
      h.pbeta (h.qbeta p shape1 shape2 false false) shape1 shape2 false false = p) :
    (min ≤ (rbeta_trunc h t shape1 shape2 min max).1 ∧
      (rbeta_trunc h t shape1 shape2 min max).1 ≤ max) ∧
    (h.runif t = 0 → (rbeta_trunc h t shape1 shape2 min max).1 = min) ∧
    (h.runif t = 1 → (rbeta_trunc h t shape1 shape2 min max).1 = max) := by
  have hmin1 : min ≤ 1 := le_trans hmm hmax
  have hmax0 : 0 ≤ max := le_trans hmin hmm
  have hle := hanti min max hmin hmm hmax
  obtain ⟨hpmin0, hpmin1⟩ := hprob min hmin hmin1
  obtain ⟨hpmax0, hpmax1⟩ := hprob max hmax0 hmax
  have hq : rbeta_trunc_p h t shape1 shape2 min max
      = h.pbeta min shape1 shape2 false false
        + h.runif t * (h.pbeta max shape1 shape2 false false
          - h.pbeta min shape1 shape2 false false) := rfl
  have hq_hi : rbeta_trunc_p h t shape1 shape2 min max
      ≤ h.pbeta min shape1 shape2 false false := by
    rw [hq]; nlinarith
  have hq_lo : h.pbeta max shape1 shape2 false false
      ≤ rbeta_trunc_p h t shape1 shape2 min max := by
    rw [hq]; nlinarith
  obtain ⟨⟨hy0, hy1⟩, hpy⟩ := hright (rbeta_trunc_p h t shape1 shape2 min max)
    (le_trans hpmax0 hq_lo) (le_trans hq_hi hpmin1)
  have hval : (rbeta_trunc h t shape1 shape2 min max).1
      = h.qbeta (rbeta_trunc_p h t shape1 shape2 min max) shape1 shape2 false false := rfl
  refine ⟨⟨?_, ?_⟩, ?_, ?_⟩
  · rw [hval]
    by_contra hlt
    have hlt2 := lt_of_not_le hlt
    have h1 := hanti _ min hy0 (le_of_lt hlt2) hmin1
    rw [hpy] at h1
    have heq : rbeta_trunc_p h t shape1 shape2 min max
        = h.pbeta min shape1 shape2 false false := le_antisymm hq_hi h1
    rw [heq, hleft min hmin hmin1] at hlt2
    exact lt_irrefl _ hlt2
  · rw [hval]
    by_contra hlt
    have hlt2 := lt_of_not_le hlt
    have h1 := hanti max _ hmax0 (le_of_lt hlt2) hy1
    rw [hpy] at h1
    have heq : rbeta_trunc_p h t shape1 shape2 min max
        = h.pbeta max shape1 shape2 false false := le_antisymm h1 hq_lo
    rw [heq, hleft max hmax0 hmax] at hlt2
    exact lt_irrefl _ hlt2
  · intro hu
    rw [hval, hq, hu, zero_mul, add_zero]
    exact hleft min hmin hmin1
  · intro hu
    rw [hval, hq, hu, one_mul, add_sub_cancel]
    exact hleft max hmax0 hmax

/-- C10, for the uniform distribution on the interval from 1/4 to 3/4. -/
theorem rbeta_trunc_range_witness :
    ((1/4 : ℚ) ≤ (rbeta_trunc host_uniform 0 1 1 (1/4) (3/4)).1 ∧
      (rbeta_trunc host_uniform 0 1 1 (1/4) (3/4)).1 ≤ 3/4) ∧
    (host_uniform.runif 0 = 0 → (rbeta_trunc host_uniform 0 1 1 (1/4) (3/4)).1 = 1/4) ∧
    (host_uniform.runif 0 = 1 → (rbeta_trunc host_uniform 0 1 1 (1/4) (3/4)).1 = 3/4) :=
  rbeta_trunc_range host_uniform 0 1 1 (1/4) (3/4) (by norm_num) (by norm_num)
    (by norm_num) (by norm_num) (by norm_num)
    (by norm_num [host_uniform]) (by norm_num [host_uniform])
    (by intro x y _ hxy _; simp only [host_uniform]; linarith)
    (by intro x hx0 hx1; simp only [host_uniform]; constructor <;> linarith)
    (by intro x _ _; simp [host_uniform])
    (by intro p hp0 hp1; simp only [host_uniform]
        exact ⟨⟨by linarith, by linarith⟩, by ring⟩)
/-! ### Dimension checks of the membership test -/

theorem for_each_error {α β : Type} (f : α → Except Err β) (l : List α)
    (h : ∃ a ∈ l, ∃ e, f a = .error e) : ∃ e, for_each f l = .error e := by
  induction l with
  | nil =>
    obtain ⟨a, ha, _⟩ := h
    exact absurd ha (List.not_mem_nil a)
  | cons c cs ih =>
    cases hc : f c with
    | error e => exact ⟨e, by simp only [for_each, hc, error_bind]⟩
    | ok v =>
      obtain ⟨a, ha, e, hfa⟩ := h
      rcases List.mem_cons.mp ha with rfl | hmem
      · rw [hc] at hfa; cases hfa
      · obtain ⟨e2, he2⟩ := ih ⟨a, hmem, e, hfa⟩
        exact ⟨e2, by simp only [for_each, hc, he2, ok_bind, error_bind]⟩

/-- A point whose length differs from the width of `A` makes the first turn of the inner
loop fail, as soon as `b` has an element. -/
theorem inside_Ab_row_width (A : Mat) (b x : Vec) (hA : A.wf) (hb : 1 ≤ b.length)
    (hx : A.n_cols ≠ x.length) : ∃ e, inside_Ab_row A b x = .error e := by
  unfold inside_Ab_row
  obtain ⟨n, hn⟩ : ∃ n, b.length = n + 1 := ⟨b.length - 1, by omega⟩
  rw [hn, while_loop_step _ _ _ _ (by simp [inside_Ab_cond]; omega)]
  have hbody : ∃ e, inside_Ab_body A b x { inside := true, idx := 0 } = .error e := by
    unfold inside_Ab_body
    cases hrow : A.rows[0]? with
    | none => exact ⟨.index_out_of_bounds, by simp only [Mat.row, hrow, error_bind]⟩
    | some a =>
      have ha : a ∈ A.rows := List.getElem?_mem hrow
      have hlen : ¬ x.length = a.length := by
        rw [hA a ha]; exact fun h => hx h.symm
      exact ⟨.incompatible_dims,
        by simp only [Mat.row, hrow, ok_bind, dot, if_neg hlen, error_bind]⟩
  obtain ⟨e, he⟩ := hbody
  exact ⟨e, by rw [he, error_bind, error_bind]⟩

/-- When `A` has fewer rows than `b` has elements, the inner loop of a point that satisfies
every row of `A` runs into the missing row. -/
theorem inside_Ab_row_loop_short (A : Mat) (b x : Vec) (hA : A.wf)
    (hx : x.length = A.n_cols) (hR : A.n_rows < b.length)
    (hin : ∀ r, r < A.n_rows → dotq x (A.rows.getD r []) ≤ b.getD r 0) :
    ∀ fuel idx, idx + fuel = b.length → idx ≤ A.n_rows →
      while_loop (inside_Ab_cond b) (inside_Ab_body A b x) fuel
        { inside := true, idx := idx } = .error .index_out_of_bounds := by
  intro fuel
  induction fuel with
  | zero =>
    intro idx h1 h2
    omega
  | succ fuel ih =>
    intro idx h1 h2
    have hlt : idx < b.length := by omega
    rw [while_loop_step _ _ _ _ (by simp [inside_Ab_cond, hlt])]
    rcases Nat.eq_or_lt_of_le h2 with heq | hlt2
    · have hnone : A.rows[idx]? = none := by
        apply List.getElem?_eq_none
        rw [heq]; exact le_refl _
      simp only [inside_Ab_body, Mat.row, hnone, error_bind]
    · have hlt3 : idx < A.rows.length := hlt2
      have e2 : dot x (A.rows.getD idx []) = .ok (dotq x (A.rows.getD idx [])) := by
        rw [dot, if_pos (by rw [wf_getD_length A hA idx hlt3, hx])]
      have hbody : inside_Ab_body A b x { inside := true, idx := idx }
          = .ok { inside := true, idx := idx + 1 } := by
        simp only [inside_Ab_body, row_eq_getD A idx hlt3, e2, vat_eq_getD b idx hlt, ok_bind,
          pure_eq_ok, decide_eq_true (hin idx hlt2)]
      rw [hbody, ok_bind]
      exact ih (idx + 1) (by omega) hlt2

theorem inside_take (A : Mat) (b x : Vec) :
    inside { n_cols := A.n_cols, rows := A.rows.take b.length } b x ↔ inside A b x := by
  have hget : ∀ r, r < b.length → (A.rows.take b.length).getD r [] = A.rows.getD r [] := by
    intro r hr
    rw [List.getD_eq_getElem?_getD, List.getD_eq_getElem?_getD, List.getElem?_take_of_lt hr]
  unfold inside
  constructor
  · intro h r hr
    have := h r hr
    simp only [hget r hr] at this
    exact this
  · intro h r hr
    simp only [hget r hr]
    exact h r hr

theorem count_samples_error (X A : Mat) (b : Vec) (h : ∃ e, inside_Ab X A b = .error e) :
    ∃ e, count_samples X A b = .error e := by
  obtain ⟨e, he⟩ := h
  exact ⟨e, by simp only [count_samples, he, error_bind]⟩

/-- C8 (as amended): `inside_Ab` and `count_samples` have no dimension check of their own and
fail only through the checks of the matrix operations they reach.  They fail when `X` has a
row, `b` has an element and the widths of `A` and `X` differ; they fail when (widths equal)
`A` has fewer rows than `b` has elements and some point of `X` satisfies every row of `A`.
When `A` has at least as many rows as `b` has elements (widths equal) they do not fail: the
rows of `A` beyond the length of `b` are ignored, the result being that for `A` cut to its
first `length b` rows. -/
theorem inside_Ab_dimension_checks (X A : Mat) (b : Vec) (hX : X.wf) (hA : A.wf) :
    (1 ≤ X.n_rows → 1 ≤ b.length → A.n_cols ≠ X.n_cols →
      (∃ e, inside_Ab X A b = .error e) ∧ (∃ e, count_samples X A b = .error e)) ∧
    (A.n_cols = X.n_cols → A.n_rows < b.length →
      (∃ x ∈ X.rows, ∀ r, r < A.n_rows → dotq x (A.rows.getD r []) ≤ b.getD r 0) →
      (∃ e, inside_Ab X A b = .error e) ∧ (∃ e, count_samples X A b = .error e)) ∧
    (A.n_cols = X.n_cols → b.length ≤ A.n_rows →
      (∃ i, inside_Ab X A b = .ok i ∧
        inside_Ab X { n_cols := A.n_cols, rows := A.rows.take b.length } b = .ok i) ∧
      (∃ c, count_samples X A b = .ok c ∧
        count_samples X { n_cols := A.n_cols, rows := A.rows.take b.length } b = .ok c)) := by
  refine ⟨?_, ?_, ?_⟩
  · intro hXr hb hD
    have herr : ∃ e, inside_Ab X A b = .error e := by
      unfold inside_Ab
      apply for_each_error
      obtain ⟨x, hx⟩ := List.exists_mem_of_length_pos (Nat.lt_of_lt_of_le Nat.zero_lt_one hXr)
      obtain ⟨e, he⟩ := inside_Ab_row_width A b x hA hb (by rw [hX x hx]; exact hD)
      exact ⟨x, hx, e, by rw [he, error_bind]⟩
    exact ⟨herr, count_samples_error X A b herr⟩
  · intro hD hR hpt
    have herr : ∃ e, inside_Ab X A b = .error e := by
      unfold inside_Ab
      apply for_each_error
      obtain ⟨x, hx, hin⟩ := hpt
      refine ⟨x, hx, .index_out_of_bounds, ?_⟩
      have hloop := inside_Ab_row_loop_short A b x hA (by rw [hX x hx, hD]) hR hin
        b.length 0 (by omega) (Nat.zero_le _)
      simp only [inside_Ab_row, hloop, error_bind]
    exact ⟨herr, count_samples_error X A b herr⟩
  · intro hD hb
    have hcut_wf : (⟨A.n_cols, A.rows.take b.length⟩ : Mat).wf := by
      intro r hr
      exact hA r (List.mem_of_mem_take hr)
    have hcut_rows : b.length ≤ (⟨A.n_cols, A.rows.take b.length⟩ : Mat).n_rows := by
      simp only [Mat.n_rows, List.length_take]
      exact le_min (le_refl _) hb
    have h1 := inside_Ab_eq X A b hX hA hD hb
    have h2 := inside_Ab_eq X ⟨A.n_cols, A.rows.take b.length⟩ b hX hcut_wf hD hcut_rows
    simp only [inside_take] at h2
    refine ⟨⟨_, h1, h2⟩,
      ⟨to_int (accu (X.rows.map (fun x => if inside A b x then (1 : ℚ) else 0))), ?_, ?_⟩⟩
    · simp only [count_samples, h1, ok_bind, pure_eq_ok]
    · simp only [count_samples, h2, ok_bind, pure_eq_ok]

/-- C8 as stated fails: a matrix `A` with two rows and a vector `b` with one element give
a result, not an error, for `inside_Ab` and for `count_samples`. -/
theorem inside_Ab_surplus_rows :
    (⟨1, [[1], [-1]]⟩ : Mat).n_rows ≠ ([1] : Vec).length ∧
    inside_Ab ⟨1, [[1]]⟩ ⟨1, [[1], [-1]]⟩ [1] = .ok [1] ∧
    count_samples ⟨1, [[1]]⟩ ⟨1, [[1], [-1]]⟩ [1] = .ok 1 := by
  decide!

/-- C8 (as amended), at a batch of one point of the line, a matrix `A` of two rows and a
vector `b` of one element. -/
theorem inside_Ab_dimension_checks_witness :
    (1 ≤ 1 → 1 ≤ 1 → 1 ≠ 1 →
      (∃ e, inside_Ab ⟨1, [[1]]⟩ ⟨1, [[1], [-1]]⟩ [1] = .error e) ∧
      (∃ e, count_samples ⟨1, [[1]]⟩ ⟨1, [[1], [-1]]⟩ [1] = .error e)) ∧
    (1 = 1 → 2 < 1 →
      (∃ x ∈ [([1] : Vec)], ∀ r, r < 2 →
        dotq x (([[1], [-1]] : List Vec).getD r []) ≤ ([1] : Vec).getD r 0) →
      (∃ e, inside_Ab ⟨1, [[1]]⟩ ⟨1, [[1], [-1]]⟩ [1] = .error e) ∧
      (∃ e, count_samples ⟨1, [[1]]⟩ ⟨1, [[1], [-1]]⟩ [1] = .error e)) ∧
    (1 = 1 → 1 ≤ 2 →
      (∃ i, inside_Ab ⟨1, [[1]]⟩ ⟨1, [[1], [-1]]⟩ [1] = .ok i ∧
        inside_Ab ⟨1, [[1]]⟩ ⟨1, [[1]]⟩ [1] = .ok i) ∧
      (∃ c, count_samples ⟨1, [[1]]⟩ ⟨1, [[1], [-1]]⟩ [1] = .ok c ∧
        count_samples ⟨1, [[1]]⟩ ⟨1, [[1]]⟩ [1] = .ok c)) :=
  inside_Ab_dimension_checks ⟨1, [[1]]⟩ ⟨1, [[1], [-1]]⟩ [1] (by decide) (by decide)
/-! ### Monte Carlo counter -/

/-- Once `run` is false while `todo` is still positive, the batch loop makes no progress:
no number of turns ends it. -/
theorem count_binomial_stuck (h : Host) (k n : Vec) (A : Mat) (b prior : Vec) (batch : Int)
    (s : CountState) (hrun : s.run = false) (htodo : 0 < s.todo) :
    ∀ fuel, while_loop count_binomial_cond (count_binomial_body h k n A b prior batch) fuel s
      = .error .out_of_fuel := by
  have hcond : count_binomial_cond s = true := by
    simp [count_binomial_cond, htodo]
  have hbody : count_binomial_body h k n A b prior batch s = .ok s := by
    simp [count_binomial_body, hrun, pure_eq_ok]
  intro fuel
  induction fuel with
  | zero => simp [while_loop, hcond]
  | succ fuel ih => rw [while_loop_step _ _ _ _ hcond, hbody, ok_bind, ih]

/-- C7: with `M = 2`, `batch = 1` and the abort flag set at the first check, the batch loop
of `count_binomial_cpp` never ends (no bound on the number of turns lets the call return),
while the same call returns after two turns when the flag is not set. -/
theorem count_binomial_abort_hangs :
    (∀ fuel, count_binomial_cpp host_abort fuel [0] [0] ⟨1, []⟩ [] [1, 1] 2 1 0
      = .error .out_of_fuel) ∧
    count_binomial_cpp host_uniform 2 [0] [0] ⟨1, []⟩ [] [1, 1] 2 1 0
      = .ok ({ integral := 1, count := 2, M := 2 }, 4) := by
  refine ⟨?_, by decide!⟩
  intro fuel
  have hne : ¬ ((1 : Int) = 0) := by decide
  unfold count_binomial_cpp count_binomial_run
  rw [if_neg hne]
  cases fuel with
  | zero => rfl
  | succ fuel =>
    have hfirst : count_binomial_body host_abort [0] [0] ⟨1, []⟩ [] [1, 1] 1
        { run := true, count := 0, todo := 2, clock := 0, rounds := 0, drawn := 0 }
        = .ok { run := false, count := 1, todo := 1, clock := 2, rounds := 1, drawn := 1 } := by
      decide!
    rw [while_loop_step _ _ _ _ (by decide), hfirst, ok_bind,
      count_binomial_stuck host_abort [0] [0] ⟨1, []⟩ [] [1, 1] 1 _ rfl (by decide) fuel]
    rfl

/-! ### Stepwise counting with a single block -/

theorem to_int_intCast (z : Int) : to_int (z : ℚ) = z := by
  simp [to_int]

theorem to_uword_natCast_sub_one (R : Nat) (hR : 1 ≤ R) : to_uword ((R : ℚ) - 1) = R - 1 := by
  have hcast : ((R : ℚ) - 1) = (((R - 1 : Nat) : Int) : ℚ) := by
    push_cast [Nat.cast_sub hR]; ring
  unfold to_uword
  rw [hcast, to_int_intCast]
  simp

theorem sort_steps_single (R : Nat) : sort_steps [(R : ℚ)] (R : Int) = [(R : ℚ) - 1] := by
  rw [sort_steps_eq]
  simp [List.dedup]

theorem rows_range_all (A : Mat) (hR : 1 ≤ A.n_rows) :
    A.rows_range 0 (A.n_rows - 1) = .ok A := by
  unfold Mat.rows_range
  have h1 : ¬ (0 > A.n_rows - 1 ∨ A.n_rows - 1 ≥ A.n_rows) := by omega
  rw [if_neg h1]
  have h2 : A.n_rows - 1 - 0 + 1 = A.rows.length := by
    unfold Mat.n_rows at hR ⊢; omega
  rw [h2, List.drop_zero, List.take_length]

theorem subvec_all (b : Vec) (hR : 1 ≤ b.length) : subvec b 0 (b.length - 1) = .ok b := by
  unfold subvec
  have h1 : ¬ (0 > b.length - 1 ∨ b.length - 1 ≥ b.length) := by omega
  rw [if_neg h1]
  have h2 : b.length - 1 - 0 + 1 = b.length := by omega
  rw [h2, List.drop_zero, List.take_length]

/-- The estimate returned by `count_binomial_cpp` is its count divided by `M`. -/
theorem count_binomial_integral (h : Host) (fuel : Nat) (k n : Vec) (A : Mat)
    (b prior : Vec) (M batch : Int) (t : Nat) (r : CountResult × Nat)
    (hr : count_binomial_cpp h fuel k n A b prior M batch t = .ok r) :
    r.1.integral = r.1.count / (M : ℚ) ∧ r.1.M = (M : ℚ) := by
  unfold count_binomial_cpp at hr
  by_cases hb0 : batch = 0
  · rw [if_pos hb0] at hr; cases hr
  · rw [if_neg hb0] at hr
    cases hw : count_binomial_run h fuel k n A b prior M batch t with
    | error e => rw [hw, error_bind] at hr; cases hr
    | ok s =>
      rw [hw, ok_bind, pure_eq_ok] at hr
      cases hr
      exact ⟨rfl, rfl⟩

/-- C6: for a system `(A, b)` with `R ≥ 1` rows, a scalar `M ≥ 1` and `batch ≥ 1`,
`count_stepwise` called with `steps = {R}` on the same host, clock and bound on the turns of
the batch loop has one block and is `count_binomial_cpp(k, n, A, b, prior, M, batch)` (same
failure, or same count, same integral and same clock after the call: the sampler is not
run), and the integral is the count divided by `M`. -/
theorem count_stepwise_single_block (h : Host) (fuel : Nat) (k n : Vec) (A : Mat)
    (b prior : Vec) (M batch : Int) (start : Vec) (t : Nat) (R : Nat)
    (hR : 1 ≤ R) (hA : A.n_rows = R) (hb : b.length = R) (_hM : 1 ≤ M) (_hbatch : 1 ≤ batch) :
    (sort_steps [(R : ℚ)] (A.n_rows : Int)).length = 1 ∧
    count_stepwise h fuel k n A b prior [(M : ℚ)] [(R : ℚ)] batch start t
      = ((count_binomial_cpp h fuel k n A b prior M batch t) >>= (fun r =>
          pure ({ integral := r.1.integral, count := [r.1.count], M := [(M : ℚ)],
                  steps := [(R : ℚ)] }, r.2))) ∧
    (∀ r, count_binomial_cpp h fuel k n A b prior M batch t = .ok r →
      r.1.integral = r.1.count / (M : ℚ)) := by
  subst hA
  have hsteps := sort_steps_single A.n_rows
  refine ⟨by rw [hsteps]; rfl, ?_,
    fun r hr => (count_binomial_integral h fuel k n A b prior M batch t r hr).1⟩
  unfold count_stepwise count_stepwise_run
  simp only [hsteps, broadcast_M, List.length_singleton, if_true, vat,
    List.getElem?_cons_zero, ok_bind,
    pure_eq_ok, List.replicate_one, to_uword_natCast_sub_one _ hR, rows_range_all A hR,
    to_int_intCast]
  have hb2 : subvec b 0 (A.n_rows - 1) = .ok b := by
    rw [← hb]; exact subvec_all b (by omega)
  rw [hb2, ok_bind]
  cases hc : count_binomial_cpp h fuel k n A b prior M batch t with
  | error e => rfl
  | ok r =>
    obtain ⟨r0, t1⟩ := r
    have hint := (count_binomial_integral h fuel k n A b prior M batch t _ hc).1
    have hfold : List.foldlM (count_stepwise_block h k n A b prior [(M : ℚ)]
        [(A.n_rows : ℚ) - 1] start)
        { cnt := [(0 : ℚ)].set 0 r0.count, clock := t1,
          used := [{ sampler := none, counted := (A, b) }] } (List.range' 1 (1 - 1))
        = .ok { cnt := [r0.count], clock := t1,
                used := [{ sampler := none, counted := (A, b) }] } := rfl
    have hsub : subvec [(M : ℚ)] 0 (1 - 1) = .ok [(M : ℚ)] := rfl
    have hdiv : vdiv [r0.count] [(M : ℚ)] = .ok [r0.count / (M : ℚ)] := rfl
    simp only [ok_bind, pure_eq_ok, hfold, hsub, hdiv, List.prod_singleton, List.map_cons,
      List.map_nil, sub_add_cancel]
    rw [hint]

/-- C6, on two constraints of the plane with `M = 7` and `batch = 3`. -/
theorem count_stepwise_single_block_witness :
    (sort_steps [((2 : Nat) : ℚ)] ((⟨2, [[1, -1], [1, 1]]⟩ : Mat).n_rows : Int)).length = 1 ∧
    count_stepwise host_uniform 3 [0, 0] [0, 0] ⟨2, [[1, -1], [1, 1]]⟩ [0, 1] [1, 1]
        [((7 : Int) : ℚ)] [((2 : Nat) : ℚ)] 3 [-1] 0
      = ((count_binomial_cpp host_uniform 3 [0, 0] [0, 0] ⟨2, [[1, -1], [1, 1]]⟩ [0, 1] [1, 1]
            7 3 0) >>= (fun r =>
          pure ({ integral := r.1.integral, count := [r.1.count], M := [((7 : Int) : ℚ)],
                  steps := [((2 : Nat) : ℚ)] }, r.2))) ∧
    (∀ r, count_binomial_cpp host_uniform 3 [0, 0] [0, 0] ⟨2, [[1, -1], [1, 1]]⟩ [0, 1] [1, 1]
        7 3 0 = .ok r → r.1.integral = r.1.count / ((7 : Int) : ℚ)) :=
  count_stepwise_single_block host_uniform 3 [0, 0] [0, 0] ⟨2, [[1, -1], [1, 1]]⟩ [0, 1] [1, 1]
    7 3 [-1] 0 2 (by decide) rfl rfl (by decide) (by decide)

/-- The call of the witness of C6 returns a value: seven points are drawn, all inside. -/
theorem count_stepwise_single_block_value :
    count_stepwise host_uniform 3 [0, 0] [0, 0] ⟨2, [[1, -1], [1, 1]]⟩ [0, 1] [1, 1]
        [7] [2] 3 [-1] 0
      = .ok ({ integral := 1, count := [7], M := [7], steps := [2] }, 9) := by
  decide!
/-! ### Arithmetic of one coordinate update -/

theorem dotq_comm (x y : Vec) : dotq x y = dotq y x := by
  unfold dotq
  induction x generalizing y with
  | nil => cases y <;> rfl
  | cons a as ih =>
    cases y with
    | nil => rfl
    | cons c cs =>
      simp only [List.zipWith_cons_cons, List.sum_cons, ih cs, mul_comm]

theorem dotq_set (x a : Vec) (j : Nat) (v : ℚ) (hj : j < x.length)
    (hlen : x.length = a.length) :
    dotq (x.set j v) a = dotq x a + (v - x.getD j 0) * a.getD j 0 := by
  unfold dotq
  induction x generalizing a j with
  | nil => simp at hj
  | cons c cs ih =>
    cases a with
    | nil => simp at hlen
    | cons e es =>
      cases j with
      | zero =>
        simp only [List.set_cons_zero, List.zipWith_cons_cons, List.sum_cons,
          List.getD_cons_zero]
        ring
      | succ j =>
        have hj2 : j < cs.length := by simpa using hj
        have hlen2 : cs.length = es.length := by simpa using hlen
        simp only [List.set_cons_succ, List.zipWith_cons_cons, List.sum_cons,
          List.getD_cons_succ, ih es j hj2 hlen2]
        ring

theorem foldl_max_ge (as : Vec) (a : ℚ) :
    a ≤ as.foldl max a ∧ ∀ y ∈ as, y ≤ as.foldl max a := by
  induction as generalizing a with
  | nil => exact ⟨le_refl _, fun y hy => absurd hy (List.not_mem_nil y)⟩
  | cons c cs ih =>
    obtain ⟨h1, h2⟩ := ih (max a c)
    refine ⟨le_trans (le_max_left a c) h1, ?_⟩
    intro y hy
    rcases List.mem_cons.mp hy with rfl | hmem
    · exact le_trans (le_max_right a y) h1
    · exact h2 y hmem

theorem foldl_min_le (as : Vec) (a : ℚ) :
    as.foldl min a ≤ a ∧ ∀ y ∈ as, as.foldl min a ≤ y := by
  induction as generalizing a with
  | nil => exact ⟨le_refl _, fun y hy => absurd hy (List.not_mem_nil y)⟩
  | cons c cs ih =>
    obtain ⟨h1, h2⟩ := ih (min a c)
    refine ⟨le_trans h1 (min_le_left a c), ?_⟩
    intro y hy
    rcases List.mem_cons.mp hy with rfl | hmem
    · exact le_trans h1 (min_le_right a y)
    · exact h2 y hmem

theorem vmax_ge (l : Vec) (m : ℚ) (h : vmax l = .ok m) : ∀ y ∈ l, y ≤ m := by
  cases l with
  | nil => cases h
  | cons a as =>
    simp only [vmax, Except.ok.injEq] at h
    subst h
    intro y hy
    rcases List.mem_cons.mp hy with rfl | hmem
    · exact (foldl_max_ge as y).1
    · exact (foldl_max_ge as a).2 y hmem

theorem vmin_le (l : Vec) (m : ℚ) (h : vmin l = .ok m) : ∀ y ∈ l, m ≤ y := by
  cases l with
  | nil => cases h
  | cons a as =>
    simp only [vmin, Except.ok.injEq] at h
    subst h
    intro y hy
    rcases List.mem_cons.mp hy with rfl | hmem
    · exact (foldl_min_le as y).1
    · exact (foldl_min_le as a).2 y hmem

theorem mem_find (p : ℚ → Bool) (v : Vec) (r : Nat) :
    r ∈ find p v ↔ r < v.length ∧ p (v.getD r 0) = true := by
  simp [find]

theorem elem_eq_map (v : Vec) (indices : List Nat) (h : ∀ r ∈ indices, r < v.length) :
    elem v indices = .ok (indices.map (fun r => v.getD r 0)) := by
  unfold elem
  apply for_each_eq_map
  intro r hr
  exact vat_eq_getD v r (h r hr)

theorem getD_zipWith (f : ℚ → ℚ → ℚ) (l1 l2 : Vec) (r : Nat) (h1 : r < l1.length)
    (h2 : r < l2.length) :
    (List.zipWith f l1 l2).getD r 0 = f (l1.getD r 0) (l2.getD r 0) := by
  have h3 : r < (List.zipWith f l1 l2).length := by
    rw [List.length_zipWith]; exact lt_min h1 h2
  rw [List.getD_eq_getElem _ _ h3, List.getD_eq_getElem _ _ h1, List.getD_eq_getElem _ _ h2,
    List.getElem_zipWith]

theorem getD_map_rows (A : Mat) (g : Vec → ℚ) (r : Nat) (hr : r < A.rows.length) :
    (A.rows.map g).getD r 0 = g (A.rows.getD r []) := by
  have h3 : r < (A.rows.map g).length := by rw [List.length_map]; exact hr
  rw [List.getD_eq_getElem _ _ h3, List.getD_eq_getElem _ _ hr, List.getElem_map]

/-- The vector `rhs` of the sampler, element by element. -/
theorem gibbs_rhs_eq (A : Mat) (b x : Vec) (j : Nat)
    (hx : x.length = A.n_cols) (hb : b.length = A.n_rows) (hj : j < A.n_cols) :
    ∃ rhs : Vec, gibbs_rhs A b x j = .ok rhs ∧ rhs.length = A.rows.length ∧
      ∀ r, r < A.rows.length → rhs.getD r 0
        = (b.getD r 0 - dotq (A.rows.getD r []) x
          + (A.rows.getD r []).getD j 0 * x.getD j 0) / (A.rows.getD r []).getD j 0 := by
  have hR : A.n_rows = A.rows.length := rfl
  have hmul : A.mulVec x = .ok (A.rows.map (fun a => dotq a x)) := by
    rw [Mat.mulVec, if_pos hx.symm]
  have hcol : A.col j = .ok (A.rows.map (fun a => a.getD j 0)) := by
    rw [Mat.col, if_pos hj]
  have hxj : vat x j = .ok (x.getD j 0) := vat_eq_getD x j (by rw [hx]; exact hj)
  have hd1 : vsub b (A.rows.map (fun a => dotq a x))
      = .ok (List.zipWith (· - ·) b (A.rows.map (fun a => dotq a x))) := by
    rw [vsub, if_pos (by rw [List.length_map, hb, hR])]
  have hd2 : vadd (List.zipWith (· - ·) b (A.rows.map (fun a => dotq a x)))
        ((A.rows.map (fun a => a.getD j 0)).map (fun a => a * x.getD j 0))
      = .ok (List.zipWith (· + ·) (List.zipWith (· - ·) b (A.rows.map (fun a => dotq a x)))
          ((A.rows.map (fun a => a.getD j 0)).map (fun a => a * x.getD j 0))) := by
    rw [vadd, if_pos (by simp [hb, hR])]
  have hrhs : vdiv (List.zipWith (· + ·)
        (List.zipWith (· - ·) b (A.rows.map (fun a => dotq a x)))
        ((A.rows.map (fun a => a.getD j 0)).map (fun a => a * x.getD j 0)))
        (A.rows.map (fun a => a.getD j 0))
      = .ok (List.zipWith (· / ·) (List.zipWith (· + ·)
          (List.zipWith (· - ·) b (A.rows.map (fun a => dotq a x)))
          ((A.rows.map (fun a => a.getD j 0)).map (fun a => a * x.getD j 0)))
          (A.rows.map (fun a => a.getD j 0))) := by
    rw [vdiv, if_pos (by simp [hb, hR])]
  refine ⟨List.zipWith (· / ·) (List.zipWith (· + ·)
      (List.zipWith (· - ·) b (A.rows.map (fun a => dotq a x)))
      ((A.rows.map (fun a => a.getD j 0)).map (fun a => a * x.getD j 0)))
      (A.rows.map (fun a => a.getD j 0)), ?_, ?_, ?_⟩
  · simp only [gibbs_rhs, hmul, hcol, hxj, hd1, hd2, hrhs, ok_bind]
  · simp [hb, hR]
  intro r hr
  have hbr : r < b.length := by rw [hb, hR]; exact hr
  rw [getD_zipWith _ _ _ r (by simp [hb, hR]; exact hr) (by simp; exact hr),
    getD_zipWith _ _ _ r (by simp [hb, hR]; exact hr) (by simp; exact hr),
    getD_zipWith _ _ _ r hbr (by simp; exact hr), List.map_map,
    getD_map_rows A _ r hr, getD_map_rows A _ r hr, getD_map_rows A _ r hr]
  rfl

/-- The lower bound is at least every element of `rhs` at a negative coefficient. -/
theorem gibbs_bmin_ge (rhs Aj : Vec) (lo : ℚ) (hlen : rhs.length = Aj.length)
    (h : gibbs_bmin rhs Aj = .ok lo) :
    ∀ r, r < Aj.length → Aj.getD r 0 < 0 → rhs.getD r 0 ≤ lo := by
  intro r hr hneg
  have hmem : r ∈ find (fun a => decide (a < 0)) Aj := by
    rw [mem_find]; exact ⟨hr, by simpa using hneg⟩
  have hne : ¬ ((find (fun a => decide (a < 0)) Aj).isEmpty = true) := by
    intro he
    rw [List.isEmpty_iff] at he
    rw [he] at hmem
    exact absurd hmem (List.not_mem_nil r)
  have hidx : ∀ r ∈ find (fun a => decide (a < 0)) Aj, r < rhs.length := by
    intro r hr
    rw [mem_find] at hr
    rw [hlen]; exact hr.1
  rw [gibbs_bmin, if_neg hne, elem_eq_map rhs _ hidx, ok_bind] at h
  exact vmax_ge _ _ h _ (List.mem_map_of_mem _ hmem)

/-- The upper bound is at most every element of `rhs` at a positive coefficient. -/
theorem gibbs_bmax_le (rhs Aj : Vec) (hi : ℚ) (hlen : rhs.length = Aj.length)
    (h : gibbs_bmax rhs Aj = .ok hi) :
    ∀ r, r < Aj.length → 0 < Aj.getD r 0 → hi ≤ rhs.getD r 0 := by
  intro r hr hpos
  have hmem : r ∈ find (fun a => decide (a > 0)) Aj := by
    rw [mem_find]; exact ⟨hr, by simpa using hpos⟩
  have hne : ¬ ((find (fun a => decide (a > 0)) Aj).isEmpty = true) := by
    intro he
    rw [List.isEmpty_iff] at he
    rw [he] at hmem
    exact absurd hmem (List.not_mem_nil r)
  have hidx : ∀ r ∈ find (fun a => decide (a > 0)) Aj, r < rhs.length := by
    intro r hr
    rw [mem_find] at hr
    rw [hlen]; exact hr.1
  rw [gibbs_bmax, if_neg hne, elem_eq_map rhs _ hidx, ok_bind] at h
  exact vmin_le _ _ h _ (List.mem_map_of_mem _ hmem)

/-- What the bounds computed for coordinate `j` at the point `x` guarantee: `j` is a
coordinate, `bmin` is at least the quotient of every row with a negative coefficient and
`bmax` at most the quotient of every row with a positive coefficient. -/
theorem gibbs_bounds_sound (A : Mat) (b x : Vec) (j : Nat) (bmin bmax : ℚ)
    (hx : x.length = A.n_cols) (hb : b.length = A.n_rows)
    (hg : gibbs_bounds A b x j = .ok (bmin, bmax)) :
    j < A.n_cols ∧
    (∀ r, r < A.n_rows → (A.rows.getD r []).getD j 0 < 0 →
      (b.getD r 0 - dotq (A.rows.getD r []) x
        + (A.rows.getD r []).getD j 0 * x.getD j 0) / (A.rows.getD r []).getD j 0 ≤ bmin) ∧
    (∀ r, r < A.n_rows → 0 < (A.rows.getD r []).getD j 0 →
      bmax ≤ (b.getD r 0 - dotq (A.rows.getD r []) x
        + (A.rows.getD r []).getD j 0 * x.getD j 0) / (A.rows.getD r []).getD j 0) := by
  by_cases hj : j < A.n_cols
  swap
  · have hmul : A.mulVec x = .ok (A.rows.map (fun a => dotq a x)) := by
      rw [Mat.mulVec, if_pos hx.symm]
    simp only [gibbs_bounds, gibbs_rhs, hmul, ok_bind, Mat.col, if_neg hj, error_bind] at hg
    cases hg
  obtain ⟨rhs, hrhs, hlen, hval⟩ := gibbs_rhs_eq A b x j hx hb hj
  have hcol : A.col j = .ok (A.rows.map (fun a => a.getD j 0)) := by
    rw [Mat.col, if_pos hj]
  have hlen2 : rhs.length = (A.rows.map (fun a => a.getD j 0)).length := by
    rw [hlen, List.length_map]
  simp only [gibbs_bounds, hrhs, hcol, ok_bind] at hg
  cases hlo : gibbs_bmin rhs (A.rows.map (fun a => a.getD j 0)) with
  | error e => rw [hlo, error_bind] at hg; cases hg
  | ok lo =>
    rw [hlo, ok_bind] at hg
    cases hhi : gibbs_bmax rhs (A.rows.map (fun a => a.getD j 0)) with
    | error e => rw [hhi, error_bind] at hg; cases hg
    | ok hi =>
      rw [hhi, ok_bind, pure_eq_ok] at hg
      cases hg
      refine ⟨hj, ?_, ?_⟩
      · intro r hr hneg
        rw [← hval r hr]
        exact gibbs_bmin_ge rhs _ _ hlen2 hlo r (by rw [List.length_map]; exact hr)
          (by rw [getD_map_rows A _ r hr]; exact hneg)
      · intro r hr hpos
        rw [← hval r hr]
        exact gibbs_bmax_le rhs _ _ hlen2 hhi r (by rw [List.length_map]; exact hr)
          (by rw [getD_map_rows A _ r hr]; exact hpos)

/-- A coordinate update within the bounds keeps the point inside. -/
theorem gibbs_update_inside (A : Mat) (b x : Vec) (j : Nat) (bmin bmax v : ℚ)
    (hA : A.wf) (hx : x.length = A.n_cols) (hb : b.length = A.n_rows)
    (hin : inside A b x) (hg : gibbs_bounds A b x j = .ok (bmin, bmax))
    (hlo : bmin ≤ v) (hhi : v ≤ bmax) : inside A b (x.set j v) := by
  obtain ⟨hj, hneg, hpos⟩ := gibbs_bounds_sound A b x j bmin bmax hx hb hg
  intro r hr
  have hr2 : r < A.rows.length := by rw [hb] at hr; exact hr
  have hrow : x.length = (A.rows.getD r []).length := by
    rw [wf_getD_length A hA r hr2, hx]
  rw [dotq_set x _ j v (by rw [hx]; exact hj) hrow]
  have hold := hin r hr
  rcases lt_trichotomy ((A.rows.getD r []).getD j 0) 0 with hc | hc | hc
  · have h1 := hneg r hr2 hc
    have h2 : (b.getD r 0 - dotq (A.rows.getD r []) x
        + (A.rows.getD r []).getD j 0 * x.getD j 0) / (A.rows.getD r []).getD j 0 ≤ v :=
      le_trans h1 hlo
    rw [div_le_iff_of_neg hc] at h2
    rw [dotq_comm x]
    linarith
  · rw [hc, mul_zero, add_zero]
    exact hold
  · have h1 := hpos r hr2 hc
    have h2 : v ≤ (b.getD r 0 - dotq (A.rows.getD r []) x
        + (A.rows.getD r []).getD j 0 * x.getD j 0) / (A.rows.getD r []).getD j 0 :=
      le_trans hhi h1
    rw [le_div_iff₀ hc] at h2
    rw [dotq_comm x]
    linarith
/-! ### The sampler keeps the chain inside -/

theorem foldlM_rel {σ α : Type} (f : σ → α → Except Err σ) (R : σ → σ → Prop)
    (hrefl : ∀ s, R s s) (htrans : ∀ a b c, R a b → R b c → R a c)
    (hstep : ∀ s a s1, f s a = .ok s1 → R s s1) :
    ∀ (l : List α) (s s1 : σ), List.foldlM f s l = .ok s1 → R s s1 := by
  intro l
  induction l with
  | nil =>
    intro s s1 h
    simp only [List.foldlM_nil, pure_eq_ok, Except.ok.injEq] at h
    rw [← h]; exact hrefl s
  | cons a as ih =>
    intro s s1 h
    rw [List.foldlM_cons] at h
    cases hf : f s a with
    | error e => rw [hf, error_bind] at h; cases h
    | ok s2 =>
      rw [hf, ok_bind] at h
      exact htrans _ _ _ (hstep s a s2 hf) (ih s2 s1 h)

theorem foldlM_range_inv {σ : Type} (f : σ → Nat → Except Err σ) (Inv : Nat → σ → Prop)
    (G : σ → Prop) (hback : ∀ s i s1, f s i = .ok s1 → G s1 → G s) :
    ∀ (len n0 : Nat),
      (∀ i s s1, n0 ≤ i → i < n0 + len → Inv i s → f s i = .ok s1 → G s1 → Inv (i + 1) s1) →
      ∀ s s1, List.foldlM f s (List.range' n0 len) = .ok s1 → G s1 → Inv n0 s →
        Inv (n0 + len) s1 := by
  intro len
  induction len with
  | zero =>
    intro n0 _ s s1 h _ hinv
    simp only [List.range'_zero, List.foldlM_nil, pure_eq_ok, Except.ok.injEq] at h
    rw [← h]; exact hinv
  | succ len ih =>
    intro n0 hstep s s1 h hG hinv
    rw [List.range'_succ, List.foldlM_cons] at h
    cases hf : f s n0 with
    | error e => rw [hf, error_bind] at h; cases h
    | ok s2 =>
      rw [hf, ok_bind] at h
      have hG2 : G s2 := by
        have := foldlM_rel f (fun a c => G c → G a) (fun _ hx => hx)
          (fun _ _ _ h1 h2 hx => h1 (h2 hx)) (fun s i s1 hs => hback s i s1 hs)
          (List.range' (n0 + 1) len) s2 s1 h
        exact this hG
      have hinv2 := hstep n0 s s2 (le_refl _) (by omega) hinv hf hG2
      have := ih (n0 + 1) (fun i s s1 h1 h2 => hstep i s s1 (by omega) (by omega)) s2 s1 h hG
        hinv2
      rw [show n0 + (len + 1) = n0 + 1 + len by omega]
      exact this

theorem gibbs_site_ok (h : Host) (k n : Vec) (A : Mat) (b prior : Vec) (i : Nat)
    (s s1 : Gibbs) (m : Nat) (hstep : gibbs_site h k n A b prior i s m = .ok s1) :
    ∃ x j bmin bmax v,
      s.Xt.row i = .ok x ∧ gibbs_bounds A b x j = .ok (bmin, bmax) ∧
      s.Xt.set_elem i j v = .ok s1.Xt ∧ s1.run = s.run ∧
      s1.draws = s.draws ++ [{ bmin := bmin, bmax := bmax, value := v }] := by
  unfold gibbs_site at hstep
  cases hidx : s.idx[m]? with
  | none => simp only [hidx, error_bind] at hstep; cases hstep
  | some j =>
    simp only [hidx, ok_bind] at hstep
    cases hrow : s.Xt.row i with
    | error e => simp only [hrow, error_bind] at hstep; cases hstep
    | ok x =>
      simp only [hrow, ok_bind] at hstep
      cases hgb : gibbs_bounds A b x j with
      | error e => simp only [hgb, error_bind] at hstep; cases hstep
      | ok p =>
        obtain ⟨lo, hi⟩ := p
        simp only [hgb, ok_bind] at hstep
        cases hk : vat k j with
        | error e => simp only [hk, error_bind] at hstep; cases hstep
        | ok kj =>
          simp only [hk, ok_bind] at hstep
          cases hp0 : vat prior 0 with
          | error e => simp only [hp0, error_bind] at hstep; cases hstep
          | ok p0 =>
            simp only [hp0, ok_bind] at hstep
            cases hn : vat n j with
            | error e => simp only [hn, error_bind] at hstep; cases hstep
            | ok nj =>
              simp only [hn, ok_bind] at hstep
              cases hp1 : vat prior 1 with
              | error e => simp only [hp1, error_bind] at hstep; cases hstep
              | ok p1 =>
                simp only [hp1, ok_bind] at hstep
                cases hset : s.Xt.set_elem i j
                    (rbeta_trunc h s.clock (kj + p0) (nj - kj + p1) lo hi).1 with
                | error e => simp only [hset, error_bind] at hstep; cases hstep
                | ok Xt1 =>
                  simp only [hset, ok_bind, pure_eq_ok, Except.ok.injEq] at hstep
                  subst hstep
                  exact ⟨x, j, lo, hi, _, rfl, hgb, hset, rfl, rfl⟩

theorem row_ok (A : Mat) (i : Nat) (x : Vec) (h : A.row i = .ok x) :
    i < A.rows.length ∧ A.rows.getD i [] = x := by
  unfold Mat.row at h
  cases hr : A.rows[i]? with
  | none => simp only [hr] at h; cases h
  | some r =>
    simp only [hr, Except.ok.injEq] at h
    obtain ⟨hlt, hget⟩ := List.getElem?_eq_some.mp hr
    exact ⟨hlt, by rw [List.getD_eq_getElem _ _ hlt, hget, h]⟩

theorem getD_set_rows (l : List Vec) (i c : Nat) (y : Vec) (hi : i < l.length) :
    (l.set i y).getD c [] = if i = c then y else l.getD c [] := by
  by_cases hc : c < l.length
  · have hc2 : c < (l.set i y).length := by rw [List.length_set]; exact hc
    rw [List.getD_eq_getElem _ _ hc2, List.getElem_set, List.getD_eq_getElem _ _ hc]
  · have hc2 : (l.set i y).length ≤ c := by rw [List.length_set]; omega
    rw [List.getD_eq_default _ _ hc2, List.getD_eq_default _ _ (by omega)]
    have : ¬ i = c := by omega
    rw [if_neg this]

theorem wf_set_rows (A : Mat) (i : Nat) (y : Vec) (hA : A.wf) (hy : y.length = A.n_cols) :
    (⟨A.n_cols, A.rows.set i y⟩ : Mat).wf := by
  intro r hr
  rcases List.mem_or_eq_of_mem_set hr with h1 | h1
  · exact hA r h1
  · rw [h1]; exact hy

/-- One coordinate update keeps the invariant, when the value drawn is in its interval. -/
theorem gibbs_site_inv (h : Host) (k n : Vec) (A : Mat) (b prior : Vec) (N i : Nat)
    (hA : A.wf) (hb : b.length = A.n_rows) (s s1 : Gibbs) (m : Nat)
    (hs : chain_ok A b N (i + 1) s)
    (hstep : gibbs_site h k n A b prior i s m = .ok s1)
    (hd : draws_in_range s1.draws) : chain_ok A b N (i + 1) s1 := by
  obtain ⟨x, j, bmin, bmax, v, hrow, hgb, hset, hrun, hdraws⟩ :=
    gibbs_site_ok h k n A b prior i s s1 m hstep
  obtain ⟨hcols, hwf, hrows, hin, hr⟩ := hs
  obtain ⟨hi, hx⟩ := row_ok _ _ _ hrow
  have hxlen : x.length = A.n_cols := by
    rw [← hx, wf_getD_length _ hwf i hi, hcols]
  have hv : bmin ≤ v ∧ v ≤ bmax := by
    have := hd { bmin := bmin, bmax := bmax, value := v } (by rw [hdraws]; simp)
    exact this
  have hxin : inside A b x := by
    rw [← hx]; exact hin i (Nat.lt_succ_self i) hi
  have hnew := gibbs_update_inside A b x j bmin bmax v hA hxlen hb hxin hgb hv.1 hv.2
  unfold Mat.set_elem at hset
  by_cases hc : i < s.Xt.n_rows ∧ j < s.Xt.n_cols
  · rw [if_pos hc, Except.ok.injEq] at hset
    have hXt : s1.Xt = ⟨s.Xt.n_cols, s.Xt.rows.set i (x.set j v)⟩ := by
      rw [← hset, hx]
    refine ⟨by rw [hXt]; exact hcols, ?_, ?_, ?_, by rw [hrun]; exact hr⟩
    · rw [hXt]
      exact wf_set_rows s.Xt i _ hwf (by rw [List.length_set, hxlen, hcols])
    · rw [hXt]; simp only [Mat.n_rows, List.length_set]; exact hrows
    · intro c hc1 hc2
      rw [hXt]
      simp only
      rw [getD_set_rows _ _ _ _ hi]
      by_cases hic : i = c
      · rw [if_pos hic]; exact hnew
      · rw [if_neg hic]
        rw [hXt] at hc2
        simp only [Mat.n_rows, List.length_set] at hc2
        exact hin c hc1 hc2
  · rw [if_neg hc] at hset; cases hset

theorem gibbs_site_draws (h : Host) (k n : Vec) (A : Mat) (b prior : Vec) (i : Nat)
    (s s1 : Gibbs) (m : Nat) (hstep : gibbs_site h k n A b prior i s m = .ok s1) :
    ∀ d ∈ s.draws, d ∈ s1.draws := by
  obtain ⟨x, j, bmin, bmax, v, _, _, _, _, hdraws⟩ :=
    gibbs_site_ok h k n A b prior i s s1 m hstep
  intro d hd
  rw [hdraws]
  exact List.mem_append_left _ hd
theorem gibbs_check_frame (h : Host) (s : Gibbs) (i : Nat) :
    (gibbs_check h s i).Xt = s.Xt ∧ (gibbs_check h s i).draws = s.draws := by
  unfold gibbs_check
  split <;> exact ⟨rfl, rfl⟩

theorem gibbs_check_run (h : Host) (s : Gibbs) (i : Nat)
    (hrun : ∀ c, h.check_abort c = false) (hs : s.run = true) :
    (gibbs_check h s i).run = true := by
  unfold gibbs_check
  split
  · simp [hrun]
  · exact hs

theorem set_row_ok (A : Mat) (i : Nat) (v : Vec) (A1 : Mat) (h : A.set_row i v = .ok A1) :
    i < A.rows.length ∧ v.length = A.n_cols ∧ A1 = ⟨A.n_cols, A.rows.set i v⟩ := by
  unfold Mat.set_row at h
  by_cases h1 : i < A.n_rows
  · rw [if_pos h1] at h
    by_cases h2 : v.length = A.n_cols
    · rw [if_pos h2, Except.ok.injEq] at h
      exact ⟨h1, h2, h.symm⟩
    · rw [if_neg h2] at h; cases h
  · rw [if_neg h1] at h; cases h

theorem gibbs_iter_ok (h : Host) (k n : Vec) (A : Mat) (b prior : Vec) (D : Nat)
    (s s1 : Gibbs) (i : Nat) (hstep : gibbs_iter h k n A b prior D s i = .ok s1) :
    ((gibbs_check h s i).run = false ∧ s1 = gibbs_check h s i) ∨
    ((gibbs_check h s i).run = true ∧ ∃ prev Xt,
      (gibbs_check h s i).Xt.row (i - 1) = .ok prev ∧
      (gibbs_check h s i).Xt.set_row i prev = .ok Xt ∧
      List.foldlM (gibbs_site h k n A b prior i)
        { Xt := Xt, run := (gibbs_check h s i).run,
          idx := h.sample (gibbs_check h s i).clock (gibbs_check h s i).idx D,
          clock := (gibbs_check h s i).clock + 1,
          draws := (gibbs_check h s i).draws } (List.range D) = .ok s1) := by
  unfold gibbs_iter at hstep
  simp only at hstep
  cases hr : (gibbs_check h s i).run with
  | false =>
    left
    simp only [hr, Bool.false_eq_true, if_false, pure_eq_ok, Except.ok.injEq] at hstep
    exact ⟨rfl, hstep.symm⟩
  | true =>
    right
    simp only [hr, if_true] at hstep
    cases hrow : (gibbs_check h s i).Xt.row (i - 1) with
    | error e => simp only [hrow, error_bind] at hstep; cases hstep
    | ok prev =>
      simp only [hrow, ok_bind] at hstep
      cases hset : (gibbs_check h s i).Xt.set_row i prev with
      | error e => simp only [hset, error_bind] at hstep; cases hstep
      | ok Xt =>
        simp only [hset, ok_bind] at hstep
        exact ⟨rfl, prev, Xt, rfl, hset, hstep⟩

theorem gibbs_iter_draws (h : Host) (k n : Vec) (A : Mat) (b prior : Vec) (D : Nat)
    (s s1 : Gibbs) (i : Nat) (hstep : gibbs_iter h k n A b prior D s i = .ok s1) :
    ∀ d ∈ s.draws, d ∈ s1.draws := by
  rcases gibbs_iter_ok h k n A b prior D s s1 i hstep with ⟨_, h1⟩ | ⟨_, prev, Xt, _, _, hf⟩
  · rw [h1, (gibbs_check_frame h s i).2]
    exact fun d hd => hd
  · have := foldlM_rel (gibbs_site h k n A b prior i) (fun a c => ∀ d ∈ a.draws, d ∈ c.draws)
      (fun _ d hd => hd) (fun _ _ _ h1 h2 d hd => h2 d (h1 d hd))
      (fun s m s1 hs => gibbs_site_draws h k n A b prior i s s1 m hs) _ _ _ hf
    simp only [(gibbs_check_frame h s i).2] at this
    exact this

theorem draws_in_range_back (a c : List Draw) (hsub : ∀ d ∈ a, d ∈ c)
    (hc : draws_in_range c) : draws_in_range a :=
  fun d hd => hc d (hsub d hd)

/-- One iteration keeps the invariant and extends it to the row of that iteration, when no
abort is signalled and the values drawn are in their intervals. -/
theorem gibbs_iter_inv (h : Host) (k n : Vec) (A : Mat) (b prior : Vec) (N i : Nat)
    (hA : A.wf) (hb : b.length = A.n_rows) (hrun : ∀ c, h.check_abort c = false)
    (hi1 : 1 ≤ i) (s s1 : Gibbs) (hs : chain_ok A b N i s)
    (hstep : gibbs_iter h k n A b prior A.n_cols s i = .ok s1)
    (hd : draws_in_range s1.draws) : chain_ok A b N (i + 1) s1 := by
  obtain ⟨hcols, hwf, hrows, hin, hr⟩ := hs
  obtain ⟨hXt, hdr⟩ := gibbs_check_frame h s i
  have hrun2 := gibbs_check_run h s i hrun hr
  rcases gibbs_iter_ok h k n A b prior A.n_cols s s1 i hstep with
    ⟨h0, _⟩ | ⟨_, prev, Xt, hrow, hset, hf⟩
  · rw [hrun2] at h0; cases h0
  · rw [hXt] at hrow hset
    obtain ⟨hp1, hp2⟩ := row_ok _ _ _ hrow
    obtain ⟨hs1, hs2, hs3⟩ := set_row_ok _ _ _ _ hset
    have hstart : chain_ok A b N (i + 1)
        { Xt := Xt, run := (gibbs_check h s i).run,
          idx := h.sample (gibbs_check h s i).clock (gibbs_check h s i).idx A.n_cols,
          clock := (gibbs_check h s i).clock + 1,
          draws := (gibbs_check h s i).draws } := by
      refine ⟨by rw [hs3]; exact hcols, ?_, ?_, ?_, hrun2⟩
      · simp only; rw [hs3]; exact wf_set_rows s.Xt i prev hwf hs2
      · simp only; rw [hs3]; simp only [Mat.n_rows, List.length_set]; exact hrows
      · intro c hc1 hc2
        simp only at hc2 ⊢
        rw [hs3] at hc2 ⊢
        simp only [Mat.n_rows, List.length_set] at hc2
        simp only
        rw [getD_set_rows _ _ _ _ hs1]
        by_cases hic : i = c
        · rw [if_pos hic, ← hp2]
          exact hin (i - 1) (by omega) hp1
        · rw [if_neg hic]
          exact hin c (by omega) hc2
    have := foldlM_range_inv (gibbs_site h k n A b prior i)
      (fun _ s => chain_ok A b N (i + 1) s) (fun s => draws_in_range s.draws)
      (fun s m s1 hs hg => draws_in_range_back _ _
        (gibbs_site_draws h k n A b prior i s s1 m hs) hg)
      A.n_cols 0
      (fun m s s1 _ _ hinv hs hg => gibbs_site_inv h k n A b prior N i hA hb s s1 m hinv hs hg)
      _ s1 (by rw [← List.range_eq_range']; exact hf) hd hstart
    exact this

theorem start_random_inside (h : Host) (A : Mat) (b : Vec) (M : Int) (start : Vec) (t : Nat)
    (hA : A.wf) (hb : b.length ≤ A.n_rows) (hin : inside A b start) (st : Vec) (t1 : Nat)
    (hsr : start_random h A b M start t = .ok (st, t1)) : inside A b st := by
  cases start with
  | nil => simp only [start_random, vat, List.getElem?_nil, error_bind] at hsr; cases hsr
  | cons a as =>
    by_cases ha : a = -1
    · have hs : (a :: as)[0]? = some (-1 : ℚ) := by rw [ha, List.getElem?_cons_zero]
      by_cases hex : ∃ i, i + 1 < (max M 1000).toNat ∧ inside A b (randu h (t + i) A.n_cols)
      · have hspec := Nat.find_spec hex
        have hmin : ∀ j, j < Nat.find hex → ¬ inside A b (randu h (t + j) A.n_cols) := by
          intro j hj hjin
          exact Nat.find_min hex hj ⟨by omega, hjin⟩
        rw [start_random_finds h A b hA hb M _ t (Nat.find hex) hs hspec.1 hspec.2 hmin] at hsr
        simp only [Except.ok.injEq, Prod.mk.injEq] at hsr
        rw [← hsr.1]; exact hspec.2
      · rw [start_random_fails h A b hA hb M _ t hs
          (fun i hi hi2 => hex ⟨i, hi, hi2⟩)] at hsr
        cases hsr
    · have := start_random_skip h A b M (a :: as) t (by simp) (by simpa using ha)
      rw [this] at hsr
      simp only [Except.ok.injEq, Prod.mk.injEq] at hsr
      rw [← hsr.1]; exact hin
theorem shed_rows_ok (A : Mat) (r1 r2 : Nat) (A1 : Mat) (h : A.shed_rows r1 r2 = .ok A1) :
    r1 ≤ r2 ∧ r2 < A.n_rows ∧ A1 = ⟨A.n_cols, A.rows.take r1 ++ A.rows.drop (r2 + 1)⟩ := by
  unfold Mat.shed_rows at h
  by_cases hc : r1 > r2 ∨ r2 ≥ A.n_rows
  · rw [if_pos hc] at h; cases h
  · rw [if_neg hc, Except.ok.injEq] at h
    exact ⟨by omega, by omega, h.symm⟩

theorem fresh_chain_wf (h : Host) (D N : Nat) : (fresh_chain h D N).wf := by
  intro r hr
  simp only [fresh_chain, List.mem_map] at hr
  obtain ⟨c, _, rfl⟩ := hr
  simp [fresh_chain]

theorem bind_eq_ok {α β : Type} (x : Except Err α) (f : α → Except Err β) (c : β)
    (h : (x >>= f) = .ok c) : ∃ a, x = .ok a ∧ f a = .ok c := by
  cases x with
  | error e => rw [error_bind] at h; cases h
  | ok a => exact ⟨a, rfl, h⟩

/-- What a successful entry into the main loop of the sampler tells. -/
theorem sampling_binomial_init_ok (h : Host) (A : Mat) (b : Vec) (M : Int) (start : Vec)
    (burnin : Int) (t : Nat) (s0 : Gibbs)
    (hinit : sampling_binomial_init h A b M start burnin t = .ok s0) :
    0 ≤ M + burnin ∧ ∃ st t1, start_random h A b M start t = .ok (st, t1) ∧
      0 < (M + burnin).toNat ∧ st.length = A.n_cols ∧
      s0 = { Xt := ⟨A.n_cols, (fresh_chain h A.n_cols (M + burnin).toNat).rows.set 0 st⟩,
             run := true, idx := List.range A.n_cols, clock := t1, draws := [] } := by
  unfold sampling_binomial_init at hinit
  by_cases hneg : M + burnin < 0
  · simp only [if_pos hneg] at hinit; cases hinit
  · simp only [if_neg hneg] at hinit
    cases hsr : start_random h A b M start t with
    | error e => simp only [hsr, error_bind] at hinit; cases hinit
    | ok p =>
      obtain ⟨st, t1⟩ := p
      simp only [hsr, ok_bind] at hinit
      cases hset : (fresh_chain h A.n_cols (M + burnin).toNat).set_row 0 st with
      | error e => simp only [hset, error_bind] at hinit; cases hinit
      | ok Xt0 =>
        simp only [hset, ok_bind, pure_eq_ok, Except.ok.injEq] at hinit
        obtain ⟨hs1, hs2, hs3⟩ := set_row_ok _ _ _ _ hset
        have hfr : (fresh_chain h A.n_cols (M + burnin).toNat).rows.length
            = (M + burnin).toNat := by simp [fresh_chain]
        refine ⟨by omega, st, t1, rfl, by rw [← hfr]; exact hs1, hs2, ?_⟩
        rw [← hinit, hs3]
        rfl

/-- The invariant holds when the main loop is entered from a starting point inside. -/
theorem sampling_binomial_init_inv (h : Host) (A : Mat) (b : Vec) (M : Int) (start : Vec)
    (burnin : Int) (t : Nat) (s0 : Gibbs) (hA : A.wf) (hb : b.length = A.n_rows)
    (hstart : inside A b start)
    (hinit : sampling_binomial_init h A b M start burnin t = .ok s0) :
    chain_ok A b (M + burnin).toNat 1 s0 := by
  obtain ⟨_, st, t1, hsr, hN, hlen, hs0⟩ := sampling_binomial_init_ok h A b M start burnin t
    s0 hinit
  have hst := start_random_inside h A b M start t hA (le_of_eq hb) hstart st t1 hsr
  have hfr : (fresh_chain h A.n_cols (M + burnin).toNat).rows.length
      = (M + burnin).toNat := by simp [fresh_chain]
  rw [hs0]
  refine ⟨rfl, ?_, ?_, ?_, rfl⟩
  · exact wf_set_rows (fresh_chain h A.n_cols (M + burnin).toNat) 0 st
      (fresh_chain_wf h _ _) hlen
  · simp only [Mat.n_rows, List.length_set]; exact hfr
  · intro c hc1 hc2
    have hc0 : c = 0 := by omega
    subst hc0
    simp only
    rw [getD_set_rows _ _ _ _ (by rw [hfr]; exact hN), if_pos rfl]
    exact hst

/-- C2: in exact arithmetic, for a system `(A, b)` (`A` of `R` rows, `b` of length `R`),
`M ≥ 1` and `burnin ≥ 1`, when the starting point satisfies `A * start ≤ b`, no abort is
signalled and every value returned by `rbeta_trunc` during the run lies in the interval
`[bmin, bmax]` it was called with, every call of `sampling_binomial_cpp` that returns gives
`M` rows, and every row `x` satisfies `dot(A[r], x) ≤ b[r]` for every row `r` of `A`. -/
theorem sampling_binomial_feasible (h : Host) (k n : Vec) (A : Mat) (b prior : Vec)
    (M burnin : Int) (start : Vec) (t : Nat) (out : SamplerOut)
    (hA : A.wf) (hb : b.length = A.n_rows) (hM : 1 ≤ M) (hburn : 1 ≤ burnin)
    (hstart : ∀ r, r < A.n_rows → dotq (A.rows.getD r []) start ≤ b.getD r 0)
    (hrun : ∀ c, h.check_abort c = false)
    (hout : sampling_binomial_cpp h k n A b prior M start burnin t = .ok out)
    (hdraws : draws_in_range out.draws) :
    out.sample.n_rows = M.toNat ∧
    ∀ x ∈ out.sample.rows, ∀ r, r < A.n_rows → dotq (A.rows.getD r []) x ≤ b.getD r 0 := by
  have hstart2 : inside A b start := by
    intro r hr
    rw [dotq_comm]
    exact hstart r (by rw [← hb]; exact hr)
  unfold sampling_binomial_cpp at hout
  obtain ⟨sfin, hchain, hrest⟩ := bind_eq_ok _ _ _ hout
  unfold sampling_binomial_chain at hchain
  obtain ⟨s0, hinit, hfold⟩ := bind_eq_ok _ _ _ hchain
  obtain ⟨Xt1, hshed, hpack⟩ := bind_eq_ok _ _ _ hrest
  simp only [pure_eq_ok, Except.ok.injEq] at hpack
  subst hpack
  simp only at hdraws ⊢
  have hinv0 := sampling_binomial_init_inv h A b M start burnin t s0 hA hb hstart2 hinit
  have hfin := foldlM_range_inv (gibbs_iter h k n A b prior A.n_cols)
    (fun i s => chain_ok A b (M + burnin).toNat i s) (fun s => draws_in_range s.draws)
    (fun s i s1 hs hg => draws_in_range_back _ _
      (gibbs_iter_draws h k n A b prior A.n_cols s s1 i hs) hg)
    ((M + burnin).toNat - 1) 1
    (fun i s s1 hi1 _ hinv hs hg =>
      gibbs_iter_inv h k n A b prior _ i hA hb hrun hi1 s s1 hinv hs hg)
    _ sfin hfold hdraws hinv0
  obtain ⟨_, _, hrows, hin, _⟩ := hfin
  obtain ⟨_, hr2, hX1⟩ := shed_rows_ok _ _ _ _ hshed
  have hu : int_to_uword (burnin - 1) = burnin.toNat - 1 := by
    unfold int_to_uword
    rw [if_pos (by omega)]
    omega
  rw [hu] at hX1
  have htot : (M + burnin).toNat = M.toNat + burnin.toNat := by omega
  have hb1 : 1 ≤ burnin.toNat := by omega
  constructor
  · rw [hX1]
    simp only [Mat.n_rows, List.take_zero, List.nil_append, List.length_drop]
    have : sfin.Xt.rows.length = (M + burnin).toNat := hrows
    omega
  · intro x hx r hr
    rw [hX1] at hx
    simp only [List.take_zero, List.nil_append] at hx
    have hmem := List.mem_of_mem_drop hx
    obtain ⟨c, hc, hget⟩ := List.getElem_of_mem hmem
    have hxin : inside A b x := by
      have hcN : c < 1 + ((M + burnin).toNat - 1) := by
        have : sfin.Xt.rows.length = (M + burnin).toNat := hrows
        omega
      have := hin c hcN hc
      rw [List.getD_eq_getElem _ _ hc, hget] at this
      exact this
    rw [dotq_comm]
    exact hxin r (by rw [hb]; exact hr)

/-- C2, on the triangle `x0 ≤ x1`, `x0 + x1 ≤ 1` with `M = 2`, `burnin = 1`, the start
`(0, 1/2)` and a host whose draws are the midpoints of their intervals. -/
theorem sampling_binomial_feasible_witness :
    (⟨2, [[1/4, 1/2], [1/4, 1/2]]⟩ : Mat).n_rows = 2 ∧
    ∀ x ∈ ([[1/4, 1/2], [1/4, 1/2]] : List Vec), ∀ r, r < 2 →
      dotq (([[1, -1], [1, 1]] : List Vec).getD r []) x ≤ ([0, 1] : Vec).getD r 0 :=
  sampling_binomial_feasible host_uniform [0, 0] [0, 0] ⟨2, [[1, -1], [1, 1]]⟩ [0, 1] [1, 1]
    2 1 [0, 1/2] 0
    { sample := ⟨2, [[1/4, 1/2], [1/4, 1/2]]⟩, clock := 6,
      draws := [⟨0, 1/2, 1/4⟩, ⟨1/4, 3/4, 1/2⟩, ⟨0, 1/2, 1/4⟩, ⟨1/4, 3/4, 1/2⟩] }
    (by decide) rfl (by decide) (by decide) (by decide!) (fun _ => rfl) (by decide!)
    (by decide!)
/-! ### Step boundaries of the stepwise count -/

theorem sort_steps_sorted (steps : Vec) (mx : Int) :
    List.Sorted (· < ·) (sort_steps steps mx) := by
  have hperm := List.perm_insertionSort (· ≤ · : ℚ → ℚ → Prop)
    (((steps ++ [(mx : ℚ)]).map (fun s => s - 1)).dedup)
  have hnodup : (sort_steps steps mx).Nodup := by
    rw [sort_steps_eq]
    exact hperm.nodup_iff.mpr (List.nodup_dedup _)
  have hsorted : List.Sorted (· ≤ ·) (sort_steps steps mx) := by
    rw [sort_steps_eq]
    exact List.sorted_insertionSort _ _
  exact hsorted.lt_of_le hnodup

theorem mem_sort_steps (steps : Vec) (mx : Int) (y : ℚ) :
    y ∈ sort_steps steps mx ↔ (∃ s ∈ steps, y = s - 1) ∨ y = (mx : ℚ) - 1 := by
  have hperm := List.perm_insertionSort (· ≤ · : ℚ → ℚ → Prop)
    (((steps ++ [(mx : ℚ)]).map (fun s => s - 1)).dedup)
  rw [sort_steps_eq, hperm.mem_iff, List.mem_dedup, List.mem_map]
  constructor
  · rintro ⟨s, hs, rfl⟩
    rcases List.mem_append.mp hs with h1 | h1
    · exact Or.inl ⟨s, h1, rfl⟩
    · rw [List.mem_singleton] at h1
      exact Or.inr (by rw [h1])
  · rintro (⟨s, hs, rfl⟩ | rfl)
    · exact ⟨s, List.mem_append_left _ hs, rfl⟩
    · exact ⟨(mx : ℚ), List.mem_append_right _ (List.mem_singleton_self _), rfl⟩

theorem sort_steps_ne_nil (steps : Vec) (mx : Int) : sort_steps steps mx ≠ [] := by
  intro h
  have := (mem_sort_steps steps mx ((mx : ℚ) - 1)).mpr (Or.inr rfl)
  rw [h] at this
  exact absurd this (List.not_mem_nil _)

/-- The last element of a strictly ascending list is its largest. -/
theorem sorted_le_getLast (l : Vec) (hl : List.Sorted (· < ·) l) (hne : l ≠ []) :
    ∀ y ∈ l, y ≤ l.getLast hne := by
  intro y hy
  have hsplit := List.dropLast_append_getLast hne
  rw [← hsplit] at hy hl
  rcases List.mem_append.mp hy with h1 | h1
  · have := (List.pairwise_append.mp hl).2.2 y h1 (l.getLast hne) (List.mem_singleton_self _)
    exact le_of_lt this
  · rw [List.mem_singleton] at h1
    rw [h1]

/-- When no step exceeds `max`, the last boundary is `max - 1`. -/
theorem sort_steps_getLast (steps : Vec) (mx : Int) (hle : ∀ s ∈ steps, s ≤ (mx : ℚ)) :
    (sort_steps steps mx).getLast (sort_steps_ne_nil steps mx) = (mx : ℚ) - 1 := by
  apply le_antisymm
  · have hmem := List.getLast_mem (sort_steps_ne_nil steps mx)
    rcases (mem_sort_steps steps mx _).mp hmem with ⟨s, hs, heq⟩ | heq
    · rw [heq]; linarith [hle s hs]
    · rw [heq]
  · exact sorted_le_getLast _ (sort_steps_sorted steps mx) _ _
      ((mem_sort_steps steps mx _).mpr (Or.inr rfl))

/-- C12 (as amended): for every steps vector with no entry above `R`, the last (and largest)
boundary computed by `sort_steps(steps, R)` is `R - 1`. -/
theorem sort_steps_last (steps : Vec) (R : Nat) (hle : ∀ s ∈ steps, s ≤ (R : ℚ)) :
    (sort_steps steps (R : Int)).getLast? = some ((R : ℚ) - 1) ∧
    ∀ y ∈ sort_steps steps (R : Int), y ≤ (R : ℚ) - 1 := by
  have hle2 : ∀ s ∈ steps, s ≤ (((R : Nat) : Int) : ℚ) := by
    intro s hs; exact_mod_cast hle s hs
  have hlast := sort_steps_getLast steps (R : Int) hle2
  have hcast : (((R : Nat) : Int) : ℚ) = (R : ℚ) := by norm_cast
  constructor
  · rw [List.getLast?_eq_getLast _ (sort_steps_ne_nil steps (R : Int)), hlast, hcast]
  · intro y hy
    have := sorted_le_getLast _ (sort_steps_sorted steps (R : Int))
      (sort_steps_ne_nil steps (R : Int)) y hy
    rw [hlast, hcast] at this
    exact this

/-- C12 as stated fails: with two rows and the step 3, the boundaries are 1 and 2 and the
last one is 2, not 1. -/
theorem sort_steps_last_beyond :
    sort_steps [3] ((2 : Nat) : Int) = [1, 2] ∧
    (sort_steps [3] ((2 : Nat) : Int)).getLast? ≠ some (((2 : Nat) : ℚ) - 1) := by
  decide!

/-- C12 (as amended), at the steps 1 and 2 of a system with three rows. -/
theorem sort_steps_last_witness :
    (sort_steps [1, 2] ((3 : Nat) : Int)).getLast? = some (((3 : Nat) : ℚ) - 1) ∧
    ∀ y ∈ sort_steps [1, 2] ((3 : Nat) : Int), y ≤ ((3 : Nat) : ℚ) - 1 :=
  sort_steps_last [1, 2] 3 (by decide!)
/-- The `steps` field of the result of `count_stepwise` is the list of boundaries plus one. -/
theorem count_stepwise_steps (h : Host) (fuel : Nat) (k n : Vec) (A : Mat) (b prior : Vec)
    (M steps : Vec) (batch : Int) (start : Vec) (t : Nat) (res : StepwiseResult × Nat)
    (hres : count_stepwise h fuel k n A b prior M steps batch start t = .ok res) :
    res.1.steps = (sort_steps steps (A.n_rows : Int)).map (fun s => s + 1) := by
  unfold count_stepwise at hres
  obtain ⟨r, hrun, hpack⟩ := bind_eq_ok _ _ _ hres
  simp only [pure_eq_ok, Except.ok.injEq] at hpack
  rw [← hpack]
  unfold count_stepwise_run at hrun
  simp only at hrun
  obtain ⟨M1, _, hrun⟩ := bind_eq_ok _ _ _ hrun
  obtain ⟨s0, _, hrun⟩ := bind_eq_ok _ _ _ hrun
  obtain ⟨A0, _, hrun⟩ := bind_eq_ok _ _ _ hrun
  obtain ⟨b0, _, hrun⟩ := bind_eq_ok _ _ _ hrun
  obtain ⟨M0, _, hrun⟩ := bind_eq_ok _ _ _ hrun
  obtain ⟨r0, _, hrun⟩ := bind_eq_ok _ _ _ hrun
  obtain ⟨c1, _, hrun⟩ := bind_eq_ok _ _ _ hrun
  obtain ⟨MS, _, hrun⟩ := bind_eq_ok _ _ _ hrun
  obtain ⟨q, _, hrun⟩ := bind_eq_ok _ _ _ hrun
  simp only [pure_eq_ok, Except.ok.injEq] at hrun
  rw [← hrun]

theorem sorted_eq_of_mem_iff (l1 l2 : Vec) (h1 : List.Sorted (· < ·) l1)
    (h2 : List.Sorted (· < ·) l2) (hmem : ∀ y, y ∈ l1 ↔ y ∈ l2) : l1 = l2 := by
  have hperm : l1.Perm l2 := (List.perm_ext_iff_of_nodup h1.nodup h2.nodup).mpr hmem
  exact List.eq_of_perm_of_sorted hperm h1 h2

/-- C11: for a system with `R` rows and a vector `steps` of whole numbers between 1 and
`R`, the field `steps` of what `count_stepwise` returns is the list of the boundaries computed
by `sort_steps` with one added to each: it is strictly ascending (so free of duplicates),
its elements are the input steps together with `R`, and when the input is already strictly
ascending and ends in `R` it is the input itself. -/
theorem count_stepwise_steps_field (h : Host) (fuel : Nat) (k n : Vec) (A : Mat)
    (b prior : Vec) (M steps : Vec) (batch : Int) (start : Vec) (t : Nat)
    (res : StepwiseResult × Nat) (R : Nat) (hA : A.n_rows = R)
    (_hsteps : ∀ s ∈ steps, ∃ m : Nat, 1 ≤ m ∧ m ≤ R ∧ s = (m : ℚ))
    (hres : count_stepwise h fuel k n A b prior M steps batch start t = .ok res) :
    res.1.steps = (sort_steps steps (R : Int)).map (fun s => s + 1) ∧
    List.Sorted (· < ·) res.1.steps ∧
    (∀ y, y ∈ res.1.steps ↔ y ∈ steps ∨ y = (R : ℚ)) ∧
    (List.Sorted (· < ·) steps → steps.getLast? = some (R : ℚ) → res.1.steps = steps) := by
  have hfield := count_stepwise_steps h fuel k n A b prior M steps batch start t res hres
  rw [hA] at hfield
  have hsorted : List.Sorted (· < ·) res.1.steps := by
    rw [hfield]
    exact (List.pairwise_map.mpr ((sort_steps_sorted steps (R : Int)).imp
      (fun hab => by linarith)))
  have hmem : ∀ y, y ∈ res.1.steps ↔ y ∈ steps ∨ y = (R : ℚ) := by
    intro y
    rw [hfield, List.mem_map]
    constructor
    · rintro ⟨z, hz, rfl⟩
      rcases (mem_sort_steps steps (R : Int) z).mp hz with ⟨s, hs, heq⟩ | heq
      · left; rw [heq]; simpa using hs
      · right; rw [heq]; push_cast; ring
    · rintro (hy | hy)
      · exact ⟨y - 1, (mem_sort_steps steps (R : Int) _).mpr (Or.inl ⟨y, hy, rfl⟩), by ring⟩
      · refine ⟨y - 1, (mem_sort_steps steps (R : Int) _).mpr (Or.inr ?_), by ring⟩
        rw [hy]; push_cast; ring
  refine ⟨hfield, hsorted, hmem, ?_⟩
  intro hs hlast
  apply sorted_eq_of_mem_iff _ _ hsorted hs
  intro y
  rw [hmem y]
  constructor
  · rintro (hy | hy)
    · exact hy
    · rw [hy]; exact List.mem_of_mem_getLast? (by rw [hlast]; rfl)
  · exact fun hy => Or.inl hy

/-- C11, on two constraints of the plane with the steps 1 and 2. -/
theorem count_stepwise_steps_field_witness :
    ([1, 2] : Vec) = (sort_steps [1, 2] ((2 : Nat) : Int)).map (fun s => s + 1) ∧
    List.Sorted (· < ·) ([1, 2] : Vec) ∧
    (∀ y, y ∈ ([1, 2] : Vec) ↔ y ∈ ([1, 2] : Vec) ∨ y = ((2 : Nat) : ℚ)) ∧
    (List.Sorted (· < ·) ([1, 2] : Vec) → ([1, 2] : Vec).getLast? = some ((2 : Nat) : ℚ) →
      ([1, 2] : Vec) = [1, 2]) :=
  count_stepwise_steps_field host_uniform 3 [0, 0] [0, 0] ⟨2, [[1, -1], [1, 1]]⟩ [0, 1] [1, 1]
    [2] [1, 2] 3 [0, 1/2] 0
    ({ integral := 1, count := [2, 2], M := [2, 2], steps := [1, 2] }, 36) 2 rfl
    (by
      intro s hs
      simp only [List.mem_cons, List.mem_singleton, List.not_mem_nil, or_false] at hs
      rcases hs with rfl | rfl
      · exact ⟨1, by decide, by decide, by norm_num⟩
      · exact ⟨2, by decide, by decide, by norm_num⟩)
    (by decide!)
/-! ### The blocks of the stepwise count -/

theorem getD_mem (l : Vec) (s : Nat) (hs : s < l.length) : l.getD s 0 ∈ l := by
  rw [List.getD_eq_getElem _ _ hs]
  exact List.getElem_mem _

theorem rows_range_ok (A : Mat) (r1 r2 : Nat) (h1 : r1 ≤ r2) (h2 : r2 < A.n_rows) :
    A.rows_range r1 r2 = .ok ⟨A.n_cols, (A.rows.drop r1).take (r2 - r1 + 1)⟩ ∧
    ((A.rows.drop r1).take (r2 - r1 + 1)).length = r2 - r1 + 1 := by
  constructor
  · rw [Mat.rows_range, if_neg (by omega)]
  · rw [List.length_take, List.length_drop]
    have : r2 < A.rows.length := h2
    omega

theorem while_loop_inv {σ : Type} (cond : σ → Bool) (body : σ → Except Err σ)
    (I : σ → Prop) (hstep : ∀ s s1, I s → cond s = true → body s = .ok s1 → I s1) :
    ∀ fuel s s1, I s → while_loop cond body fuel s = .ok s1 → I s1 ∧ cond s1 = false := by
  intro fuel
  induction fuel with
  | zero =>
    intro s s1 hI h
    cases hc : cond s with
    | true => simp [while_loop, hc] at h
    | false =>
      rw [while_loop_done _ _ _ _ hc, Except.ok.injEq] at h
      rw [← h]; exact ⟨hI, hc⟩
  | succ fuel ih =>
    intro s s1 hI h
    cases hc : cond s with
    | true =>
      rw [while_loop_step _ _ _ _ hc] at h
      obtain ⟨s2, hb, hrest⟩ := bind_eq_ok _ _ _ h
      exact ih s2 s1 (hstep s s2 hI hc hb) hrest
    | false =>
      rw [while_loop_done _ _ _ _ hc, Except.ok.injEq] at h
      rw [← h]; exact ⟨hI, hc⟩

theorem while_loop_total {σ : Type} (cond : σ → Bool) (body : σ → Except Err σ)
    (I : σ → Prop) (μ : σ → Nat)
    (hstep : ∀ s, I s → cond s = true → ∃ s1, body s = .ok s1 ∧ I s1 ∧ μ s1 < μ s) :
    ∀ fuel s, I s → μ s ≤ fuel →
      ∃ s1, while_loop cond body fuel s = .ok s1 ∧ I s1 ∧ cond s1 = false := by
  intro fuel
  induction fuel with
  | zero =>
    intro s hI hμ
    cases hc : cond s with
    | true =>
      obtain ⟨s1, _, _, hlt⟩ := hstep s hI hc
      omega
    | false => exact ⟨s, while_loop_done _ _ _ _ hc, hI, hc⟩
  | succ fuel ih =>
    intro s hI hμ
    cases hc : cond s with
    | true =>
      obtain ⟨s1, hb, hI1, hlt⟩ := hstep s hI hc
      obtain ⟨s2, h2, hI2, hc2⟩ := ih s1 hI1 (by omega)
      exact ⟨s2, by rw [while_loop_step _ _ _ _ hc, hb, ok_bind, h2], hI2, hc2⟩
    | false => exact ⟨s, while_loop_done _ _ _ _ hc, hI, hc⟩

theorem for_each_length {α β : Type} (f : α → Except Err β) :
    ∀ (l : List α) (out : List β), for_each f l = .ok out → out.length = l.length := by
  intro l
  induction l with
  | nil =>
    intro out h
    simp only [for_each, Except.ok.injEq] at h
    rw [← h]
    rfl
  | cons a as ih =>
    intro out h
    simp only [for_each] at h
    obtain ⟨v, _, h1⟩ := bind_eq_ok _ _ _ h
    obtain ⟨vs, hvs, h2⟩ := bind_eq_ok _ _ _ h1
    simp only [pure_eq_ok, Except.ok.injEq] at h2
    rw [← h2, List.length_cons, List.length_cons, ih vs hvs]

theorem for_each_forall {α β : Type} (f : α → Except Err β) (P : β → Prop)
    (hP : ∀ a v, f a = .ok v → P v) :
    ∀ (l : List α) (out : List β), for_each f l = .ok out → ∀ v ∈ out, P v := by
  intro l
  induction l with
  | nil =>
    intro out h v hv
    simp only [for_each, Except.ok.injEq] at h
    rw [← h] at hv
    exact absurd hv (List.not_mem_nil v)
  | cons a as ih =>
    intro out h v hv
    simp only [for_each] at h
    obtain ⟨w, hw, h1⟩ := bind_eq_ok _ _ _ h
    obtain ⟨vs, hvs, h2⟩ := bind_eq_ok _ _ _ h1
    simp only [pure_eq_ok, Except.ok.injEq] at h2
    rw [← h2] at hv
    rcases List.mem_cons.mp hv with rfl | hmem
    · exact hP a v hw
    · exact ih vs hvs v hmem

/-- A list of flags 0 or 1 sums to a whole number between 0 and its length. -/
theorem flags_sum (i : Vec) (hflag : ∀ e ∈ i, e = 0 ∨ e = 1) :
    ∃ m : Nat, m ≤ i.length ∧ i.sum = (m : ℚ) := by
  induction i with
  | nil => exact ⟨0, le_refl _, by simp⟩
  | cons e es ih =>
    obtain ⟨m, hm, hsum⟩ := ih (fun x hx => hflag x (List.mem_cons_of_mem e hx))
    rcases hflag e (List.mem_cons_self e es) with h0 | h1
    · exact ⟨m, by simp only [List.length_cons]; omega, by rw [List.sum_cons, hsum, h0]; simp⟩
    · exact ⟨m + 1, by simp only [List.length_cons]; omega,
        by rw [List.sum_cons, hsum, h1]; push_cast; ring⟩

/-- The count of a batch is between 0 and the number of points of the batch. -/
theorem count_samples_range (X A : Mat) (b : Vec) (c : Int)
    (h : count_samples X A b = .ok c) : 0 ≤ c ∧ c ≤ (X.n_rows : Int) := by
  unfold count_samples at h
  obtain ⟨i, hi, h1⟩ := bind_eq_ok _ _ _ h
  simp only [pure_eq_ok, Except.ok.injEq] at h1
  unfold inside_Ab at hi
  have hlen := for_each_length _ _ _ hi
  have hflag : ∀ e ∈ i, e = 0 ∨ e = 1 := by
    apply for_each_forall _ (fun e => e = 0 ∨ e = 1) _ _ _ hi
    intro x v hv
    obtain ⟨ins, _, h2⟩ := bind_eq_ok _ _ _ hv
    simp only [pure_eq_ok, Except.ok.injEq] at h2
    rw [← h2]
    cases ins
    · left; rfl
    · right; rfl
  obtain ⟨m, hm, hsum⟩ := flags_sum i hflag
  have hcast : (m : ℚ) = (((m : Nat) : Int) : ℚ) := by norm_cast
  rw [← h1, accu, hsum, hcast, to_int_intCast]
  constructor
  · exact Int.natCast_nonneg m
  · rw [hlen] at hm
    exact_mod_cast hm

/-- What a returning call of `rbeta_mat` gives: `n` rows of the width of `shape1`. -/
theorem rbeta_mat_ok (h : Host) (t : Nat) (n : Int) (shape1 shape2 : Vec) (X : Mat) (t1 : Nat)
    (hX : rbeta_mat h t n shape1 shape2 = .ok (X, t1)) :
    0 ≤ n ∧ X.n_rows = n.toNat ∧ X.n_cols = shape1.length ∧ X.wf := by
  unfold rbeta_mat at hX
  by_cases hn : n < 0
  · rw [if_pos hn] at hX; cases hX
  · rw [if_neg hn] at hX
    obtain ⟨cols, hcols, h1⟩ := bind_eq_ok _ _ _ hX
    simp only [pure_eq_ok, Except.ok.injEq, Prod.mk.injEq] at h1
    have hlen := for_each_length _ _ _ hcols
    rw [List.length_range] at hlen
    obtain ⟨hX1, _⟩ := h1
    refine ⟨by omega, ?_, ?_, ?_⟩
    · rw [← hX1]; simp [Mat.n_rows]
    · rw [← hX1]
    · rw [← hX1]
      intro r hr
      simp only [List.mem_map] at hr
      obtain ⟨c, _, rfl⟩ := hr
      simp only [List.length_map]
      exact hlen

/-- What a returning turn of the batch loop does to the state, when `run` holds. -/
theorem count_binomial_body_ok (h : Host) (k n : Vec) (A : Mat) (b prior : Vec) (batch : Int)
    (s s1 : CountState) (hrun : s.run = true)
    (hbody : count_binomial_body h k n A b prior batch s = .ok s1) :
    ∃ (c : Int) (rows : Nat), 0 ≤ min s.todo batch ∧ rows = (min s.todo batch).toNat ∧
      0 ≤ c ∧ c ≤ (rows : Int) ∧
      s1.run = !(h.check_abort s.clock) ∧ s1.count = s.count + c ∧
      s1.todo = s.todo - batch ∧ s1.rounds = s.rounds + 1 ∧
      s1.drawn = s.drawn + (rows : Int) := by
  unfold count_binomial_body at hbody
  rw [if_pos hrun] at hbody
  obtain ⟨p0, _, hbody⟩ := bind_eq_ok _ _ _ hbody
  obtain ⟨p1, _, hbody⟩ := bind_eq_ok _ _ _ hbody
  obtain ⟨nk, _, hbody⟩ := bind_eq_ok _ _ _ hbody
  obtain ⟨Xt, hX, hbody⟩ := bind_eq_ok _ _ _ hbody
  obtain ⟨X, t1⟩ := Xt
  obtain ⟨c, hc, hbody⟩ := bind_eq_ok _ _ _ hbody
  simp only [pure_eq_ok, Except.ok.injEq] at hbody
  obtain ⟨hn0, hrows, _, _⟩ := rbeta_mat_ok h _ _ _ _ X t1 hX
  obtain ⟨hc0, hc1⟩ := count_samples_range X A b c hc
  refine ⟨c, X.n_rows, hn0, hrows, hc0, hc1, ?_, ?_, ?_, ?_, ?_⟩ <;> rw [← hbody]

/-- A returning turn of the batch loop keeps the invariant, when no abort is signalled. -/
theorem count_binomial_body_inv (h : Host) (k n : Vec) (A : Mat) (b prior : Vec)
    (M batch : Int) (hbatch : 1 ≤ batch) (hno : ∀ c, h.check_abort c = false)
    (s s1 : CountState) (hs : count_ok M batch s) (hcond : count_binomial_cond s = true)
    (hbody : count_binomial_body h k n A b prior batch s = .ok s1) : count_ok M batch s1 := by
  obtain ⟨hrun, htodo, hround, hdrawn, hc0, hc1⟩ := hs
  obtain ⟨c, rows, hn0, hrows, hcl, hcu, e1, e2, e3, e4, e5⟩ :=
    count_binomial_body_ok h k n A b prior batch s s1 hrun hbody
  have hpos : 0 < s.todo := by simpa [count_binomial_cond] using hcond
  have hrows2 : (rows : Int) = min s.todo batch := by
    rw [hrows]; exact Int.toNat_of_nonneg hn0
  refine ⟨by rw [e1, hno]; rfl, ?_, ?_, ?_, ?_, ?_⟩
  · rw [e3, e4, htodo]; push_cast; ring
  · right; rw [e3]; omega
  · rw [e5, e3, hrows2]; omega
  · rw [e2]; omega
  · rw [e2, e5]; omega

/-- When the batch loop of an uncancelled run ends, all `M` points have been drawn, in
`ceil(M / batch)` rounds, and the count is between 0 and `M`. -/
theorem count_ok_exit (M batch : Int) (hM : 1 ≤ M) (hbatch : 1 ≤ batch) (s : CountState)
    (hs : count_ok M batch s) (hcond : count_binomial_cond s = false) :
    s.drawn = M ∧ (s.rounds : Int) = ⌈(M : ℚ) / (batch : ℚ)⌉ ∧ 0 ≤ s.count ∧ s.count ≤ M := by
  obtain ⟨_, htodo, hround, hdrawn, hc0, hc1⟩ := hs
  have hle : s.todo ≤ 0 := by simpa [count_binomial_cond] using hcond
  have hd : s.drawn = M := by omega
  refine ⟨hd, ?_, hc0, by omega⟩
  have hbq : (0 : ℚ) < (batch : ℚ) := by exact_mod_cast (by omega : (0 : Int) < batch)
  have hr1 : ¬ s.rounds = 0 := by
    intro h0
    rw [h0] at htodo
    simp at htodo
    omega
  have hlow : ((s.rounds : Int) - 1) * batch < M := by
    rcases hround with h0 | h0
    · exact absurd h0 hr1
    · rw [htodo] at h0; linarith
  have hup : M ≤ (s.rounds : Int) * batch := by rw [htodo] at hle; linarith
  symm
  rw [Int.ceil_eq_iff]
  constructor
  · rw [lt_div_iff₀ hbq]
    exact_mod_cast hlow
  · rw [div_le_iff₀ hbq]
    exact_mod_cast hup

theorem count_ok_init (M batch : Int) (hM : 1 ≤ M) (t : Nat) :
    count_ok M batch { run := true, count := 0, todo := M, clock := t, rounds := 0,
                       drawn := 0 } := by
  refine ⟨rfl, by simp, Or.inl rfl, ?_, le_refl _, le_refl _⟩
  simp only
  omega

/-- Every returning uncancelled run has drawn exactly `M` points. -/
theorem count_binomial_run_exit (h : Host) (fuel : Nat) (k n : Vec) (A : Mat) (b prior : Vec)
    (M batch : Int) (t : Nat) (s : CountState) (hM : 1 ≤ M) (hbatch : 1 ≤ batch)
    (hno : ∀ c, h.check_abort c = false)
    (hrun : count_binomial_run h fuel k n A b prior M batch t = .ok s) :
    s.drawn = M ∧ (s.rounds : Int) = ⌈(M : ℚ) / (batch : ℚ)⌉ ∧ 0 ≤ s.count ∧ s.count ≤ M := by
  obtain ⟨hI, hc⟩ := while_loop_inv count_binomial_cond
    (count_binomial_body h k n A b prior batch) (count_ok M batch)
    (fun s s1 hs hcond hb =>
      count_binomial_body_inv h k n A b prior M batch hbatch hno s s1 hs hcond hb)
    fuel _ s (count_ok_init M batch hM t) hrun
  exact count_ok_exit M batch hM hbatch s hI hc
theorem rbeta_mat_total (h : Host) (t : Nat) (n : Int) (shape1 shape2 : Vec) (hn : 0 ≤ n)
    (hlen : shape1.length ≤ shape2.length) :
    ∃ X, rbeta_mat h t n shape1 shape2 = .ok (X, t + shape1.length) := by
  unfold rbeta_mat
  rw [if_neg (by omega)]
  have hcols := for_each_eq_map (fun d => do
      let s1 ← vat shape1 d
      let s2 ← vat shape2 d
      pure ((List.range n.toNat).map (fun r => h.rbeta (t + d) r s1 s2)))
    (fun d => (List.range n.toNat).map
      (fun r => h.rbeta (t + d) r (shape1.getD d 0) (shape2.getD d 0)))
    (List.range shape1.length)
    (by
      intro d hd
      rw [List.mem_range] at hd
      simp only
      rw [vat_eq_getD shape1 d hd, vat_eq_getD shape2 d (by omega), ok_bind, ok_bind, pure_eq_ok])
  rw [hcols, ok_bind, pure_eq_ok]
  exact ⟨_, rfl⟩

/-- With consistent dimensions a turn of the batch loop returns. -/
theorem count_binomial_body_total (h : Host) (k n : Vec) (A : Mat) (b prior : Vec)
    (batch : Int) (hbatch : 1 ≤ batch) (hprior : 2 ≤ prior.length)
    (hn : n.length = k.length) (hA : A.wf) (hD : A.n_cols = k.length)
    (hb : b.length ≤ A.n_rows) (s : CountState) (htodo : 0 < s.todo) :
    ∃ s1, count_binomial_body h k n A b prior batch s = .ok s1 := by
  unfold count_binomial_body
  by_cases hrun : s.run = true
  swap
  · rw [if_neg hrun]; exact ⟨s, rfl⟩
  rw [if_pos hrun, vat_eq_getD prior 0 (by omega), ok_bind, vat_eq_getD prior 1 (by omega),
    ok_bind, vsub, if_pos hn, ok_bind]
  obtain ⟨X, hX⟩ := rbeta_mat_total h (s.clock + 1) (min s.todo batch)
    (k.map (fun a => a + prior.getD 0 0))
    ((List.zipWith (· - ·) n k).map (fun a => a + prior.getD 1 0)) (by omega)
    (by simp [hn])
  obtain ⟨_, _, hcols, hwf⟩ := rbeta_mat_ok h _ _ _ _ X _ hX
  rw [hX, ok_bind]
  simp only
  have hcount : ∃ c, count_samples X A b = .ok c := by
    unfold count_samples
    rw [inside_Ab_eq X A b hwf hA (by rw [hcols, List.length_map, hD]) hb, ok_bind]
    exact ⟨_, rfl⟩
  obtain ⟨c, hc⟩ := hcount
  rw [hc, ok_bind]
  exact ⟨_, rfl⟩

/-- C20: for `M ≥ 1`, `batch ≥ 1`, every host that signals no abort, consistent dimensions
and a bound of at least `ceil(M / batch)` turns, the batch loop of `count_binomial_cpp` ends
after exactly `ceil(M / batch)` rounds with a count between 0 and `M`, and the call returns
that count, the integral `count / M` (between 0 and 1) and `M` itself. -/
theorem count_binomial_uncancelled (h : Host) (fuel : Nat) (k n : Vec) (A : Mat)
    (b prior : Vec) (M batch : Int) (t : Nat) (hM : 1 ≤ M) (hbatch : 1 ≤ batch)
    (hno : ∀ c, h.check_abort c = false) (hprior : 2 ≤ prior.length)
    (hn : n.length = k.length) (hA : A.wf) (hD : A.n_cols = k.length)
    (hb : b.length ≤ A.n_rows) (hfuel : ⌈(M : ℚ) / (batch : ℚ)⌉.toNat ≤ fuel) :
    ∃ s, count_binomial_run h fuel k n A b prior M batch t = .ok s ∧
      (s.rounds : Int) = ⌈(M : ℚ) / (batch : ℚ)⌉ ∧ 0 ≤ s.count ∧ s.count ≤ M ∧
      count_binomial_cpp h fuel k n A b prior M batch t
        = .ok ({ integral := (s.count : ℚ) / (M : ℚ), count := (s.count : ℚ), M := (M : ℚ) },
               s.clock) ∧
      0 ≤ (s.count : ℚ) / (M : ℚ) ∧ (s.count : ℚ) / (M : ℚ) ≤ 1 := by
  have hbq : (0 : ℚ) < (batch : ℚ) := by exact_mod_cast (by omega : (0 : Int) < batch)
  have hMq : (0 : ℚ) < (M : ℚ) := by exact_mod_cast (by omega : (0 : Int) < M)
  obtain ⟨s, hs, hI, hc⟩ := while_loop_total count_binomial_cond
    (count_binomial_body h k n A b prior batch) (count_ok M batch)
    (fun s => (⌈(M : ℚ) / (batch : ℚ)⌉ - (s.rounds : Int)).toNat)
    (by
      intro s hI hcond
      have hpos : 0 < s.todo := by simpa [count_binomial_cond] using hcond
      obtain ⟨s1, hs1⟩ := count_binomial_body_total h k n A b prior batch hbatch hprior hn hA
        hD hb s hpos
      refine ⟨s1, hs1, count_binomial_body_inv h k n A b prior M batch hbatch hno s s1 hI
        hcond hs1, ?_⟩
      obtain ⟨_, _, _, _, _, _, _, _, _, e4, _⟩ :=
        count_binomial_body_ok h k n A b prior batch s s1 hI.1 hs1
      have hlt : (s.rounds : Int) < ⌈(M : ℚ) / (batch : ℚ)⌉ := by
        rw [Int.lt_ceil, lt_div_iff₀ hbq]
        have h2 : (s.rounds : Int) * batch < M := by
          have := hI.2.1
          linarith
        exact_mod_cast h2
      simp only [e4]
      push_cast
      omega)
    fuel { run := true, count := 0, todo := M, clock := t, rounds := 0, drawn := 0 }
    (count_ok_init M batch hM t) (by simpa using hfuel)
  obtain ⟨_, hrounds, hc0, hc1⟩ := count_ok_exit M batch hM hbatch s hI hc
  have hrun : count_binomial_run h fuel k n A b prior M batch t = .ok s := hs
  refine ⟨s, hrun, hrounds, hc0, hc1, ?_, ?_, ?_⟩
  · unfold count_binomial_cpp
    rw [if_neg (by omega), hrun, ok_bind, pure_eq_ok]
  · apply div_nonneg
    · exact_mod_cast hc0
    · exact le_of_lt hMq
  · rw [div_le_one hMq]
    exact_mod_cast hc1

/-- C20, with `M = 5` and `batch = 3`: two rounds. -/
theorem count_binomial_uncancelled_witness :
    ∃ s, count_binomial_run host_uniform 2 [0, 0] [0, 0] ⟨2, [[1, -1], [1, 1]]⟩ [0, 1] [1, 1]
        5 3 0 = .ok s ∧
      (s.rounds : Int) = ⌈((5 : Int) : ℚ) / ((3 : Int) : ℚ)⌉ ∧ 0 ≤ s.count ∧ s.count ≤ 5 ∧
      count_binomial_cpp host_uniform 2 [0, 0] [0, 0] ⟨2, [[1, -1], [1, 1]]⟩ [0, 1] [1, 1]
        5 3 0
        = .ok ({ integral := (s.count : ℚ) / ((5 : Int) : ℚ), count := (s.count : ℚ),
                 M := ((5 : Int) : ℚ) }, s.clock) ∧
      0 ≤ (s.count : ℚ) / ((5 : Int) : ℚ) ∧ (s.count : ℚ) / ((5 : Int) : ℚ) ≤ 1 :=
  count_binomial_uncancelled host_uniform 2 [0, 0] [0, 0] ⟨2, [[1, -1], [1, 1]]⟩ [0, 1] [1, 1]
    5 3 0 (by decide) (by decide) (fun _ => rfl) (by decide) rfl (by decide) rfl (by decide)
    (by
      have hc : ⌈((5 : Int) : ℚ) / ((3 : Int) : ℚ)⌉ = 2 := by
        rw [Int.ceil_eq_iff]; norm_num
      rw [hc]; decide)

/-- C15 (as amended): for `M ≥ 1` and `batch ≥ 1`, every uncancelled run of
`count_binomial_cpp` that returns has drawn and tested exactly `M` points in total (each
round draws `min(todo, batch)` points, and the last round draws all that is left), and `M`
is the denominator of the estimate it reports. -/
theorem count_binomial_draws_all (h : Host) (fuel : Nat) (k n : Vec) (A : Mat)
    (b prior : Vec) (M batch : Int) (t : Nat) (s : CountState) (hM : 1 ≤ M)
    (hbatch : 1 ≤ batch) (hno : ∀ c, h.check_abort c = false)
    (hrun : count_binomial_run h fuel k n A b prior M batch t = .ok s) :
    s.drawn = M ∧
    count_binomial_cpp h fuel k n A b prior M batch t
      = .ok ({ integral := (s.count : ℚ) / (M : ℚ), count := (s.count : ℚ), M := (M : ℚ) },
             s.clock) := by
  refine ⟨(count_binomial_run_exit h fuel k n A b prior M batch t s hM hbatch hno hrun).1, ?_⟩
  unfold count_binomial_cpp
  rw [if_neg (by omega), hrun, ok_bind, pure_eq_ok]

/-- C15 as stated fails: no `M ≥ 1` and `batch ≥ 1` admit an uncancelled run that returns
after drawing fewer than `M` points. -/
theorem count_binomial_never_short :
    ¬ ∃ (M batch : Int) (h : Host) (fuel : Nat) (k n : Vec) (A : Mat) (b prior : Vec) (t : Nat)
        (s : CountState), 1 ≤ M ∧ 1 ≤ batch ∧ (∀ c, h.check_abort c = false) ∧
        count_binomial_run h fuel k n A b prior M batch t = .ok s ∧ s.drawn < M := by
  rintro ⟨M, batch, h, fuel, k, n, A, b, prior, t, s, hM, hbatch, hno, hrun, hlt⟩
  have := (count_binomial_run_exit h fuel k n A b prior M batch t s hM hbatch hno hrun).1
  omega

/-- C15 (as amended), with `M = 5` and `batch = 3`: the rounds draw 3 and 2 points. -/
theorem count_binomial_draws_all_witness :
    (5 : Int) = 5 ∧
    count_binomial_cpp host_uniform 2 [0, 0] [0, 0] ⟨2, [[1, -1], [1, 1]]⟩ [0, 1] [1, 1] 5 3 0
      = .ok ({ integral := ((5 : Int) : ℚ) / ((5 : Int) : ℚ), count := ((5 : Int) : ℚ),
               M := ((5 : Int) : ℚ) }, 6) :=
  count_binomial_draws_all host_uniform 2 [0, 0] [0, 0] ⟨2, [[1, -1], [1, 1]]⟩ [0, 1] [1, 1]
    5 3 0 { run := true, count := 5, todo := -1, clock := 6, rounds := 2, drawn := 5 }
    (by decide) (by decide) (fun _ => rfl) (by decide!)

/-! ### Shape of the chain, burn-in and abort -/

theorem set_elem_ok (A : Mat) (i j : Nat) (v : ℚ) (A1 : Mat)
    (h : A.set_elem i j v = .ok A1) :
    i < A.rows.length ∧ j < A.n_cols ∧
    A1 = ⟨A.n_cols, A.rows.set i ((A.rows.getD i []).set j v)⟩ := by
  unfold Mat.set_elem at h
  by_cases hc : i < A.n_rows ∧ j < A.n_cols
  · rw [if_pos hc, Except.ok.injEq] at h
    exact ⟨hc.1, hc.2, h.symm⟩
  · rw [if_neg hc] at h; cases h

/-- The relation between two states of the chain of which the second differs from the first
in the row `i` at most, the width and the number of rows being kept. -/
theorem set_rows_frame (A : Mat) (i : Nat) (y : Vec) (hi : i < A.rows.length) :
    (⟨A.n_cols, A.rows.set i y⟩ : Mat).n_cols = A.n_cols ∧
    (⟨A.n_cols, A.rows.set i y⟩ : Mat).rows.length = A.rows.length ∧
    ∀ c, c ≠ i → (⟨A.n_cols, A.rows.set i y⟩ : Mat).rows.getD c [] = A.rows.getD c [] := by
  refine ⟨rfl, by simp, ?_⟩
  intro c hc
  simp only
  rw [getD_set_rows _ _ _ _ hi, if_neg (fun h => hc h.symm)]

/-- A coordinate update of iteration `i` writes into row `i` only. -/
theorem gibbs_site_frame (h : Host) (k n : Vec) (A : Mat) (b prior : Vec) (i : Nat)
    (s s1 : Gibbs) (m : Nat) (hstep : gibbs_site h k n A b prior i s m = .ok s1) :
    s1.Xt.n_cols = s.Xt.n_cols ∧ s1.Xt.rows.length = s.Xt.rows.length ∧
    ∀ c, c ≠ i → s1.Xt.rows.getD c [] = s.Xt.rows.getD c [] := by
  obtain ⟨x, j, bmin, bmax, v, _, _, hset, _, _⟩ := gibbs_site_ok h k n A b prior i s s1 m hstep
  obtain ⟨hi, _, hX⟩ := set_elem_ok _ _ _ _ _ hset
  rw [hX]
  exact set_rows_frame s.Xt i _ hi

/-- An iteration `i` of the sampler writes into row `i` only. -/
theorem gibbs_iter_frame (h : Host) (k n : Vec) (A : Mat) (b prior : Vec) (D : Nat)
    (s s1 : Gibbs) (i : Nat) (hstep : gibbs_iter h k n A b prior D s i = .ok s1) :
    s1.Xt.n_cols = s.Xt.n_cols ∧ s1.Xt.rows.length = s.Xt.rows.length ∧
    ∀ c, c ≠ i → s1.Xt.rows.getD c [] = s.Xt.rows.getD c [] := by
  obtain ⟨hXt, _⟩ := gibbs_check_frame h s i
  rcases gibbs_iter_ok h k n A b prior D s s1 i hstep with ⟨_, h1⟩ | ⟨_, prev, Xt, _, hset, hf⟩
  · rw [h1, hXt]
    exact ⟨rfl, rfl, fun _ _ => rfl⟩
  · rw [hXt] at hset
    obtain ⟨hs1, _, hs3⟩ := set_row_ok _ _ _ _ hset
    obtain ⟨f1, f2, f3⟩ := set_rows_frame s.Xt i prev hs1
    have := foldlM_rel (gibbs_site h k n A b prior i)
      (fun a c => c.Xt.n_cols = a.Xt.n_cols ∧ c.Xt.rows.length = a.Xt.rows.length ∧
        ∀ r, r ≠ i → c.Xt.rows.getD r [] = a.Xt.rows.getD r [])
      (fun _ => ⟨rfl, rfl, fun _ _ => rfl⟩)
      (fun _ _ _ h1 h2 => ⟨h2.1.trans h1.1, h2.2.1.trans h1.2.1,
        fun r hr => (h2.2.2 r hr).trans (h1.2.2 r hr)⟩)
      (fun s m s1 hs => gibbs_site_frame h k n A b prior i s s1 m hs) _ _ _ hf
    simp only at this
    rw [hs3] at this
    exact ⟨this.1.trans f1, this.2.1.trans f2, fun c hc => (this.2.2 c hc).trans (f3 c hc)⟩

/-- The iterations `n0` to `n0 + len - 1` keep the shape of the chain and leave the rows from
`n0 + len` on as they were. -/
theorem gibbs_fold_frame (h : Host) (k n : Vec) (A : Mat) (b prior : Vec) (D : Nat)
    (n0 len : Nat) (s s1 : Gibbs)
    (hfold : List.foldlM (gibbs_iter h k n A b prior D) s (List.range' n0 len) = .ok s1) :
    s1.Xt.n_cols = s.Xt.n_cols ∧ s1.Xt.rows.length = s.Xt.rows.length ∧
    ∀ c, n0 + len ≤ c → s1.Xt.rows.getD c [] = s.Xt.rows.getD c [] := by
  have := foldlM_range_inv (gibbs_iter h k n A b prior D)
    (fun i a => a.Xt.n_cols = s.Xt.n_cols ∧ a.Xt.rows.length = s.Xt.rows.length ∧
      ∀ c, i ≤ c → a.Xt.rows.getD c [] = s.Xt.rows.getD c [])
    (fun _ => True) (fun _ _ _ _ _ => trivial) len n0
    (fun i a a1 _ _ hinv hs _ => by
      obtain ⟨f1, f2, f3⟩ := gibbs_iter_frame h k n A b prior D a a1 i hs
      exact ⟨f1.trans hinv.1, f2.trans hinv.2.1,
        fun c hc => (f3 c (by omega)).trans (hinv.2.2 c (by omega))⟩)
    s s1 hfold trivial ⟨rfl, rfl, fun _ _ => rfl⟩
  exact this

/-- The shape of the chain when the variable of the main loop reaches `last`, and the rows
from `last` on: they are as they were allocated (row 0 apart, which holds the start). -/
theorem sampling_binomial_chain_shape (h : Host) (k n : Vec) (A : Mat) (b prior : Vec)
    (M : Int) (start : Vec) (burnin : Int) (t : Nat) (last : Nat) (s : Gibbs)
    (hchain : sampling_binomial_chain h k n A b prior M start burnin t last = .ok s) :
    s.Xt.n_cols = A.n_cols ∧ s.Xt.rows.length = (M + burnin).toNat ∧
    ∀ c, 1 ≤ c → last ≤ c →
      s.Xt.rows.getD c [] = (fresh_chain h A.n_cols (M + burnin).toNat).rows.getD c [] := by
  unfold sampling_binomial_chain at hchain
  obtain ⟨s0, hinit, hfold⟩ := bind_eq_ok _ _ _ hchain
  obtain ⟨_, st, t1, _, hN, _, hs0⟩ := sampling_binomial_init_ok h A b M start burnin t s0 hinit
  obtain ⟨f1, f2, f3⟩ := gibbs_fold_frame h k n A b prior A.n_cols 1 (last - 1) s0 s hfold
  have hfr : (fresh_chain h A.n_cols (M + burnin).toNat).rows.length
      = (M + burnin).toNat := by simp [fresh_chain]
  rw [hs0] at f1 f2 f3
  simp only [List.length_set] at f2
  refine ⟨f1, by rw [f2, hfr], ?_⟩
  intro c hc1 hc2
  rw [f3 c (by omega)]
  simp only
  rw [getD_set_rows _ _ _ _ (by rw [hfr]; exact hN), if_neg (by omega)]

/-- What a returning call of the sampler gives when `burnin ≥ 1`: `M` rows of the width of
`A`, row `r` being column `burnin + r` of the chain. -/
theorem sampling_binomial_returned (h : Host) (k n : Vec) (A : Mat) (b prior : Vec)
    (M burnin : Int) (start : Vec) (t : Nat) (out : SamplerOut) (hM : 0 ≤ M)
    (hburn : 1 ≤ burnin)
    (hout : sampling_binomial_cpp h k n A b prior M start burnin t = .ok out) :
    ∃ s, sampling_binomial_chain h k n A b prior M start burnin t (M + burnin).toNat = .ok s ∧
      out.sample.n_rows = M.toNat ∧ out.sample.n_cols = A.n_cols ∧
      ∀ r, r < M.toNat → out.sample.rows.getD r [] = s.Xt.rows.getD (burnin.toNat + r) [] := by
  unfold sampling_binomial_cpp at hout
  obtain ⟨s, hchain, hrest⟩ := bind_eq_ok _ _ _ hout
  obtain ⟨Xt1, hshed, hpack⟩ := bind_eq_ok _ _ _ hrest
  simp only [pure_eq_ok, Except.ok.injEq] at hpack
  obtain ⟨hcols, hrows, _⟩ := sampling_binomial_chain_shape h k n A b prior M start burnin t _
    s hchain
  obtain ⟨_, _, hX1⟩ := shed_rows_ok _ _ _ _ hshed
  have hu : int_to_uword (burnin - 1) = burnin.toNat - 1 := by
    unfold int_to_uword
    rw [if_pos (by omega)]
    omega
  rw [hu, show burnin.toNat - 1 + 1 = burnin.toNat by omega] at hX1
  refine ⟨s, hchain, ?_, ?_, ?_⟩
  · rw [← hpack, hX1]
    simp only [Mat.n_rows, List.take_zero, List.nil_append, List.length_drop, hrows]
    omega
  · rw [← hpack, hX1]; exact hcols
  · intro r _
    rw [← hpack, hX1]
    simp only [List.take_zero, List.nil_append]
    rw [List.getD_eq_getElem?_getD, List.getD_eq_getElem?_getD, List.getElem?_drop]

/-- With `burnin = 0` (and `M` within the range of the index type) no call of the sampler
returns: the chain is computed and then lost in the call that sheds the burn-in columns. -/
theorem sampling_binomial_burnin_zero (h : Host) (k n : Vec) (A : Mat) (b prior : Vec)
    (M : Int) (start : Vec) (t : Nat) (hM : M < 2 ^ 64) :
    ∀ out, sampling_binomial_cpp h k n A b prior M start 0 t ≠ .ok out := by
  intro out hout
  unfold sampling_binomial_cpp at hout
  obtain ⟨s, hchain, hrest⟩ := bind_eq_ok _ _ _ hout
  obtain ⟨Xt1, hshed, _⟩ := bind_eq_ok _ _ _ hrest
  obtain ⟨_, hrows, _⟩ := sampling_binomial_chain_shape h k n A b prior M start 0 t _ s hchain
  obtain ⟨_, hlt, _⟩ := shed_rows_ok _ _ _ _ hshed
  have hu : int_to_uword ((0 : Int) - 1) = 2 ^ 64 - 1 := by decide
  rw [hu] at hlt
  have : s.Xt.n_rows = (M + 0).toNat := hrows
  omega

/-- C14: with `burnin = 0` (here `M = 2`, on the triangle `x0 ≤ x1`, `x0 + x1 ≤ 1`, from the
start `(0, 1/2)`) the chain is computed, with the start as its first column, but
`sampling_binomial_cpp` fails in `X.shed_cols(0, burnin - 1)` and returns nothing; with
`burnin = 1` the same call returns the chain without its first column. -/
theorem sampling_binomial_no_burnin :
    (sampling_binomial_chain host_uniform [0, 0] [0, 0] ⟨2, [[1, -1], [1, 1]]⟩ [0, 1] [1, 1]
        2 [0, 1/2] 0 0 2).map (fun s => s.Xt)
      = .ok ⟨2, [[0, 1/2], [1/4, 1/2]]⟩ ∧
    sampling_binomial_cpp host_uniform [0, 0] [0, 0] ⟨2, [[1, -1], [1, 1]]⟩ [0, 1] [1, 1]
        2 [0, 1/2] 0 0 = .error .index_out_of_bounds ∧
    (sampling_binomial_cpp host_uniform [0, 0] [0, 0] ⟨2, [[1, -1], [1, 1]]⟩ [0, 1] [1, 1]
        2 [0, 1/2] 1 0).map (fun o => o.sample)
      = .ok ⟨2, [[1/4, 1/2], [1/4, 1/2]]⟩ := by
  decide!

/-! ### The Gibbs bounds are exact -/

theorem foldl_max_mem (as : Vec) (a : ℚ) : as.foldl max a = a ∨ as.foldl max a ∈ as := by
  induction as generalizing a with
  | nil => left; rfl
  | cons c cs ih =>
    rw [List.foldl_cons]
    rcases ih (max a c) with h1 | h1
    · rcases max_choice a c with h2 | h2
      · left; rw [h1, h2]
      · right; rw [h1, h2]; exact List.mem_cons_self _ _
    · right; exact List.mem_cons_of_mem _ h1

theorem foldl_min_mem (as : Vec) (a : ℚ) : as.foldl min a = a ∨ as.foldl min a ∈ as := by
  induction as generalizing a with
  | nil => left; rfl
  | cons c cs ih =>
    rw [List.foldl_cons]
    rcases ih (min a c) with h1 | h1
    · rcases min_choice a c with h2 | h2
      · left; rw [h1, h2]
      · right; rw [h1, h2]; exact List.mem_cons_self _ _
    · right; exact List.mem_cons_of_mem _ h1

theorem vmax_mem (l : Vec) (hne : l ≠ []) : ∃ m, vmax l = .ok m ∧ m ∈ l := by
  cases l with
  | nil => exact absurd rfl hne
  | cons a as =>
    refine ⟨as.foldl max a, rfl, ?_⟩
    rcases foldl_max_mem as a with h1 | h1
    · rw [h1]; exact List.mem_cons_self _ _
    · exact List.mem_cons_of_mem _ h1

theorem vmin_mem (l : Vec) (hne : l ≠ []) : ∃ m, vmin l = .ok m ∧ m ∈ l := by
  cases l with
  | nil => exact absurd rfl hne
  | cons a as =>
    refine ⟨as.foldl min a, rfl, ?_⟩
    rcases foldl_min_mem as a with h1 | h1
    · rw [h1]; exact List.mem_cons_self _ _
    · exact List.mem_cons_of_mem _ h1

/-- The reduction over the rows selected by `p`: it is `dflt` when no row is selected, and
otherwise a value of `rhs` at a selected row. -/
theorem select_attained (p : ℚ → Bool) (red : Vec → Except Err ℚ)
    (hred : ∀ l : Vec, l ≠ [] → ∃ m, red l = .ok m ∧ m ∈ l) (rhs Aj : Vec) (dflt : ℚ)
    (hlen : rhs.length = Aj.length) :
    ∃ lo, (if (find p Aj).isEmpty then pure dflt else (elem rhs (find p Aj)) >>= red) = .ok lo ∧
      ((∃ r, r < Aj.length ∧ p (Aj.getD r 0) = true ∧ lo = rhs.getD r 0) ∨
       ((∀ r, r < Aj.length → ¬ p (Aj.getD r 0) = true) ∧ lo = dflt)) := by
  have hidx : ∀ r ∈ find p Aj, r < rhs.length := by
    intro r hr
    rw [mem_find] at hr
    rw [hlen]; exact hr.1
  by_cases he : (find p Aj).isEmpty = true
  · rw [if_pos he]
    refine ⟨dflt, rfl, Or.inr ⟨?_, rfl⟩⟩
    intro r hr hp
    have hmem : r ∈ find p Aj := by rw [mem_find]; exact ⟨hr, hp⟩
    rw [List.isEmpty_iff] at he
    rw [he] at hmem
    exact absurd hmem (List.not_mem_nil r)
  · rw [if_neg he, elem_eq_map rhs _ hidx, ok_bind]
    have hne : (find p Aj).map (fun r => rhs.getD r 0) ≠ [] := by
      intro h0
      rw [List.map_eq_nil_iff] at h0
      rw [h0] at he
      exact he rfl
    obtain ⟨m, hm, hmem⟩ := hred _ hne
    refine ⟨m, hm, Or.inl ?_⟩
    obtain ⟨r, hr, hval⟩ := List.mem_map.mp hmem
    rw [mem_find] at hr
    exact ⟨r, hr.1, hr.2, hval.symm⟩

/-- The lower bound is returned whenever `rhs` and the column have the same length; it is the
greatest element of `rhs` at a negative coefficient, and `0` when there is none. -/
theorem gibbs_bmin_char (rhs Aj : Vec) (hlen : rhs.length = Aj.length) :
    ∃ lo, gibbs_bmin rhs Aj = .ok lo ∧
      (∀ r, r < Aj.length → Aj.getD r 0 < 0 → rhs.getD r 0 ≤ lo) ∧
      ((∃ r, r < Aj.length ∧ Aj.getD r 0 < 0 ∧ lo = rhs.getD r 0) ∨
       ((∀ r, r < Aj.length → ¬ Aj.getD r 0 < 0) ∧ lo = 0)) := by
  obtain ⟨lo, hlo, hcase⟩ := select_attained (fun a => decide (a < 0)) vmax vmax_mem rhs Aj 0 hlen
  refine ⟨lo, hlo, gibbs_bmin_ge rhs Aj lo hlen hlo, ?_⟩
  rcases hcase with ⟨r, hr, hp, hv⟩ | ⟨hnone, hv⟩
  · exact Or.inl ⟨r, hr, by simpa using hp, hv⟩
  · exact Or.inr ⟨fun r hr hneg => hnone r hr (by simpa using hneg), hv⟩

/-- The upper bound is returned whenever `rhs` and the column have the same length; it is the
least element of `rhs` at a positive coefficient, and `1` when there is none. -/
theorem gibbs_bmax_char (rhs Aj : Vec) (hlen : rhs.length = Aj.length) :
    ∃ hi, gibbs_bmax rhs Aj = .ok hi ∧
      (∀ r, r < Aj.length → 0 < Aj.getD r 0 → hi ≤ rhs.getD r 0) ∧
      ((∃ r, r < Aj.length ∧ 0 < Aj.getD r 0 ∧ hi = rhs.getD r 0) ∨
       ((∀ r, r < Aj.length → ¬ 0 < Aj.getD r 0) ∧ hi = 1)) := by
  obtain ⟨hi, hhi, hcase⟩ := select_attained (fun a => decide (a > 0)) vmin vmin_mem rhs Aj 1 hlen
  refine ⟨hi, hhi, gibbs_bmax_le rhs Aj hi hlen hhi, ?_⟩
  rcases hcase with ⟨r, hr, hp, hv⟩ | ⟨hnone, hv⟩
  · exact Or.inl ⟨r, hr, by simpa using hp, hv⟩
  · exact Or.inr ⟨fun r hr hpos => hnone r hr (by simpa using hpos), hv⟩

/-- The bounds of coordinate `j` are returned for every point and system of matching
dimensions, with the vector `rhs` element by element and both reductions attained. -/
theorem gibbs_bounds_char (A : Mat) (b x : Vec) (j : Nat)
    (hx : x.length = A.n_cols) (hb : b.length = A.n_rows) (hj : j < A.n_cols) :
    ∃ rhs bmin bmax, gibbs_rhs A b x j = .ok rhs ∧ gibbs_bounds A b x j = .ok (bmin, bmax) ∧
      (∀ r, r < A.n_rows → rhs.getD r 0
        = (b.getD r 0 - dotq (A.rows.getD r []) x
          + (A.rows.getD r []).getD j 0 * x.getD j 0) / (A.rows.getD r []).getD j 0) ∧
      (∀ r, r < A.n_rows → (A.rows.getD r []).getD j 0 < 0 → rhs.getD r 0 ≤ bmin) ∧
      ((∃ r, r < A.n_rows ∧ (A.rows.getD r []).getD j 0 < 0 ∧ bmin = rhs.getD r 0) ∨
       ((∀ r, r < A.n_rows → ¬ (A.rows.getD r []).getD j 0 < 0) ∧ bmin = 0)) ∧
      (∀ r, r < A.n_rows → 0 < (A.rows.getD r []).getD j 0 → bmax ≤ rhs.getD r 0) ∧
      ((∃ r, r < A.n_rows ∧ 0 < (A.rows.getD r []).getD j 0 ∧ bmax = rhs.getD r 0) ∨
       ((∀ r, r < A.n_rows → ¬ 0 < (A.rows.getD r []).getD j 0) ∧ bmax = 1)) := by
  obtain ⟨rhs, hrhs, hlen, hval⟩ := gibbs_rhs_eq A b x j hx hb hj
  have hcol : A.col j = .ok (A.rows.map (fun a => a.getD j 0)) := by
    rw [Mat.col, if_pos hj]
  have hlen2 : rhs.length = (A.rows.map (fun a => a.getD j 0)).length := by
    rw [hlen, List.length_map]
  obtain ⟨lo, hlo, hlo1, hlo2⟩ := gibbs_bmin_char rhs _ hlen2
  obtain ⟨hi, hhi, hhi1, hhi2⟩ := gibbs_bmax_char rhs _ hlen2
  have hAj : ∀ r, r < A.n_rows →
      (A.rows.map (fun a => a.getD j 0)).getD r 0 = (A.rows.getD r []).getD j 0 :=
    fun r hr => getD_map_rows A _ r hr
  rw [List.length_map] at hlo1 hlo2 hhi1 hhi2
  refine ⟨rhs, lo, hi, hrhs, ?_, hval, ?_, ?_, ?_, ?_⟩
  · simp only [gibbs_bounds, hrhs, hcol, ok_bind, hlo, hhi, pure_eq_ok]
  · intro r hr hneg
    exact hlo1 r hr (by rw [hAj r hr]; exact hneg)
  · rcases hlo2 with ⟨r, hr, hneg, hv⟩ | ⟨hnone, hv⟩
    · exact Or.inl ⟨r, hr, by rw [← hAj r hr]; exact hneg, hv⟩
    · exact Or.inr ⟨fun r hr hneg => hnone r hr (by rw [hAj r hr]; exact hneg), hv⟩
  · intro r hr hpos
    exact hhi1 r hr (by rw [hAj r hr]; exact hpos)
  · rcases hhi2 with ⟨r, hr, hpos, hv⟩ | ⟨hnone, hv⟩
    · exact Or.inl ⟨r, hr, by rw [← hAj r hr]; exact hpos, hv⟩
    · exact Or.inr ⟨fun r hr hpos => hnone r hr (by rw [hAj r hr]; exact hpos), hv⟩

/-- A row whose coefficient in column `j` is zero has no part in the bounds: another value
of `b` at that row gives the same bounds. -/
theorem gibbs_bounds_zero_row (A : Mat) (b x : Vec) (j : Nat)
    (hx : x.length = A.n_cols) (hb : b.length = A.n_rows) (hj : j < A.n_cols)
    (r0 : Nat) (c : ℚ) (hzero : (A.rows.getD r0 []).getD j 0 = 0) :
    gibbs_bounds A (b.set r0 c) x j = gibbs_bounds A b x j := by
  have hb2 : (b.set r0 c).length = A.n_rows := by rw [List.length_set]; exact hb
  obtain ⟨rhs, hrhs, hlen, hval⟩ := gibbs_rhs_eq A b x j hx hb hj
  obtain ⟨rhs2, hrhs2, hlen2, hval2⟩ := gibbs_rhs_eq A (b.set r0 c) x j hx hb2 hj
  have hcol : A.col j = .ok (A.rows.map (fun a => a.getD j 0)) := by
    rw [Mat.col, if_pos hj]
  have hsame : ∀ r, r < A.n_rows → (A.rows.getD r []).getD j 0 ≠ 0 →
      rhs2.getD r 0 = rhs.getD r 0 := by
    intro r hr hne
    have hrr : r0 ≠ r := by
      intro h0
      rw [h0] at hzero
      exact hne hzero
    rw [hval r hr, hval2 r hr]
    have : (b.set r0 c).getD r 0 = b.getD r 0 := by
      rw [List.getD_eq_getElem?_getD, List.getD_eq_getElem?_getD, List.getElem?_set_ne hrr]
    rw [this]
  have hsel : ∀ p : ℚ → Bool, (∀ a, p a = true → a ≠ 0) →
      elem rhs2 (find p (A.rows.map (fun a => a.getD j 0)))
        = elem rhs (find p (A.rows.map (fun a => a.getD j 0))) := by
    intro p hp
    have hidx : ∀ r ∈ find p (A.rows.map (fun a => a.getD j 0)), r < A.n_rows := by
      intro r hr
      rw [mem_find, List.length_map] at hr
      exact hr.1
    rw [elem_eq_map rhs2 _ (fun r hr => by rw [hlen2]; exact hidx r hr),
      elem_eq_map rhs _ (fun r hr => by rw [hlen]; exact hidx r hr)]
    congr 1
    apply List.map_congr_left
    intro r hr
    have hr1 := hidx r hr
    rw [mem_find] at hr
    have := hp _ hr.2
    rw [getD_map_rows A _ r hr1] at this
    exact hsame r hr1 this
  have hneg := hsel (fun a => decide (a < 0)) (fun a ha => by
    have : a < 0 := by simpa using ha
    exact ne_of_lt this)
  have hpos := hsel (fun a => decide (a > 0)) (fun a ha => by
    have : 0 < a := by simpa using ha
    exact ne_of_gt this)
  simp only [gibbs_bounds, hrhs, hrhs2, hcol, ok_bind, gibbs_bmin, gibbs_bmax, hneg, hpos]

/-- C18: in exact arithmetic, for a system `(A, b)` of matching dimensions, a point `x` with
`A * x ≤ b`, a coordinate `j` and a value `v` in `[0, 1]`, the sampler computes the vector
`rhs[r] = (b[r] - dot(A[r], x) + A[r,j] * x[j]) / A[r,j]` and the bounds `bmin`, the greatest
`rhs[r]` over the rows with `A[r,j] < 0` (`0` when there is none), and `bmax`, the least
`rhs[r]` over the rows with `A[r,j] > 0` (`1` when there is none); the point `x` with
coordinate `j` set to `v` satisfies `A * x ≤ b` if and only if `bmin ≤ v ≤ bmax`; and the
value of `b` at a row with `A[r,j] = 0` does not change the bounds. -/
theorem gibbs_bounds_exact (A : Mat) (b x : Vec) (j : Nat) (v : ℚ)
    (hA : A.wf) (hx : x.length = A.n_cols) (hb : b.length = A.n_rows) (hj : j < A.n_cols)
    (hin : inside A b x) (hv0 : 0 ≤ v) (hv1 : v ≤ 1) :
    ∃ rhs bmin bmax, gibbs_rhs A b x j = .ok rhs ∧ gibbs_bounds A b x j = .ok (bmin, bmax) ∧
      (∀ r, r < A.n_rows → rhs.getD r 0
        = (b.getD r 0 - dotq (A.rows.getD r []) x
          + (A.rows.getD r []).getD j 0 * x.getD j 0) / (A.rows.getD r []).getD j 0) ∧
      (∀ r, r < A.n_rows → (A.rows.getD r []).getD j 0 < 0 → rhs.getD r 0 ≤ bmin) ∧
      ((∃ r, r < A.n_rows ∧ (A.rows.getD r []).getD j 0 < 0 ∧ bmin = rhs.getD r 0) ∨
       ((∀ r, r < A.n_rows → ¬ (A.rows.getD r []).getD j 0 < 0) ∧ bmin = 0)) ∧
      (∀ r, r < A.n_rows → 0 < (A.rows.getD r []).getD j 0 → bmax ≤ rhs.getD r 0) ∧
      ((∃ r, r < A.n_rows ∧ 0 < (A.rows.getD r []).getD j 0 ∧ bmax = rhs.getD r 0) ∨
       ((∀ r, r < A.n_rows → ¬ 0 < (A.rows.getD r []).getD j 0) ∧ bmax = 1)) ∧
      (inside A b (x.set j v) ↔ bmin ≤ v ∧ v ≤ bmax) ∧
      (∀ r c, r < A.n_rows → (A.rows.getD r []).getD j 0 = 0 →
        gibbs_bounds A (b.set r c) x j = .ok (bmin, bmax)) := by
  obtain ⟨rhs, bmin, bmax, hrhs, hg, hval, hlo1, hlo2, hhi1, hhi2⟩ :=
    gibbs_bounds_char A b x j hx hb hj
  refine ⟨rhs, bmin, bmax, hrhs, hg, hval, hlo1, hlo2, hhi1, hhi2, ⟨?_, ?_⟩, ?_⟩
  · intro hnew
    have hrow : ∀ r, r < A.n_rows →
        dotq (A.rows.getD r []) x + (v - x.getD j 0) * (A.rows.getD r []).getD j 0
          ≤ b.getD r 0 := by
      intro r hr
      have hlen : x.length = (A.rows.getD r []).length := by
        rw [wf_getD_length A hA r hr, hx]
      have := hnew r (by rw [hb]; exact hr)
      rw [dotq_set x _ j v (by rw [hx]; exact hj) hlen, dotq_comm x] at this
      exact this
    constructor
    · rcases hlo2 with ⟨r, hr, hneg, hv⟩ | ⟨_, hv⟩
      · rw [hv, hval r hr, div_le_iff_of_neg hneg]
        have := hrow r hr
        linarith
      · rw [hv]; exact hv0
    · rcases hhi2 with ⟨r, hr, hpos, hv⟩ | ⟨_, hv⟩
      · rw [hv, hval r hr, le_div_iff₀ hpos]
        have := hrow r hr
        linarith
      · rw [hv]; exact hv1
  · intro hv
    exact gibbs_update_inside A b x j bmin bmax v hA hx hb hin hg hv.1 hv.2
  · intro r c _ hzero
    rw [gibbs_bounds_zero_row A b x j hx hb hj r c hzero, hg]

/-- C18, on the triangle `x0 ≤ x1`, `x0 + x1 ≤ 1` at the point `(0, 1/2)`, for coordinate `0`
and the value `1/4`. -/
theorem gibbs_bounds_exact_witness :
    ∃ rhs bmin bmax, gibbs_rhs ⟨2, [[1, -1], [1, 1]]⟩ [0, 1] [0, 1/2] 0 = .ok rhs ∧
      gibbs_bounds ⟨2, [[1, -1], [1, 1]]⟩ [0, 1] [0, 1/2] 0 = .ok (bmin, bmax) ∧
      (∀ r, r < (⟨2, [[1, -1], [1, 1]]⟩ : Mat).n_rows → rhs.getD r 0
        = (([0, 1] : Vec).getD r 0
            - dotq ((⟨2, [[1, -1], [1, 1]]⟩ : Mat).rows.getD r []) [0, 1/2]
          + ((⟨2, [[1, -1], [1, 1]]⟩ : Mat).rows.getD r []).getD 0 0
            * ([0, 1/2] : Vec).getD 0 0)
          / ((⟨2, [[1, -1], [1, 1]]⟩ : Mat).rows.getD r []).getD 0 0) ∧
      (∀ r, r < (⟨2, [[1, -1], [1, 1]]⟩ : Mat).n_rows →
        ((⟨2, [[1, -1], [1, 1]]⟩ : Mat).rows.getD r []).getD 0 0 < 0 → rhs.getD r 0 ≤ bmin) ∧
      ((∃ r, r < (⟨2, [[1, -1], [1, 1]]⟩ : Mat).n_rows ∧
          ((⟨2, [[1, -1], [1, 1]]⟩ : Mat).rows.getD r []).getD 0 0 < 0 ∧
          bmin = rhs.getD r 0) ∨
       ((∀ r, r < (⟨2, [[1, -1], [1, 1]]⟩ : Mat).n_rows →
          ¬ ((⟨2, [[1, -1], [1, 1]]⟩ : Mat).rows.getD r []).getD 0 0 < 0) ∧ bmin = 0)) ∧
      (∀ r, r < (⟨2, [[1, -1], [1, 1]]⟩ : Mat).n_rows →
        0 < ((⟨2, [[1, -1], [1, 1]]⟩ : Mat).rows.getD r []).getD 0 0 → bmax ≤ rhs.getD r 0) ∧
      ((∃ r, r < (⟨2, [[1, -1], [1, 1]]⟩ : Mat).n_rows ∧
          0 < ((⟨2, [[1, -1], [1, 1]]⟩ : Mat).rows.getD r []).getD 0 0 ∧
          bmax = rhs.getD r 0) ∨
       ((∀ r, r < (⟨2, [[1, -1], [1, 1]]⟩ : Mat).n_rows →
          ¬ 0 < ((⟨2, [[1, -1], [1, 1]]⟩ : Mat).rows.getD r []).getD 0 0) ∧ bmax = 1)) ∧
      (inside ⟨2, [[1, -1], [1, 1]]⟩ [0, 1] (([0, 1/2] : Vec).set 0 (1/4))
        ↔ bmin ≤ 1/4 ∧ 1/4 ≤ bmax) ∧
      (∀ r c, r < (⟨2, [[1, -1], [1, 1]]⟩ : Mat).n_rows →
        ((⟨2, [[1, -1], [1, 1]]⟩ : Mat).rows.getD r []).getD 0 0 = 0 →
        gibbs_bounds ⟨2, [[1, -1], [1, 1]]⟩ (([0, 1] : Vec).set r c) [0, 1/2] 0
          = .ok (bmin, bmax)) :=
  gibbs_bounds_exact ⟨2, [[1, -1], [1, 1]]⟩ [0, 1] [0, 1/2] 0 (1/4)
    (by decide) rfl rfl (by decide) (by decide!) (by decide!) (by decide!)

/-! ### The truncation interval is never inverted -/

theorem in_unit_box_set (x : Vec) (j : Nat) (v : ℚ) (hx : in_unit_box x) (hv0 : 0 ≤ v)
    (hv1 : v ≤ 1) : in_unit_box (x.set j v) := by
  intro c hc
  rcases List.mem_or_eq_of_mem_set hc with h1 | h1
  · exact hx c h1
  · rw [h1]; exact ⟨hv0, hv1⟩

/-- At a point inside and in the unit box, the bounds of coordinate `j` enclose `x[j]`. -/
theorem gibbs_bounds_enclose (A : Mat) (b x : Vec) (j : Nat)
    (hx : x.length = A.n_cols) (hb : b.length = A.n_rows) (hj : j < A.n_cols)
    (hin : inside A b x) (hbox : in_unit_box x) :
    ∃ bmin bmax, gibbs_bounds A b x j = .ok (bmin, bmax) ∧
      bmin ≤ x.getD j 0 ∧ x.getD j 0 ≤ bmax := by
  obtain ⟨rhs, bmin, bmax, _, hg, hval, _, hlo2, _, hhi2⟩ := gibbs_bounds_char A b x j hx hb hj
  have hxj := hbox (x.getD j 0) (getD_mem x j (by rw [hx]; exact hj))
  refine ⟨bmin, bmax, hg, ?_, ?_⟩
  · rcases hlo2 with ⟨r, hr, hneg, hv⟩ | ⟨_, hv⟩
    · rw [hv, hval r hr, div_le_iff_of_neg hneg]
      have := hin r (by rw [hb]; exact hr)
      rw [dotq_comm] at this
      linarith
    · rw [hv]; exact hxj.1
  · rcases hhi2 with ⟨r, hr, hpos, hv⟩ | ⟨_, hv⟩
    · rw [hv, hval r hr, le_div_iff₀ hpos]
      have := hin r (by rw [hb]; exact hr)
      rw [dotq_comm] at this
      linarith
    · rw [hv]; exact hxj.2

theorem intervals_ok_snoc (draws : List Draw) (d : Draw) (h1 : intervals_ok draws)
    (h2 : (∀ e ∈ draws, draw_in_box e) → d.bmin ≤ d.bmax) : intervals_ok (draws ++ [d]) := by
  intro pre d1 post heq hpre
  rcases List.append_eq_append_iff.mp heq with ⟨a, ha, hb⟩ | ⟨c, hc, hd⟩
  · cases a with
    | nil =>
      simp only [List.nil_append, List.cons.injEq] at hb
      rw [List.append_nil] at ha
      rw [← hb.1]
      exact h2 (by rw [← ha]; exact hpre)
    | cons a0 as =>
      simp only [List.cons_append, List.cons.injEq] at hb
      have := hb.2
      simp at this
  · cases c with
    | nil =>
      simp only [List.nil_append, List.cons.injEq] at hd
      rw [List.append_nil] at hc
      rw [hd.1]
      exact h2 (by rw [hc]; exact hpre)
    | cons c0 cs =>
      simp only [List.cons_append, List.cons.injEq] at hd
      rw [← hd.1] at hc
      exact h1 pre d1 cs hc hpre

theorem foldlM_inv {σ α : Type} (f : σ → α → Except Err σ) (P : σ → Prop)
    (hstep : ∀ s a s1, f s a = .ok s1 → P s → P s1) (l : List α) (s s1 : σ)
    (h : List.foldlM f s l = .ok s1) (hs : P s) : P s1 :=
  foldlM_rel f (fun a c => P a → P c) (fun _ hx => hx) (fun _ _ _ h1 h2 hx => h2 (h1 hx))
    hstep l s s1 h hs

/-- The invariant of the loop over the coordinates in iteration `i`: the chain matrix has the
width of `A`, no interval so far was inverted, and if every value drawn so far was in its
interval and in `[0, 1]`, the current point (row `i`) is inside and in the unit box. -/
theorem gibbs_site_box (h : Host) (k n : Vec) (A : Mat) (b prior : Vec) (i : Nat)
    (hA : A.wf) (hb : b.length = A.n_rows) (s s1 : Gibbs) (m : Nat)
    (hstep : gibbs_site h k n A b prior i s m = .ok s1)
    (hs : s.Xt.n_cols = A.n_cols ∧ s.Xt.wf ∧ intervals_ok s.draws ∧
      ((∀ e ∈ s.draws, draw_in_box e) →
        inside A b (s.Xt.rows.getD i []) ∧ in_unit_box (s.Xt.rows.getD i []))) :
    s1.Xt.n_cols = A.n_cols ∧ s1.Xt.wf ∧ intervals_ok s1.draws ∧
      ((∀ e ∈ s1.draws, draw_in_box e) →
        inside A b (s1.Xt.rows.getD i []) ∧ in_unit_box (s1.Xt.rows.getD i [])) := by
  obtain ⟨x, j, bmin, bmax, v, hrow, hgb, hset, _, hdraws⟩ :=
    gibbs_site_ok h k n A b prior i s s1 m hstep
  obtain ⟨hcols, hwf, hint, hpt⟩ := hs
  obtain ⟨hi, hx⟩ := row_ok _ _ _ hrow
  have hxlen : x.length = A.n_cols := by
    rw [← hx, wf_getD_length _ hwf i hi, hcols]
  obtain ⟨hj, _, _⟩ := gibbs_bounds_sound A b x j bmin bmax hxlen hb hgb
  obtain ⟨_, _, hXt⟩ := set_elem_ok _ _ _ _ _ hset
  rw [hx] at hXt hpt
  refine ⟨by rw [hXt]; exact hcols, ?_, ?_, ?_⟩
  · rw [hXt]
    exact wf_set_rows s.Xt i _ hwf (by rw [List.length_set, hxlen, hcols])
  · rw [hdraws]
    apply intervals_ok_snoc _ _ hint
    intro hall
    obtain ⟨hxin, hxbox⟩ := hpt hall
    obtain ⟨lo, hi2, hg2, h1, h2⟩ := gibbs_bounds_enclose A b x j hxlen hb hj hxin hxbox
    rw [hgb, Except.ok.injEq, Prod.mk.injEq] at hg2
    simp only
    rw [hg2.1, hg2.2]
    exact le_trans h1 h2
  · intro hall
    rw [hdraws] at hall
    obtain ⟨hxin, hxbox⟩ := hpt (fun e he => hall e (List.mem_append_left _ he))
    have hd := hall { bmin := bmin, bmax := bmax, value := v } (by simp)
    rw [hXt]
    simp only
    rw [getD_set_rows _ _ _ _ hi, if_pos rfl]
    exact ⟨gibbs_update_inside A b x j bmin bmax v hA hxlen hb hxin hgb hd.1 hd.2.1,
      in_unit_box_set x j v hxbox hd.2.2.1 hd.2.2.2⟩

/-- The invariant of the main loop for the intervals: the chain matrix has the width of `A`,
no interval so far was inverted, and while the sampler runs, if every value drawn so far was
in its interval and in `[0, 1]`, the last point (row `i - 1`) is inside and in the unit
box. -/
theorem gibbs_iter_box (h : Host) (k n : Vec) (A : Mat) (b prior : Vec) (i : Nat)
    (hA : A.wf) (hb : b.length = A.n_rows) (s s1 : Gibbs)
    (hstep : gibbs_iter h k n A b prior A.n_cols s i = .ok s1)
    (hs : s.Xt.n_cols = A.n_cols ∧ s.Xt.wf ∧ intervals_ok s.draws ∧
      (s.run = true → (∀ e ∈ s.draws, draw_in_box e) →
        inside A b (s.Xt.rows.getD (i - 1) []) ∧ in_unit_box (s.Xt.rows.getD (i - 1) []))) :
    s1.Xt.n_cols = A.n_cols ∧ s1.Xt.wf ∧ intervals_ok s1.draws ∧
      (s1.run = true → (∀ e ∈ s1.draws, draw_in_box e) →
        inside A b (s1.Xt.rows.getD i []) ∧ in_unit_box (s1.Xt.rows.getD i [])) := by
  obtain ⟨hcols, hwf, hint, hpt⟩ := hs
  obtain ⟨hXt, hdr⟩ := gibbs_check_frame h s i
  rcases gibbs_iter_ok h k n A b prior A.n_cols s s1 i hstep with
    ⟨h0, h1⟩ | ⟨hrun1, prev, Xt, hrow, hset, hf⟩
  · rw [h1, hXt, hdr]
    refine ⟨hcols, hwf, hint, ?_⟩
    intro hr
    rw [h0] at hr; cases hr
  · rw [hXt] at hrow hset
    obtain ⟨hp1, hp2⟩ := row_ok _ _ _ hrow
    obtain ⟨hs1, hs2, hs3⟩ := set_row_ok _ _ _ _ hset
    have hrun0 : s.run = true := by
      unfold gibbs_check at hrun1
      by_cases hc : (s.run && i % 100 == 0) = true
      · simp only [Bool.and_eq_true] at hc
        exact hc.1
      · rw [if_neg hc] at hrun1; exact hrun1
    have hfin := foldlM_inv (gibbs_site h k n A b prior i)
      (fun s => s.Xt.n_cols = A.n_cols ∧ s.Xt.wf ∧ intervals_ok s.draws ∧
        ((∀ e ∈ s.draws, draw_in_box e) →
          inside A b (s.Xt.rows.getD i []) ∧ in_unit_box (s.Xt.rows.getD i [])))
      (fun s m s1 hs hP => gibbs_site_box h k n A b prior i hA hb s s1 m hs hP)
      _ _ s1 hf
      (by
        simp only
        rw [hdr, hs3]
        refine ⟨hcols, wf_set_rows s.Xt i prev hwf hs2, hint, ?_⟩
        intro hall
        simp only
        rw [getD_set_rows _ _ _ _ hs1, if_pos rfl, ← hp2]
        exact hpt hrun0 hall)
    exact ⟨hfin.1, hfin.2.1, hfin.2.2.1, fun _ => hfin.2.2.2⟩

/-- In a run of the sampler from a starting point inside and in the unit box, no call of
`rbeta_trunc` is given an inverted interval, as long as the calls before it returned values
in their intervals and in `[0, 1]`. -/
theorem sampling_binomial_intervals (h : Host) (k n : Vec) (A : Mat) (b prior : Vec)
    (M burnin : Int) (start : Vec) (t last : Nat) (s : Gibbs)
    (hA : A.wf) (hb : b.length = A.n_rows) (hin : inside A b start)
    (hbox : in_unit_box start)
    (hchain : sampling_binomial_chain h k n A b prior M start burnin t last = .ok s) :
    intervals_ok s.draws := by
  unfold sampling_binomial_chain at hchain
  obtain ⟨s0, hinit, hfold⟩ := bind_eq_ok _ _ _ hchain
  obtain ⟨_, st, t1, hsr, hN, hlen, hs0⟩ := sampling_binomial_init_ok h A b M start burnin t
    s0 hinit
  have hne : start ≠ [] := by
    intro h0
    rw [h0] at hsr
    simp only [start_random, vat, List.getElem?_nil, error_bind] at hsr
    cases hsr
  have h0 : start.getD 0 0 ≠ -1 := by
    have := hbox (start.getD 0 0) (getD_mem start 0 (List.length_pos.mpr hne))
    intro h1
    rw [h1] at this
    exact absurd this.1 (by norm_num)
  rw [start_random_skip h A b M start t hne h0, Except.ok.injEq, Prod.mk.injEq] at hsr
  have hfr : (fresh_chain h A.n_cols (M + burnin).toNat).rows.length
      = (M + burnin).toNat := by simp [fresh_chain]
  have hinv0 : s0.Xt.n_cols = A.n_cols ∧ s0.Xt.wf ∧ intervals_ok s0.draws ∧
      (s0.run = true → (∀ e ∈ s0.draws, draw_in_box e) →
        inside A b (s0.Xt.rows.getD (1 - 1) []) ∧ in_unit_box (s0.Xt.rows.getD (1 - 1) [])) := by
    rw [hs0]
    refine ⟨rfl, ?_, ?_, ?_⟩
    · exact wf_set_rows (fresh_chain h A.n_cols (M + burnin).toNat) 0 st
        (fresh_chain_wf h _ _) hlen
    · intro pre d post heq
      simp at heq
    · intro _ _
      simp only
      rw [getD_set_rows _ _ _ _ (by rw [hfr]; exact hN), if_pos rfl, ← hsr.1]
      exact ⟨hin, hbox⟩
  have hfin := foldlM_range_inv (gibbs_iter h k n A b prior A.n_cols)
    (fun i s => s.Xt.n_cols = A.n_cols ∧ s.Xt.wf ∧ intervals_ok s.draws ∧
      (s.run = true → (∀ e ∈ s.draws, draw_in_box e) →
        inside A b (s.Xt.rows.getD (i - 1) []) ∧ in_unit_box (s.Xt.rows.getD (i - 1) [])))
    (fun _ => True) (fun _ _ _ _ _ => trivial) (last - 1) 1
    (fun i s s1 _ _ hinv hs _ => by
      have := gibbs_iter_box h k n A b prior i hA hb s s1 hs hinv
      simp only [Nat.add_sub_cancel]
      exact this)
    s0 s hfold trivial hinv0
  exact hfin.2.2.1

/-- C19: in exact arithmetic, for a system `(A, b)` of matching dimensions: (1) at every
point `x` with `A * x ≤ b` and `x` in `[0, 1]^D` and every coordinate `j`, the bounds are
computed and satisfy `bmin ≤ x[j] ≤ bmax`, so `bmin ≤ bmax`, and setting coordinate `j` to a
value in `[bmin, bmax]` and in `[0, 1]` gives a point that again satisfies `A * x ≤ b` and
lies in `[0, 1]^D`; (2) in every run of the sampler from such a starting point, up to any
iteration, each interval handed to `rbeta_trunc` satisfies `bmin ≤ bmax`, provided the calls
before it returned values in their intervals and in `[0, 1]`. -/
theorem gibbs_interval_not_inverted (A : Mat) (b : Vec) (hA : A.wf)
    (hb : b.length = A.n_rows) :
    (∀ x j, x.length = A.n_cols → j < A.n_cols → inside A b x → in_unit_box x →
      ∃ bmin bmax, gibbs_bounds A b x j = .ok (bmin, bmax) ∧
        bmin ≤ x.getD j 0 ∧ x.getD j 0 ≤ bmax ∧ bmin ≤ bmax ∧
        ∀ v, bmin ≤ v → v ≤ bmax → 0 ≤ v → v ≤ 1 →
          inside A b (x.set j v) ∧ in_unit_box (x.set j v)) ∧
    (∀ (h : Host) (k n prior : Vec) (M burnin : Int) (start : Vec) (t last : Nat) (s : Gibbs),
      inside A b start → in_unit_box start →
      sampling_binomial_chain h k n A b prior M start burnin t last = .ok s →
      ∀ pre d post, s.draws = pre ++ d :: post → (∀ e ∈ pre, draw_in_box e) →
        d.bmin ≤ d.bmax) := by
  constructor
  · intro x j hx hj hin hbox
    obtain ⟨bmin, bmax, hg, h1, h2⟩ := gibbs_bounds_enclose A b x j hx hb hj hin hbox
    refine ⟨bmin, bmax, hg, h1, h2, le_trans h1 h2, ?_⟩
    intro v hv1 hv2 hv3 hv4
    exact ⟨gibbs_update_inside A b x j bmin bmax v hA hx hb hin hg hv1 hv2,
      in_unit_box_set x j v hbox hv3 hv4⟩
  · intro h k n prior M burnin start t last s hin hbox hchain
    exact sampling_binomial_intervals h k n A b prior M burnin start t last s hA hb hin hbox
      hchain

/-- C19, on the triangle `x0 ≤ x1`, `x0 + x1 ≤ 1`: the bounds of coordinate `0` at the point
`(0, 1/2)`, and the four intervals of the run with `M = 2`, `burnin = 1` from that point. -/
theorem gibbs_interval_not_inverted_witness :
    (∃ bmin bmax, gibbs_bounds ⟨2, [[1, -1], [1, 1]]⟩ [0, 1] [0, 1/2] 0 = .ok (bmin, bmax) ∧
        bmin ≤ ([0, 1/2] : Vec).getD 0 0 ∧ ([0, 1/2] : Vec).getD 0 0 ≤ bmax ∧ bmin ≤ bmax ∧
        ∀ v, bmin ≤ v → v ≤ bmax → 0 ≤ v → v ≤ 1 →
          inside ⟨2, [[1, -1], [1, 1]]⟩ [0, 1] (([0, 1/2] : Vec).set 0 v) ∧
          in_unit_box (([0, 1/2] : Vec).set 0 v)) ∧
    (∀ pre d post,
      ([⟨0, 1/2, 1/4⟩, ⟨1/4, 3/4, 1/2⟩, ⟨0, 1/2, 1/4⟩, ⟨1/4, 3/4, 1/2⟩] : List Draw)
        = pre ++ d :: post → (∀ e ∈ pre, draw_in_box e) → d.bmin ≤ d.bmax) :=
  ⟨(gibbs_interval_not_inverted ⟨2, [[1, -1], [1, 1]]⟩ [0, 1] (by decide) rfl).1
      [0, 1/2] 0 rfl (by decide) (by decide!) (by decide!),
    (gibbs_interval_not_inverted ⟨2, [[1, -1], [1, 1]]⟩ [0, 1] (by decide) rfl).2
      host_uniform [0, 0] [0, 0] [1, 1] 2 1 [0, 1/2] 0 3
      { Xt := ⟨2, [[0, 1/2], [1/4, 1/2], [1/4, 1/2]]⟩, run := true, idx := [0, 1], clock := 6,
        draws := [⟨0, 1/2, 1/4⟩, ⟨1/4, 3/4, 1/2⟩, ⟨0, 1/2, 1/4⟩, ⟨1/4, 3/4, 1/2⟩] }
      (by decide!) (by decide!) (by decide!)⟩

/-! ### The hit-and-run sampler keeps the chain inside -/

theorem find_isEmpty (p : ℚ → Bool) (v : Vec) : (find p v).isEmpty = !any p v := by
  cases hany : any p v with
  | true =>
    unfold any at hany
    obtain ⟨a, ha, hp⟩ := List.any_eq_true.mp hany
    obtain ⟨r, hr, hget⟩ := List.getElem_of_mem ha
    have hmem : r ∈ find p v := by
      rw [mem_find, List.getD_eq_getElem _ _ hr, hget]
      exact ⟨hr, hp⟩
    cases hf : find p v with
    | nil => rw [hf] at hmem; exact absurd hmem (List.not_mem_nil r)
    | cons c cs => rfl
  | false =>
    cases hf : find p v with
    | nil => rfl
    | cons c cs =>
      have hmem : c ∈ find p v := by rw [hf]; exact List.mem_cons_self _ _
      rw [mem_find] at hmem
      have : any p v = true := by
        unfold any
        exact List.any_eq_true.mpr ⟨_, getD_mem v c hmem.1, hmem.2⟩
      rw [hany] at this
      cases this

theorem hitandrun_bmin_eq (rhs z : Vec) : hitandrun_bmin rhs z = gibbs_bmin rhs z := by
  unfold hitandrun_bmin gibbs_bmin
  rw [find_isEmpty]
  cases any (fun a => decide (a < 0)) z <;> rfl

theorem hitandrun_bmax_eq (rhs z : Vec) : hitandrun_bmax rhs z = gibbs_bmax rhs z := by
  unfold hitandrun_bmax gibbs_bmax
  rw [find_isEmpty]
  cases any (fun a => decide (a > 0)) z <;> rfl

theorem dotq_add_smul (x u a : Vec) (t : ℚ) (hlen : x.length = u.length) :
    dotq (List.zipWith (· + ·) x (u.map (fun c => t * c))) a = dotq x a + t * dotq u a := by
  unfold dotq
  induction x generalizing u a with
  | nil =>
    cases u with
    | nil => simp
    | cons c cs => simp at hlen
  | cons e es ih =>
    cases u with
    | nil => simp at hlen
    | cons c cs =>
      cases a with
      | nil => simp
      | cons a0 as =>
        have hlen2 : es.length = cs.length := by simpa using hlen
        simp only [List.map_cons, List.zipWith_cons_cons, List.sum_cons, ih cs as hlen2]
        ring

/-- The bounds of the step are returned for every point, direction and system of matching
dimensions; with `z[r] = dot(A[r], u)` and `rhs[r] = (b[r] - dot(A[r], x)) / z[r]`, `bmin` is
the greatest `rhs[r]` over the rows with `z[r] < 0` (`0` when there is none) and `bmax` the
least over the rows with `z[r] > 0` (`1` when there is none). -/
theorem hitandrun_bounds_char (A : Mat) (b x u : Vec)
    (hx : x.length = A.n_cols) (hu : u.length = A.n_cols) (hb : b.length = A.n_rows) :
    ∃ bmin bmax, hitandrun_bounds A b x u = .ok (bmin, bmax) ∧
      (∀ r, r < A.n_rows → dotq (A.rows.getD r []) u < 0 →
        (b.getD r 0 - dotq (A.rows.getD r []) x) / dotq (A.rows.getD r []) u ≤ bmin) ∧
      ((∃ r, r < A.n_rows ∧ dotq (A.rows.getD r []) u < 0 ∧
          bmin = (b.getD r 0 - dotq (A.rows.getD r []) x) / dotq (A.rows.getD r []) u) ∨
       ((∀ r, r < A.n_rows → ¬ dotq (A.rows.getD r []) u < 0) ∧ bmin = 0)) ∧
      (∀ r, r < A.n_rows → 0 < dotq (A.rows.getD r []) u →
        bmax ≤ (b.getD r 0 - dotq (A.rows.getD r []) x) / dotq (A.rows.getD r []) u) ∧
      ((∃ r, r < A.n_rows ∧ 0 < dotq (A.rows.getD r []) u ∧
          bmax = (b.getD r 0 - dotq (A.rows.getD r []) x) / dotq (A.rows.getD r []) u) ∨
       ((∀ r, r < A.n_rows → ¬ 0 < dotq (A.rows.getD r []) u) ∧ bmax = 1)) := by
  have hR : A.n_rows = A.rows.length := rfl
  have hmulu : A.mulVec u = .ok (A.rows.map (fun a => dotq a u)) := by
    rw [Mat.mulVec, if_pos hu.symm]
  have hmulx : A.mulVec x = .ok (A.rows.map (fun a => dotq a x)) := by
    rw [Mat.mulVec, if_pos hx.symm]
  have hd : vsub b (A.rows.map (fun a => dotq a x))
      = .ok (List.zipWith (· - ·) b (A.rows.map (fun a => dotq a x))) := by
    rw [vsub, if_pos (by rw [List.length_map, hb, hR])]
  have hrhs : vdiv (List.zipWith (· - ·) b (A.rows.map (fun a => dotq a x)))
        (A.rows.map (fun a => dotq a u))
      = .ok (List.zipWith (· / ·) (List.zipWith (· - ·) b (A.rows.map (fun a => dotq a x)))
          (A.rows.map (fun a => dotq a u))) := by
    rw [vdiv, if_pos (by simp [hb, hR])]
  have hlen : (List.zipWith (· / ·) (List.zipWith (· - ·) b (A.rows.map (fun a => dotq a x)))
      (A.rows.map (fun a => dotq a u))).length
        = (A.rows.map (fun a => dotq a u)).length := by
    simp [hb, hR]
  have hz : ∀ r, r < A.n_rows →
      (A.rows.map (fun a => dotq a u)).getD r 0 = dotq (A.rows.getD r []) u :=
    fun r hr => getD_map_rows A _ r hr
  have hval : ∀ r, r < A.n_rows →
      (List.zipWith (· / ·) (List.zipWith (· - ·) b (A.rows.map (fun a => dotq a x)))
        (A.rows.map (fun a => dotq a u))).getD r 0
      = (b.getD r 0 - dotq (A.rows.getD r []) x) / dotq (A.rows.getD r []) u := by
    intro r hr
    have hbr : r < b.length := by rw [hb]; exact hr
    rw [getD_zipWith _ _ _ r (by simp [hb, hR]; exact hr) (by simp; exact hr),
      getD_zipWith _ _ _ r hbr (by simp; exact hr),
      getD_map_rows A _ r hr, getD_map_rows A _ r hr]
  obtain ⟨lo, hlo, hlo1, hlo2⟩ := gibbs_bmin_char _ _ hlen
  obtain ⟨hi, hhi, hhi1, hhi2⟩ := gibbs_bmax_char _ _ hlen
  rw [List.length_map] at hlo1 hlo2 hhi1 hhi2
  refine ⟨lo, hi, ?_, ?_, ?_, ?_, ?_⟩
  · simp only [hitandrun_bounds, hmulu, hmulx, hd, hrhs, ok_bind, hitandrun_bmin_eq,
      hitandrun_bmax_eq, hlo, hhi, pure_eq_ok]
  · intro r hr hneg
    rw [← hval r hr]
    exact hlo1 r hr (by rw [hz r hr]; exact hneg)
  · rcases hlo2 with ⟨r, hr, hneg, hv⟩ | ⟨hnone, hv⟩
    · exact Or.inl ⟨r, hr, by rw [← hz r hr]; exact hneg, by rw [← hval r hr]; exact hv⟩
    · exact Or.inr ⟨fun r hr hneg => hnone r hr (by rw [hz r hr]; exact hneg), hv⟩
  · intro r hr hpos
    rw [← hval r hr]
    exact hhi1 r hr (by rw [hz r hr]; exact hpos)
  · rcases hhi2 with ⟨r, hr, hpos, hv⟩ | ⟨hnone, hv⟩
    · exact Or.inl ⟨r, hr, by rw [← hz r hr]; exact hpos, by rw [← hval r hr]; exact hv⟩
    · exact Or.inr ⟨fun r hr hpos => hnone r hr (by rw [hz r hr]; exact hpos), hv⟩

/-- One transition: at a point inside, the bounds satisfy `bmin ≤ 0 ≤ bmax`, and every step
`t` in `[bmin, bmax]` along `u` leads to a point inside. -/
theorem hitandrun_step_inside (A : Mat) (b x u : Vec) (bmin bmax : ℚ)
    (hx : x.length = A.n_cols) (hu : u.length = A.n_cols)
    (hb : b.length = A.n_rows) (hin : inside A b x)
    (hg : hitandrun_bounds A b x u = .ok (bmin, bmax)) :
    bmin ≤ 0 ∧ 0 ≤ bmax ∧ ∀ t, bmin ≤ t → t ≤ bmax →
      vadd x (u.map (fun c => t * c))
        = .ok (List.zipWith (· + ·) x (u.map (fun c => t * c))) ∧
      inside A b (List.zipWith (· + ·) x (u.map (fun c => t * c))) := by
  obtain ⟨lo, hi, hg2, hlo1, hlo2, hhi1, hhi2⟩ := hitandrun_bounds_char A b x u hx hu hb
  rw [hg, Except.ok.injEq, Prod.mk.injEq] at hg2
  rw [← hg2.1] at hlo1 hlo2
  rw [← hg2.2] at hhi1 hhi2
  have hrow : ∀ r, r < A.n_rows → dotq (A.rows.getD r []) x ≤ b.getD r 0 := by
    intro r hr
    have := hin r (by rw [hb]; exact hr)
    rw [dotq_comm] at this
    exact this
  refine ⟨?_, ?_, ?_⟩
  · rcases hlo2 with ⟨r, hr, hneg, hv⟩ | ⟨_, hv⟩
    · rw [hv, div_le_iff_of_neg hneg]
      have := hrow r hr
      linarith
    · rw [hv]
  · rcases hhi2 with ⟨r, hr, hpos, hv⟩ | ⟨_, hv⟩
    · rw [hv, le_div_iff₀ hpos]
      have := hrow r hr
      linarith
    · rw [hv]; exact zero_le_one
  · intro t ht1 ht2
    refine ⟨by rw [vadd, if_pos (by rw [List.length_map, hx, hu])], ?_⟩
    intro r hr
    have hr2 : r < A.n_rows := by rw [← hb]; exact hr
    rw [dotq_add_smul x u _ t (by rw [hx, hu]), dotq_comm x, dotq_comm u]
    have hold := hrow r hr2
    rcases lt_trichotomy (dotq (A.rows.getD r []) u) 0 with hc | hc | hc
    · have h1 := le_trans (hlo1 r hr2 hc) ht1
      rw [div_le_iff_of_neg hc] at h1
      linarith
    · rw [hc, mul_zero, add_zero]
      exact hold
    · have h1 := le_trans ht2 (hhi1 r hr2 hc)
      rw [le_div_iff₀ hc] at h1
      linarith

theorem direction_length (h : Host) (t D : Nat) : (direction h t D).length = D := by
  simp [direction]

theorem hitandrun_check_frame (h : Host) (s : HitRun) (i : Nat) :
    (hitandrun_check h s i).Xt = s.Xt := by
  unfold hitandrun_check
  split <;> rfl

theorem hitandrun_check_run (h : Host) (s : HitRun) (i : Nat)
    (hrun : ∀ c, h.check_abort c = false) (hs : s.run = true) :
    (hitandrun_check h s i).run = true := by
  unfold hitandrun_check
  split
  · simp [hrun]
  · exact hs

/-- What a successful iteration of the hit-and-run sampler did, when it was not stopped. -/
theorem hitandrun_iter_ok (h : Host) (A : Mat) (b : Vec) (D : Nat) (s s1 : HitRun) (i : Nat)
    (hr : (hitandrun_check h s i).run = true)
    (hstep : hitandrun_iter h A b D s i = .ok s1) :
    ∃ x bmin bmax,
      s.Xt.row (i - 1) = .ok x ∧
      hitandrun_bounds A b x (direction h (hitandrun_check h s i).clock D) = .ok (bmin, bmax) ∧
      ∃ xnew Xt,
        vadd x ((direction h (hitandrun_check h s i).clock D).map
          (fun c => (bmin + (bmax - bmin) * h.runif ((hitandrun_check h s i).clock + 1)) * c))
          = .ok xnew ∧
        s.Xt.set_row i xnew = .ok Xt ∧ s1.Xt = Xt ∧ s1.run = true := by
  unfold hitandrun_iter at hstep
  simp only [hr, if_true, hitandrun_check_frame] at hstep
  obtain ⟨x, hrow, hrest⟩ := bind_eq_ok _ _ _ hstep
  obtain ⟨p, hgb, hrest2⟩ := bind_eq_ok _ _ _ hrest
  obtain ⟨bmin, bmax⟩ := p
  simp only [R_runif] at hrest2
  obtain ⟨xnew, hadd, hrest3⟩ := bind_eq_ok _ _ _ hrest2
  obtain ⟨Xt, hset, hrest4⟩ := bind_eq_ok _ _ _ hrest3
  simp only [pure_eq_ok, Except.ok.injEq] at hrest4
  refine ⟨x, bmin, bmax, hrow, hgb, xnew, Xt, hadd, hset, ?_, ?_⟩
  · rw [← hrest4]
  · rw [← hrest4]

/-- One iteration keeps the invariant and extends it to the row of that iteration, when no
abort is signalled and the draws of `runif` on the unit interval are in `[0, 1]`. -/
theorem hitandrun_iter_inv (h : Host) (A : Mat) (b : Vec) (N i : Nat)
    (hb : b.length = A.n_rows) (hrun : ∀ c, h.check_abort c = false)
    (hunif : ∀ c, 0 ≤ h.runif c ∧ h.runif c ≤ 1) (hi1 : 1 ≤ i) (s s1 : HitRun)
    (hs : s.Xt.n_cols = A.n_cols ∧ s.Xt.wf ∧ s.Xt.n_rows = N ∧ rows_inside A b s.Xt i ∧
      s.run = true)
    (hstep : hitandrun_iter h A b A.n_cols s i = .ok s1) :
    s1.Xt.n_cols = A.n_cols ∧ s1.Xt.wf ∧ s1.Xt.n_rows = N ∧ rows_inside A b s1.Xt (i + 1) ∧
      s1.run = true := by
  obtain ⟨hcols, hwf, hrows, hin, hr⟩ := hs
  have hrun2 := hitandrun_check_run h s i hrun hr
  obtain ⟨x, bmin, bmax, hrow, hgb, xnew, Xt, hadd, hset, hXt, hrun3⟩ :=
    hitandrun_iter_ok h A b A.n_cols s s1 i hrun2 hstep
  obtain ⟨hp1, hp2⟩ := row_ok _ _ _ hrow
  obtain ⟨hs1, hs2, hs3⟩ := set_row_ok _ _ _ _ hset
  have hxlen : x.length = A.n_cols := by
    rw [← hp2, wf_getD_length _ hwf (i - 1) hp1, hcols]
  have hxin : inside A b x := by
    rw [← hp2]; exact hin (i - 1) (by omega) hp1
  obtain ⟨hlo, hhi, hmove⟩ := hitandrun_step_inside A b x _ bmin bmax hxlen
    (direction_length h _ _) hb hxin hgb
  have hu := hunif ((hitandrun_check h s i).clock + 1)
  have ht1 : bmin ≤ bmin + (bmax - bmin) * h.runif ((hitandrun_check h s i).clock + 1) := by
    have : 0 ≤ (bmax - bmin) * h.runif ((hitandrun_check h s i).clock + 1) :=
      mul_nonneg (by linarith) hu.1
    linarith
  have ht2 : bmin + (bmax - bmin) * h.runif ((hitandrun_check h s i).clock + 1) ≤ bmax := by
    have : (bmax - bmin) * h.runif ((hitandrun_check h s i).clock + 1) ≤ (bmax - bmin) * 1 :=
      mul_le_mul_of_nonneg_left hu.2 (by linarith)
    linarith
  obtain ⟨hadd2, hnew⟩ := hmove _ ht1 ht2
  rw [hadd2, Except.ok.injEq] at hadd
  rw [hXt, hs3]
  refine ⟨hcols, wf_set_rows s.Xt i xnew hwf hs2, ?_, ?_, hrun3⟩
  · simp only [Mat.n_rows, List.length_set]; exact hrows
  · intro c hc1 hc2
    simp only [Mat.n_rows, List.length_set] at hc2
    simp only
    rw [getD_set_rows _ _ _ _ hs1]
    by_cases hic : i = c
    · rw [if_pos hic, ← hadd]; exact hnew
    · rw [if_neg hic]
      exact hin c (by omega) hc2

theorem foldlM_range_total {σ : Type} (f : σ → Nat → Except Err σ) (Inv : Nat → σ → Prop) :
    ∀ (len n0 : Nat),
      (∀ i s, n0 ≤ i → i < n0 + len → Inv i s → ∃ s1, f s i = .ok s1 ∧ Inv (i + 1) s1) →
      ∀ s, Inv n0 s →
        ∃ s1, List.foldlM f s (List.range' n0 len) = .ok s1 ∧ Inv (n0 + len) s1 := by
  intro len
  induction len with
  | zero =>
    intro n0 _ s hinv
    exact ⟨s, rfl, hinv⟩
  | succ len ih =>
    intro n0 hstep s hinv
    obtain ⟨s2, hf, hinv2⟩ := hstep n0 s (le_refl _) (by omega) hinv
    obtain ⟨s1, hfold, hinv1⟩ := ih (n0 + 1)
      (fun i s h1 h2 => hstep i s (by omega) (by omega)) s2 hinv2
    refine ⟨s1, ?_, ?_⟩
    · rw [List.range'_succ, List.foldlM_cons, hf, ok_bind]
      exact hfold
    · rw [show n0 + (len + 1) = n0 + 1 + len by omega]
      exact hinv1

/-- An iteration below the length of the chain returns, when the invariant holds. -/
theorem hitandrun_iter_total (h : Host) (A : Mat) (b : Vec) (N i : Nat)
    (hb : b.length = A.n_rows) (hrun : ∀ c, h.check_abort c = false)
    (hi1 : 1 ≤ i) (hiN : i < N) (s : HitRun)
    (hs : s.Xt.n_cols = A.n_cols ∧ s.Xt.wf ∧ s.Xt.n_rows = N ∧ rows_inside A b s.Xt i ∧
      s.run = true) :
    ∃ s1, hitandrun_iter h A b A.n_cols s i = .ok s1 := by
  obtain ⟨hcols, hwf, hrows, _, hr⟩ := hs
  have hrun2 := hitandrun_check_run h s i hrun hr
  have hlt : i - 1 < s.Xt.rows.length := by
    have : s.Xt.rows.length = N := hrows
    omega
  have hrow : s.Xt.row (i - 1) = .ok (s.Xt.rows.getD (i - 1) []) := row_eq_getD _ _ hlt
  have hxlen : (s.Xt.rows.getD (i - 1) []).length = A.n_cols := by
    rw [wf_getD_length _ hwf (i - 1) hlt, hcols]
  obtain ⟨bmin, bmax, hgb, _⟩ := hitandrun_bounds_char A b (s.Xt.rows.getD (i - 1) [])
    (direction h (hitandrun_check h s i).clock A.n_cols) hxlen (direction_length h _ _) hb
  have hadd : ∀ t : ℚ, vadd (s.Xt.rows.getD (i - 1) [])
      ((direction h (hitandrun_check h s i).clock A.n_cols).map (fun c => t * c))
      = .ok (List.zipWith (· + ·) (s.Xt.rows.getD (i - 1) [])
          ((direction h (hitandrun_check h s i).clock A.n_cols).map (fun c => t * c))) := by
    intro t
    rw [vadd, if_pos (by rw [List.length_map, hxlen, direction_length])]
  have hset : ∀ v : Vec, v.length = A.n_cols →
      s.Xt.set_row i v = .ok ⟨s.Xt.n_cols, s.Xt.rows.set i v⟩ := by
    intro v hv
    rw [Mat.set_row, if_pos (by rw [hrows]; exact hiN), if_pos (by rw [hv, hcols])]
  unfold hitandrun_iter
  simp only [hrun2, if_true, hitandrun_check_frame, hrow, ok_bind, hgb, R_runif, hadd]
  rw [hset _ (by rw [List.length_zipWith, List.length_map, hxlen, direction_length, min_self])]
  exact ⟨_, rfl⟩

/-- What a successful entry into the main loop of the hit-and-run sampler tells. -/
theorem sampling_hitandrun_init_ok (h : Host) (A : Mat) (b : Vec) (M : Int) (start : Vec)
    (burnin : Int) (t : Nat) (s0 : HitRun)
    (hinit : sampling_hitandrun_init h A b M start burnin t = .ok s0) :
    ∃ st t1, start_random h A b M start t = .ok (st, t1) ∧
      0 < (M + burnin).toNat ∧ st.length = A.n_cols ∧
      s0 = { Xt := ⟨A.n_cols, (fresh_chain h A.n_cols (M + burnin).toNat).rows.set 0 st⟩,
             run := true, clock := t1 } := by
  unfold sampling_hitandrun_init at hinit
  by_cases hneg : M + burnin < 0
  · simp only [if_pos hneg] at hinit; cases hinit
  · simp only [if_neg hneg] at hinit
    obtain ⟨p, hsr, hrest⟩ := bind_eq_ok _ _ _ hinit
    obtain ⟨st, t1⟩ := p
    obtain ⟨Xt0, hset, hpack⟩ := bind_eq_ok _ _ _ hrest
    simp only [pure_eq_ok, Except.ok.injEq] at hpack
    obtain ⟨hs1, hs2, hs3⟩ := set_row_ok _ _ _ _ hset
    have hfr : (fresh_chain h A.n_cols (M + burnin).toNat).rows.length
        = (M + burnin).toNat := by simp [fresh_chain]
    refine ⟨st, t1, hsr, by rw [← hfr]; exact hs1, hs2, ?_⟩
    rw [← hpack, hs3]
    rfl

/-- The invariant holds when the main loop of the hit-and-run sampler is entered from a
starting point inside. -/
theorem sampling_hitandrun_init_inv (h : Host) (A : Mat) (b : Vec) (M : Int) (start : Vec)
    (burnin : Int) (t : Nat) (s0 : HitRun) (hA : A.wf) (hb : b.length = A.n_rows)
    (hstart : inside A b start)
    (hinit : sampling_hitandrun_init h A b M start burnin t = .ok s0) :
    s0.Xt.n_cols = A.n_cols ∧ s0.Xt.wf ∧ s0.Xt.n_rows = (M + burnin).toNat ∧
      rows_inside A b s0.Xt 1 ∧ s0.run = true := by
  obtain ⟨st, t1, hsr, hN, hlen, hs0⟩ := sampling_hitandrun_init_ok h A b M start burnin t
    s0 hinit
  have hst := start_random_inside h A b M start t hA (le_of_eq hb) hstart st t1 hsr
  have hfr : (fresh_chain h A.n_cols (M + burnin).toNat).rows.length
      = (M + burnin).toNat := by simp [fresh_chain]
  rw [hs0]
  refine ⟨rfl, ?_, ?_, ?_, rfl⟩
  · exact wf_set_rows (fresh_chain h A.n_cols (M + burnin).toNat) 0 st
      (fresh_chain_wf h _ _) hlen
  · simp only [Mat.n_rows, List.length_set]; exact hfr
  · intro c hc1 hc2
    have hc0 : c = 0 := by omega
    subst hc0
    simp only
    rw [getD_set_rows _ _ _ _ (by rw [hfr]; exact hN), if_pos rfl]
    exact hst

/-- The main loop of the hit-and-run sampler is entered when the starting point is given and
has the width of `A`. -/
theorem sampling_hitandrun_init_total (h : Host) (A : Mat) (b : Vec) (M : Int) (start : Vec)
    (burnin : Int) (t : Nat) (hN : 0 < M + burnin) (hne : start ≠ [])
    (h0 : start.getD 0 0 ≠ -1) (hlen : start.length = A.n_cols) :
    ∃ s0, sampling_hitandrun_init h A b M start burnin t = .ok s0 := by
  have hfr : (fresh_chain h A.n_cols (M + burnin).toNat).n_rows = (M + burnin).toNat := by
    simp [fresh_chain, Mat.n_rows]
  have hset : (fresh_chain h A.n_cols (M + burnin).toNat).set_row 0 start
      = .ok ⟨A.n_cols, (fresh_chain h A.n_cols (M + burnin).toNat).rows.set 0 start⟩ := by
    rw [Mat.set_row, if_pos (by rw [hfr]; omega), if_pos (by rw [hlen]; rfl)]
    rfl
  unfold sampling_hitandrun_init
  simp only [if_neg (not_lt.mpr (le_of_lt hN)), start_random_skip h A b M start t hne h0,
    ok_bind, hset]
  exact ⟨_, rfl⟩

/-- Every call of the hit-and-run sampler that returns, from a starting point inside and
without abort, gives `M` rows that are all inside. -/
theorem sampling_hitandrun_rows (h : Host) (A : Mat) (b : Vec) (M burnin : Int) (start : Vec)
    (t : Nat) (out : Mat × Nat) (hA : A.wf) (hb : b.length = A.n_rows) (hM : 1 ≤ M)
    (hburn : 1 ≤ burnin) (hstart : inside A b start) (hrun : ∀ c, h.check_abort c = false)
    (hunif : ∀ c, 0 ≤ h.runif c ∧ h.runif c ≤ 1)
    (hout : sampling_hitandrun h A b M start burnin t = .ok out) :
    out.1.n_rows = M.toNat ∧ ∀ x ∈ out.1.rows, inside A b x := by
  unfold sampling_hitandrun at hout
  obtain ⟨s0, hinit, hrest⟩ := bind_eq_ok _ _ _ hout
  obtain ⟨sfin, hfold, hrest2⟩ := bind_eq_ok _ _ _ hrest
  obtain ⟨Xt1, hshed, hpack⟩ := bind_eq_ok _ _ _ hrest2
  simp only [pure_eq_ok, Except.ok.injEq] at hpack
  subst hpack
  have hinv0 := sampling_hitandrun_init_inv h A b M start burnin t s0 hA hb hstart hinit
  have hfin := foldlM_range_inv (hitandrun_iter h A b A.n_cols)
    (fun i s => s.Xt.n_cols = A.n_cols ∧ s.Xt.wf ∧ s.Xt.n_rows = (M + burnin).toNat ∧
      rows_inside A b s.Xt i ∧ s.run = true)
    (fun _ => True) (fun _ _ _ _ _ => trivial) ((M + burnin).toNat - 1) 1
    (fun i s s1 hi1 _ hinv hs _ =>
      hitandrun_iter_inv h A b _ i hb hrun hunif hi1 s s1 hinv hs)
    s0 sfin hfold trivial hinv0
  obtain ⟨_, _, hrows, hin, _⟩ := hfin
  obtain ⟨_, _, hX1⟩ := shed_rows_ok _ _ _ _ hshed
  have hu : int_to_uword (burnin - 1) = burnin.toNat - 1 := by
    unfold int_to_uword
    rw [if_pos (by omega)]
    omega
  rw [hu] at hX1
  have hlenN : sfin.Xt.rows.length = (M + burnin).toNat := hrows
  constructor
  · rw [hX1]
    simp only [Mat.n_rows, List.take_zero, List.nil_append, List.length_drop]
    omega
  · intro x hx
    rw [hX1] at hx
    simp only [List.take_zero, List.nil_append] at hx
    obtain ⟨c, hc, hget⟩ := List.getElem_of_mem (List.mem_of_mem_drop hx)
    have := hin c (by omega) hc
    rw [List.getD_eq_getElem _ _ hc, hget] at this
    exact this

/-- The hit-and-run sampler returns when the starting point is given, has the width of `A`
and is inside, `M ≥ 1`, `burnin ≥ 1` and no abort is signalled. -/
theorem sampling_hitandrun_total (h : Host) (A : Mat) (b : Vec) (M burnin : Int)
    (start : Vec) (t : Nat) (hA : A.wf) (hb : b.length = A.n_rows) (hM : 1 ≤ M)
    (hburn : 1 ≤ burnin) (hne : start ≠ []) (h0 : start.getD 0 0 ≠ -1)
    (hlen : start.length = A.n_cols) (hstart : inside A b start)
    (hrun : ∀ c, h.check_abort c = false) (hunif : ∀ c, 0 ≤ h.runif c ∧ h.runif c ≤ 1) :
    ∃ out, sampling_hitandrun h A b M start burnin t = .ok out := by
  obtain ⟨s0, hinit⟩ := sampling_hitandrun_init_total h A b M start burnin t (by omega) hne h0
    hlen
  have hinv0 := sampling_hitandrun_init_inv h A b M start burnin t s0 hA hb hstart hinit
  obtain ⟨sfin, hfold, hfin⟩ := foldlM_range_total (hitandrun_iter h A b A.n_cols)
    (fun i s => s.Xt.n_cols = A.n_cols ∧ s.Xt.wf ∧ s.Xt.n_rows = (M + burnin).toNat ∧
      rows_inside A b s.Xt i ∧ s.run = true)
    ((M + burnin).toNat - 1) 1
    (fun i s hi1 hi2 hinv => by
      obtain ⟨s1, hs1⟩ := hitandrun_iter_total h A b (M + burnin).toNat i hb hrun hi1
        (by omega) s hinv
      exact ⟨s1, hs1, hitandrun_iter_inv h A b _ i hb hrun hunif hi1 s s1 hinv hs1⟩)
    s0 hinv0
  have hu : int_to_uword (burnin - 1) = burnin.toNat - 1 := by
    unfold int_to_uword
    rw [if_pos (by omega)]
    omega
  have hshed : sfin.Xt.shed_rows 0 (int_to_uword (burnin - 1))
      = .ok ⟨sfin.Xt.n_cols, sfin.Xt.rows.take 0 ++ sfin.Xt.rows.drop (burnin.toNat - 1 + 1)⟩ := by
    rw [hu, Mat.shed_rows, if_neg (by rw [hfin.2.2.1]; omega)]
  unfold sampling_hitandrun
  simp only [hinit, ok_bind, hfold, hshed]
  exact ⟨_, rfl⟩

/-- C16: in exact arithmetic, for a system `(A, b)` of matching dimensions: (1) at every point
`x` with `A * x ≤ b` and every direction `u`, the bounds of the step are computed, `bmin` is
the greatest of the quotients `(b[r] - dot(A[r], x)) / (A * u)[r]` over the rows with
`(A * u)[r] < 0` (`0` when there is none), `bmax` the least of them over the rows with
`(A * u)[r] > 0` (`1` when there is none), and for every step `t` with `bmin ≤ t ≤ bmax` the
new point `x + t * u` satisfies `A * (x + t * u) ≤ b`; (2) every call of `sampling_hitandrun`
that returns, with `M ≥ 1`, `burnin ≥ 1`, a starting point that satisfies `A * start ≤ b`, no
abort and the draws of `runif` on the unit interval in `[0, 1]`, gives `M` rows that all
satisfy `A * x ≤ b`; (3) such a call does return when the starting point is given (its first
element is not -1) and has the width of `A`. -/
theorem hitandrun_feasible (A : Mat) (b : Vec) (hA : A.wf) (hb : b.length = A.n_rows) :
    (∀ x u, x.length = A.n_cols → u.length = A.n_cols → inside A b x →
      ∃ bmin bmax, hitandrun_bounds A b x u = .ok (bmin, bmax) ∧
        (∀ r, r < A.n_rows → dotq (A.rows.getD r []) u < 0 →
          (b.getD r 0 - dotq (A.rows.getD r []) x) / dotq (A.rows.getD r []) u ≤ bmin) ∧
        ((∃ r, r < A.n_rows ∧ dotq (A.rows.getD r []) u < 0 ∧
            bmin = (b.getD r 0 - dotq (A.rows.getD r []) x) / dotq (A.rows.getD r []) u) ∨
         ((∀ r, r < A.n_rows → ¬ dotq (A.rows.getD r []) u < 0) ∧ bmin = 0)) ∧
        (∀ r, r < A.n_rows → 0 < dotq (A.rows.getD r []) u →
          bmax ≤ (b.getD r 0 - dotq (A.rows.getD r []) x) / dotq (A.rows.getD r []) u) ∧
        ((∃ r, r < A.n_rows ∧ 0 < dotq (A.rows.getD r []) u ∧
            bmax = (b.getD r 0 - dotq (A.rows.getD r []) x) / dotq (A.rows.getD r []) u) ∨
         ((∀ r, r < A.n_rows → ¬ 0 < dotq (A.rows.getD r []) u) ∧ bmax = 1)) ∧
        ∀ t, bmin ≤ t → t ≤ bmax →
          ∃ xnew, vadd x (u.map (fun c => t * c)) = .ok xnew ∧ inside A b xnew) ∧
    (∀ (h : Host) (M burnin : Int) (start : Vec) (t : Nat) (out : Mat × Nat),
      1 ≤ M → 1 ≤ burnin → inside A b start → (∀ c, h.check_abort c = false) →
      (∀ c, 0 ≤ h.runif c ∧ h.runif c ≤ 1) →
      sampling_hitandrun h A b M start burnin t = .ok out →
      out.1.n_rows = M.toNat ∧ ∀ x ∈ out.1.rows, inside A b x) ∧
    (∀ (h : Host) (M burnin : Int) (start : Vec) (t : Nat),
      1 ≤ M → 1 ≤ burnin → inside A b start → (∀ c, h.check_abort c = false) →
      (∀ c, 0 ≤ h.runif c ∧ h.runif c ≤ 1) →
      start ≠ [] → start.getD 0 0 ≠ -1 → start.length = A.n_cols →
      ∃ out, sampling_hitandrun h A b M start burnin t = .ok out) := by
  refine ⟨?_, ?_, ?_⟩
  · intro x u hx hu hin
    obtain ⟨bmin, bmax, hg, h1, h2, h3, h4⟩ := hitandrun_bounds_char A b x u hx hu hb
    refine ⟨bmin, bmax, hg, h1, h2, h3, h4, ?_⟩
    intro t ht1 ht2
    obtain ⟨_, _, hmove⟩ := hitandrun_step_inside A b x u bmin bmax hx hu hb hin hg
    exact ⟨_, (hmove t ht1 ht2).1, (hmove t ht1 ht2).2⟩
  · intro h M burnin start t out hM hburn hstart hrun hunif hout
    exact sampling_hitandrun_rows h A b M burnin start t out hA hb hM hburn hstart hrun hunif
      hout
  · intro h M burnin start t hM hburn hstart hrun hunif hne h0 hlen
    exact sampling_hitandrun_total h A b M burnin start t hA hb hM hburn hne h0 hlen hstart
      hrun hunif

/-- C16, on the triangle `x0 ≤ x1`, `x0 + x1 ≤ 1`: the run with `M = 2`, `burnin = 1` from the
point `(0, 1/2)`, with a host whose directions are all `(1, 0)` and whose draws on the unit
interval are all `1/2`, returns the rows `(1/4, 1/2)` and `(3/8, 1/2)`. -/
theorem hitandrun_feasible_witness :
    (⟨2, [[1/4, 1/2], [3/8, 1/2]]⟩ : Mat).n_rows = ((2 : Int)).toNat ∧
    ∀ x ∈ (⟨2, [[1/4, 1/2], [3/8, 1/2]]⟩ : Mat).rows,
      inside ⟨2, [[1, -1], [1, 1]]⟩ [0, 1] x :=
  (hitandrun_feasible ⟨2, [[1, -1], [1, 1]]⟩ [0, 1] (by decide) rfl).2.1
    host_uniform 2 1 [0, 1/2] 0 (⟨2, [[1/4, 1/2], [3/8, 1/2]]⟩, 4)
    (by decide) (by decide) (by decide!) (fun _ => rfl) (fun _ => by norm_num [host_uniform]) (by decide!)

end Multinomineq
